import Mathlib

/-!
# Sentence alignment by n-gram overlap (`mert/mtalign.cpp`)

A shallow embedding of the alignment program: the corpus loader with its
zero-copy sentence and token views, the n-gram index, the smoothed overlap
score `computeBLEU2`, the memoised search `S` over the ten rung types and
`backTrack`.

Conventions of the embedding.

* A `char` is its unsigned byte value, a `Nat`; a `const char*` is an offset
  into the character array it points into, so a `StringPiece` carries the array,
  an offset and a length.
* `size_t` is `Nat`; subtraction wraps modulo `2^64` where the source can
  underflow (`subw`).
* A `std::vector` read past its end yields the value `oob k` of a parameter
  `oob : Nat → Nat` (the source reads `tokenStarts` one past its end in every
  run); `while` loops and recursions take a bound `fuel` and return `none`
  when it is used up.
* `float` is `ℝ`. The entries of `Stats` only ever hold n-gram counts and are
  kept as `Nat`, cast to `ℝ` where `computeBLEU2` uses them.
* The tables `seen` and `prev` are functions of the two indices; `main` sizes
  them `(sourceLen + 1) x (targetLen + 1)` and `S` and `backTrack` stay inside.
* A file is the list of its lines.

The definitions come first: the program, then the closed forms, invariants
and descriptions of results the proofs work with. The lemmas follow, and the
claims on the program close the file.
-/

namespace MtAlign

/-! ## Machine arithmetic and vectors -/

/-- The n-gram orders collected: `const size_t MAX_NGRAM_ORDER = 4`. -/
def MAX_NGRAM_ORDER : Nat := 4

/-- Number of values of a `size_t`. -/
def SIZE_MOD : Nat := 2 ^ 64

/-- Subtraction `a - b` of two `size_t` values (both below `2^64`): wraps
modulo `2^64` when `b` exceeds `a`. -/
def subw (a b : Nat) : Nat := if b ≤ a then a - b else SIZE_MOD - (b - a)

/-- Unchecked `v[k]` of a `std::vector<size_t>`: past the end the read yields
whatever the memory holds, `oob k`. -/
def vecAt (oob : Nat → Nat) (v : List Nat) (k : Nat) : Nat :=
  if h : k < v.length then v.get ⟨k, h⟩ else oob k

/-! ## StringPiece -/

/-- A `StringPiece`: `mem` is the character array the pointer points into,
`ptr` the offset of `data()` in it, `len` is `length()`. -/
structure StringPiece where
  mem : List Nat
  ptr : Nat
  len : Nat
deriving DecidableEq, Repr

namespace StringPiece

/-- The default `StringPiece()`: no data, length 0. -/
def null : StringPiece := ⟨[], 0, 0⟩

/-- The bytes a piece denotes. -/
def text (p : StringPiece) : List Nat := (p.mem.drop p.ptr).take p.len

/-- The hull of two pieces of one array,
`operator+(const StringPiece&, const StringPiece&)`. -/
def add (s1 s2 : StringPiece) : StringPiece :=
  let start := min s1.ptr s2.ptr
  let stop := max (s1.ptr + s1.len) (s2.ptr + s2.len)
  ⟨s1.mem, start, stop - start⟩

end StringPiece

/-- Modelled from the spec: `memcmp` order of two byte strings, the shorter
first when one is a prefix of the other. `util/string_piece.hh` is not among
the sources; the spec has the sequences "sorted lexicographically by content". -/
def bytesLt : List Nat → List Nat → Bool
  | [], [] => false
  | [], _ :: _ => true
  | _ :: _, [] => false
  | a :: as, b :: bs => decide (a < b) || (a == b && bytesLt as bs)

/-- Modelled from the spec: `operator<` of `StringPiece`, by content. -/
def StringPiece.lt (a b : StringPiece) : Bool := bytesLt a.text b.text

/-- The order `std::sort` works with: `a` may stand before `b` when `b < a`
is false. -/
def StringPiece.le (a b : StringPiece) : Prop := StringPiece.lt b a = false

instance StringPiece.decidableLe : DecidableRel StringPiece.le :=
  fun a b => inferInstanceAs (Decidable (StringPiece.lt b a = false))

/-! ## Sentence -/

/-- The type `NGramsByOrder`. -/
abbrev NGramsByOrder := List StringPiece

/-- The type `NGrams`. -/
abbrev NGrams := List NGramsByOrder

/-- A `Sentence`: a view of `m_length` tokens from token `m_start` of the
corpus token table. The pointer `m_tokens` is the table of the owning corpus;
the functions that read through it take the table as an argument. -/
structure Sentence where
  m_sentence : StringPiece
  m_start : Nat
  m_length : Nat
  m_ngrams : NGrams
deriving DecidableEq, Repr

namespace Sentence

/-- `Sentence::size`. -/
def size (x : Sentence) : Nat := x.m_length

/-- `Sentence::operator[]`, reading `(*m_tokens)[m_start + i]`. -/
def tok (tokens : List StringPiece) (x : Sentence) (i : Nat) : StringPiece :=
  tokens.getD (x.m_start + i) StringPiece.null

/-- `m_ngrams[j].push_back(ngram)`. -/
def pushNGram (g : NGrams) (j : Nat) (ngram : StringPiece) : NGrams :=
  g.set j (g.getD j [] ++ [ngram])

/-- `std::sort` of one order: the pieces in ascending content order. -/
def sortNGrams (l : NGramsByOrder) : NGramsByOrder :=
  l.insertionSort StringPiece.le

/-- `Sentence::CollectNGrams`. The inner loop stops at the first `j` with
`i + j >= size()`, and the test fails for every later `j` as well. -/
def CollectNGrams (tokens : List StringPiece) (x : Sentence) : Sentence :=
  if x.m_ngrams.isEmpty then
    let g0 : NGrams := List.replicate MAX_NGRAM_ORDER []
    let g1 := (List.range x.size).foldl
      (fun g i => (List.range MAX_NGRAM_ORDER).foldl
        (fun g j =>
          if i + j < x.size then pushNGram g j ((x.tok tokens i).add (x.tok tokens (i + j)))
          else g) g) g0
    let g2 := (List.range MAX_NGRAM_ORDER).foldl
      (fun g i => g.set i (sortNGrams (g.getD i []))) g1
    { x with m_ngrams := g2 }
  else x

/-- The constructor `Sentence(std::vector<StringPiece>& tokens)` of the empty
sentence: no n-grams are collected. -/
def empty : Sentence := ⟨StringPiece.null, 0, 0, []⟩

/-- The constructor `Sentence(sentence, start, length, tokens)`. -/
def make (tokens : List StringPiece) (sentence : StringPiece) (start length : Nat) :
    Sentence :=
  CollectNGrams tokens ⟨sentence, start, length, []⟩

/-- `Sentence::operator+`: the hull of two views of one corpus. -/
def add (tokens : List StringPiece) (x s : Sentence) : Sentence :=
  let start := min x.m_start s.m_start
  let stop := max (x.m_start + x.m_length) (s.m_start + s.m_length)
  let length := stop - start
  make tokens (x.m_sentence.add s.m_sentence) start length

/-- `Sentence::ngrams`, entry `i`. -/
def ngramsAt (x : Sentence) (i : Nat) : NGramsByOrder := x.m_ngrams.getD i []

end Sentence

/-! ## Corpus -/

/-- `isspace` in the "C" locale: space, `\t`, `\n`, `\v`, `\f`, `\r`. -/
def isSpace (c : Nat) : Bool := c == 32 || (9 ≤ c && c ≤ 13)

/-- The tokens `lineStream >> token` yields for a line, given the token being
read (`cur`, `none` between tokens). -/
def tokenizeAux : Option (List Nat) → List Nat → List (List Nat)
  | none, [] => []
  | some w, [] => [w]
  | none, c :: cs => if isSpace c then tokenizeAux none cs else tokenizeAux (some [c]) cs
  | some w, c :: cs =>
    if isSpace c then w :: tokenizeAux none cs else tokenizeAux (some (w ++ [c])) cs

/-- The whitespace-separated tokens of a line. -/
def tokenize (line : List Nat) : List (List Nat) := tokenizeAux none line

/-- The locals of the reading loop of `Corpus::Corpus`. -/
structure ReadState where
  currentPos : Nat
  sentenceStarts : List Nat
  tokenStarts : List Nat
  corpusStream : List Nat
deriving DecidableEq, Repr

/-- One turn of `while(lineStream >> token)`. -/
def readToken (st : ReadState) (token : List Nat) : ReadState :=
  { st with
    tokenStarts := st.tokenStarts ++ [st.currentPos]
    corpusStream := st.corpusStream ++ token ++ [32]
    currentPos := st.currentPos + token.length + 1 }

/-- One turn of `while (std::getline(fileStream, line))`. -/
def readLine (st : ReadState) (line : List Nat) : ReadState :=
  (tokenize line).foldl readToken
    { st with sentenceStarts := st.sentenceStarts ++ [st.currentPos] }

/-- The reading loop over the lines of the file. -/
def readLines (lines : List (List Nat)) : ReadState :=
  lines.foldl readLine ⟨0, [], [], []⟩

/-- A `Corpus`; `m_ranges` is the cache of merged views, keyed by `(i, j)`. -/
structure Corpus where
  m_corpus : List Nat
  m_tokens : List StringPiece
  m_sentences : List Sentence
  m_emptySentence : Sentence
  m_ranges : List ((Nat × Nat) × Sentence)
deriving Repr

/-- The token loop of a sentence that is not the last,
`while(tokenStarts[j + tokens] < start + length)`: returns `tokens` and the
grown `m_tokens`. -/
def tokenLoop (oob : Nat → Nat) (mem tokenStarts : List Nat) (limit j : Nat) :
    Nat → Nat → List StringPiece → Option (Nat × List StringPiece)
  | 0, _, _ => none
  | fuel + 1, tokens, m_tokens =>
    if vecAt oob tokenStarts (j + tokens) < limit then
      let tStart := vecAt oob tokenStarts (j + tokens)
      let tLength := subw (subw (vecAt oob tokenStarts (j + tokens + 1)) tStart) 1
      tokenLoop oob mem tokenStarts limit j fuel (tokens + 1) (m_tokens ++ [⟨mem, tStart, tLength⟩])
    else some (tokens, m_tokens)

/-- The token loop of the last sentence,
`while(tokenStarts[j + tokens] < start + length && j + tokens < tokenStarts.size())`,
with the length of the last token of the file taken from `currentPos`. -/
def lastTokenLoop (oob : Nat → Nat) (mem tokenStarts : List Nat) (limit currentPos j : Nat) :
    Nat → Nat → List StringPiece → Option (Nat × List StringPiece)
  | 0, _, _ => none
  | fuel + 1, tokens, m_tokens =>
    if vecAt oob tokenStarts (j + tokens) < limit ∧ j + tokens < tokenStarts.length then
      let tStart := vecAt oob tokenStarts (j + tokens)
      let tLength := subw (subw (vecAt oob tokenStarts (j + tokens + 1)) tStart) 1
      let tLength := if j + tokens + 1 ≥ tokenStarts.length then subw (subw currentPos tStart) 1
        else tLength
      lastTokenLoop oob mem tokenStarts limit currentPos j fuel (tokens + 1)
        (m_tokens ++ [⟨mem, tStart, tLength⟩])
    else some (tokens, m_tokens)

/-- The locals `j`, `m_tokens`, `m_sentences` carried by the sentence loop. -/
structure BuildState where
  j : Nat
  m_tokens : List StringPiece
  m_sentences : List Sentence
deriving DecidableEq, Repr

/-- The body of `for(size_t i = 0; i < sentenceStarts.size() - 1; i++)`. -/
def sentenceStep (oob : Nat → Nat) (fuel : Nat) (rd : ReadState) (b : BuildState) (i : Nat) :
    Option BuildState :=
  let start := vecAt oob rd.sentenceStarts i
  let length := subw (subw (vecAt oob rd.sentenceStarts (i + 1)) start) 1
  let length := if vecAt oob rd.sentenceStarts i = vecAt oob rd.sentenceStarts (i + 1) then 0
    else length
  match tokenLoop oob rd.corpusStream rd.tokenStarts ((start + length) % SIZE_MOD) b.j fuel 0
      b.m_tokens with
  | none => none
  | some (tokens, m_tokens) =>
    some { j := b.j + tokens
           m_tokens := m_tokens
           m_sentences := b.m_sentences ++
             [Sentence.make m_tokens ⟨rd.corpusStream, start, length⟩ b.j tokens] }

/-- The part of `Corpus::Corpus` after the sentence loop: the last sentence. -/
def lastSentence (oob : Nat → Nat) (fuel : Nat) (rd : ReadState) (b : BuildState) :
    Option BuildState :=
  let start := vecAt oob rd.sentenceStarts (subw rd.sentenceStarts.length 1)
  let length := subw (subw rd.currentPos start) 1
  let length := if start = rd.currentPos then 0 else length
  match lastTokenLoop oob rd.corpusStream rd.tokenStarts ((start + length) % SIZE_MOD)
      rd.currentPos b.j fuel 0 b.m_tokens with
  | none => none
  | some (tokens, m_tokens) =>
    some { j := b.j + tokens
           m_tokens := m_tokens
           m_sentences := b.m_sentences ++
             [Sentence.make m_tokens ⟨rd.corpusStream, start, length⟩ b.j tokens] }

/-- The sentence loop, `i` running over `0 .. sentenceStarts.size() - 1`
(a wrapped bound when there is no line). -/
def sentenceLoop (oob : Nat → Nat) (fuel : Nat) (rd : ReadState) : Option BuildState :=
  (List.range (subw rd.sentenceStarts.length 1)).foldlM (sentenceStep oob fuel rd) ⟨0, [], []⟩

namespace Corpus

/-- The constructor `Corpus::Corpus` on the lines of an opened file. -/
def load (oob : Nat → Nat) (fuel : Nat) (lines : List (List Nat)) : Option Corpus :=
  let rd := readLines lines
  match sentenceLoop oob fuel rd with
  | none => none
  | some b =>
    match lastSentence oob fuel rd b with
    | none => none
    | some b =>
      some { m_corpus := rd.corpusStream
             m_tokens := b.m_tokens
             m_sentences := b.m_sentences
             m_emptySentence := Sentence.empty
             m_ranges := [] }

/-- `Corpus::size`. -/
def size (c : Corpus) : Nat := c.m_sentences.length

/-- `Corpus::operator[]`. -/
def sentence (c : Corpus) (i : Nat) : Sentence := c.m_sentences.getD i Sentence.empty

/-- `m_ranges.find(range)`. -/
def findRange (c : Corpus) (range : Nat × Nat) : Option Sentence :=
  (c.m_ranges.find? (fun e => e.1 = range)).map Prod.snd

/-- `Corpus::operator()`: the view of sentences `i .. j` and the corpus with
its cache of merged views grown. -/
def call (c : Corpus) (i j : Nat) : Sentence × Corpus :=
  if i = j then (c.sentence i, c)
  else if j > i then
    match c.findRange (i, j) with
    | some x => (x, c)
    | none =>
      let sentenceRange := Sentence.add c.m_tokens (c.sentence i) (c.sentence j)
      (sentenceRange, { c with m_ranges := ((i, j), sentenceRange) :: c.m_ranges })
  else (c.m_emptySentence, c)

/-- The view `operator()(i, j)` hands out. -/
def range (c : Corpus) (i j : Nat) : Sentence := (c.call i j).1

end Corpus

/-- The bytes of an ASCII string, for writing corpora down. -/
def bytes (s : String) : List Nat := s.toList.map Char.toNat

/-! ## Overlap statistics -/

/-- The loop of `countCommon` on what is left of the two sequences, with the
running `common`; `fuel` bounds the turns. -/
def countLoop : Nat → NGramsByOrder → NGramsByOrder → Nat → Nat
  | 0, _, _, common => common
  | _ + 1, [], _, common => common
  | _ + 1, _ :: _, [], common => common
  | fuel + 1, a :: n1, b :: n2, common =>
    if StringPiece.lt a b then countLoop fuel n1 (b :: n2) common
    else if !StringPiece.lt b a then countLoop fuel n1 n2 (common + 1)
    else countLoop fuel (a :: n1) n2 common

/-- `countCommon`: the value left in `common`. Every turn of the loop advances
an iterator, so `n1.size() + n2.size()` turns are enough. -/
def countCommon (n1 n2 : NGramsByOrder) : Nat :=
  countLoop (n1.length + n2.length) n1 n2 0

/-- The vector `m_stats` of a `Stats`. -/
abbrev Stats := List Nat

/-- The constructor `Stats()`: `MAX_NGRAM_ORDER * 3` zeros. -/
def Stats.new : Stats := List.replicate (MAX_NGRAM_ORDER * 3) 0

/-- `stats[i] += v`. -/
def Stats.addAt (stats : Stats) (i v : Nat) : Stats := stats.set i (stats.getD i 0 + v)

/-- The body of the loop of `computeBLEU2stats` for order index `i`. -/
def statsStep (c r : Sentence) (stats : Stats) (i : Nat) : Stats :=
  let correct :=
    if i = 0 ∨ (i > 0 ∧ stats.getD ((i - 1) * 3) 0 > 0) then
      countCommon (c.ngramsAt i) (r.ngramsAt i)
    else 0
  let stats := stats.addAt (i * 3) correct
  let stats := stats.addAt (i * 3 + 1) (c.ngramsAt i).length
  stats.addAt (i * 3 + 2) (r.ngramsAt i).length

/-- `computeBLEU2stats`. -/
def computeBLEU2stats (c r : Sentence) (stats : Stats) : Stats :=
  (List.range MAX_NGRAM_ORDER).foldl (statsStep c r) stats

/-! ## The overlap score -/

/-- The global `float smoothing = 1.0`. -/
noncomputable def smoothing : ℝ := 1.0

/-- Entry `i` of the statistics as a `float`. -/
noncomputable def statAt (stats : Stats) (i : Nat) : ℝ := ((stats.getD i 0 : Nat) : ℝ)

/-- `computeBLEU2(const Stats&)`; `none` is the exception of `UTIL_THROW_IF`. -/
noncomputable def computeBLEU2OfStats (stats : Stats) : Option ℝ :=
  if stats.length ≠ MAX_NGRAM_ORDER * 3 then none
  else
    let logs := (List.range MAX_NGRAM_ORDER).foldl
      (fun (l : ℝ × ℝ) i =>
        (l.1 + (Real.log (statAt stats (3 * i) + smoothing)
                - Real.log (statAt stats (3 * i + 1) + smoothing)),
         l.2 + (Real.log (statAt stats (3 * i) + smoothing)
                - Real.log (statAt stats (3 * i + 2) + smoothing)))) (0, 0)
    let logbleu1 := logs.1 / MAX_NGRAM_ORDER
    let logbleu2 := logs.2 / MAX_NGRAM_ORDER
    let brevity1 := 1.0 - statAt stats 2 / statAt stats 1
    let logbleu1 := if brevity1 < 0.0 then logbleu1 + brevity1 else logbleu1
    let brevity2 := 1.0 - statAt stats 1 / statAt stats 2
    let logbleu2 := if brevity2 < 0.0 then logbleu2 + brevity2 else logbleu2
    some (Real.exp ((logbleu1 + logbleu2) / 2))

/-- `computeBLEU2(const Sentence&, const Sentence&)`. -/
noncomputable def computeBLEU2 (c r : Sentence) : Option ℝ :=
  if c.size = 0 ∨ r.size = 0 then some 0
  else computeBLEU2OfStats (computeBLEU2stats c r Stats.new)

/-! ## The alignment search -/

/-- The rung types of the first pass, `fast`. -/
def fast : List (Nat × Nat) := [(0, 1), (1, 0), (1, 1)]

/-- The rung types of the full alignment, `slow`. -/
def slow : List (Nat × Nat) :=
  [(0, 1), (1, 0), (1, 1), (1, 2), (2, 1), (2, 2), (1, 3), (3, 1), (1, 4), (4, 1)]

/-- The array `rungTypes` points at: `slow` when `slowRun`, else `fast`. -/
def rungTypes (slowRun : Bool) : List (Nat × Nat) := if slowRun then slow else fast

/-- What a call of `S` reads and writes: the global tables `seen` and `prev`
and the two corpora, whose caches of merged views grow. -/
structure World where
  seen : Nat → Nat → ℝ
  prev : Nat → Nat → Nat × Nat
  s : Corpus
  t : Corpus

/-- `table[i][j] = v`. -/
def setCell {α : Type} (table : Nat → Nat → α) (i j : Nat) (v : α) : Nat → Nat → α :=
  fun a b => if a = i ∧ b = j then v else table a b

/-- The locals of the loop of `S` over the rung types. -/
structure Search where
  bestBLEU : ℝ
  bestIType : Nat
  bestJType : Nat
  w : World

/-- The body of the loop of `S` for one rung type; `rec` is the recursive
call of `S`. -/
noncomputable def tryRung (rec : Nat → Nat → World → Option (ℝ × World)) (i j : Nat)
    (acc : Search) (rungType : Nat × Nat) : Option Search :=
  let iType := rungType.1
  let jType := rungType.2
  if i ≥ iType ∧ j ≥ jType then
    match rec (i - iType) (j - jType) acc.w with
    | none => none
    | some (v, w1) =>
      let cs := w1.s.call (i - iType) (i - 1)
      let rt := w1.t.call (j - jType) (j - 1)
      match computeBLEU2 cs.1 rt.1 with
      | none => none
      | some b =>
        let result := v + b
        let w2 : World := { w1 with s := cs.2, t := rt.2 }
        if result > acc.bestBLEU then some ⟨result, iType, jType, w2⟩
        else some { acc with w := w2 }
  else some acc

/-- The function `S`: `fuel` bounds the depth of the recursion, `none` when it
is used up (or when `computeBLEU2` throws). -/
noncomputable def S : Nat → Nat → Nat → Bool → World → Option (ℝ × World)
  | 0, _, _, _, _ => none
  | fuel + 1, i, j, slowRun, w =>
    if i = 0 ∨ j = 0 then some (0, w)
    else if w.seen i j ≠ -100 then some (w.seen i j, w)
    else
      let first := (rungTypes slowRun).getD 0 (0, 0)
      match (rungTypes slowRun).foldlM (tryRung (fun a b w => S fuel a b slowRun w) i j)
          ⟨0, first.1, first.2, w⟩ with
      | none => none
      | some r =>
        some (r.bestBLEU,
          { r.w with
            seen := setCell r.w.seen i j r.bestBLEU
            prev := setCell r.w.prev i j (r.bestIType, r.bestJType) })

/-- A `Rung`. -/
structure Rung where
  i : Nat
  j : Nat
  iType : Nat
  jType : Nat
deriving DecidableEq, Repr

/-- The function `backTrack` on the table `prev`: the rungs appended to
`rungs`; `fuel` bounds the depth of the recursion. -/
def backTrack (prev : Nat → Nat → Nat × Nat) : Nat → Nat → Nat → List Rung → Option (List Rung)
  | 0, _, _, _ => none
  | fuel + 1, i, j, rungs =>
    let p := prev i j
    let rungs := if i > p.1 ∧ j > p.2 then backTrack prev fuel (i - p.1) (j - p.2) rungs
      else some rungs
    rungs.map (fun rs => rs ++ [⟨i, j, p.1, p.2⟩])

/-- The tables as `main` sizes them: every `seen` cell `-100`, every `prev`
cell `(-1, -1)` as a pair of `size_t`. -/
noncomputable def initWorld (s t : Corpus) : World :=
  { seen := fun _ _ => -100
    prev := fun _ _ => (SIZE_MOD - 1, SIZE_MOD - 1)
    s := s
    t := t }

/-- The search of `main`: `S` on the whole corpora, then `backTrack` from the
last cell. Returns the value of `S`, the rungs and the final state. -/
noncomputable def align (fuel : Nat) (s t : Corpus) : Option (ℝ × List Rung × World) :=
  match S fuel s.size t.size true (initWorld s t) with
  | none => none
  | some (total, w) =>
    match backTrack w.prev fuel s.size t.size [] with
    | none => none
    | some rungs => some (total, rungs, w)

/-! ## Closed forms used in the proofs -/

/-- One summand of a log-precision: `log(common + smoothing) - log(count + smoothing)`. -/
noncomputable def logTerm (common count : Nat) : ℝ :=
  Real.log ((common : ℝ) + 1) - Real.log ((count : ℝ) + 1)

/-- The brevity term added to the log-precision of the side with `own` tokens
against `other` tokens: `1 - other / own` when that is negative. -/
noncomputable def brevityTerm (own other : Nat) : ℝ :=
  if 1 - (other : ℝ) / (own : ℝ) < 0 then 1 - (other : ℝ) / (own : ℝ) else 0

/-- The log-precision of one side: the mean of the four summands plus the
brevity term. -/
noncomputable def logPrecision (k0 k1 k2 k3 a0 a1 a2 a3 b0 : Nat) : ℝ :=
  (logTerm k0 a0 + logTerm k1 a1 + logTerm k2 a2 + logTerm k3 a3) / 4 + brevityTerm a0 b0

/-- The common count recorded at an order: the count itself when the order
below recorded a positive count, else 0. -/
def pruned (below count : Nat) : Nat := if below > 0 then count else 0

/-- The common count `stats[i * 3]` that `computeBLEU2stats` records at order
index `i` on fresh statistics. -/
def commonAt (c r : Sentence) : Nat → Nat
  | 0 => countCommon (c.ngramsAt 0) (r.ngramsAt 0)
  | i + 1 => pruned (commonAt c r i) (countCommon (c.ngramsAt (i + 1)) (r.ngramsAt (i + 1)))

/-- The value of `computeBLEU2(c, r)` in closed form. -/
noncomputable def overlap (c r : Sentence) : ℝ :=
  if c.size = 0 ∨ r.size = 0 then 0
  else Real.exp ((
    logPrecision (commonAt c r 0) (commonAt c r 1) (commonAt c r 2) (commonAt c r 3)
      (c.ngramsAt 0).length (c.ngramsAt 1).length (c.ngramsAt 2).length (c.ngramsAt 3).length
      (r.ngramsAt 0).length
    + logPrecision (commonAt c r 0) (commonAt c r 1) (commonAt c r 2) (commonAt c r 3)
      (r.ngramsAt 0).length (r.ngramsAt 1).length (r.ngramsAt 2).length (r.ngramsAt 3).length
      (c.ngramsAt 0).length) / 2)

/-- The order-`j + 1` n-grams that `CollectNGrams` has pushed once its outer
loop has run for `i < upTo`: one hull per start `i` with `i + j < size`, in
the order of the starts. -/
def windowsUpTo (tokens : List StringPiece) (x : Sentence) (j upTo : Nat) : NGramsByOrder :=
  ((List.range upTo).filter (fun i => i + j < x.size)).map
    (fun i => (x.tok tokens i).add (x.tok tokens (i + j)))

/-- The windows of `j + 1` tokens of a view, in the order of their starts. -/
def windows (tokens : List StringPiece) (x : Sentence) (j : Nat) : NGramsByOrder :=
  (List.range (x.size - j)).map (fun i => (x.tok tokens i).add (x.tok tokens (i + j)))

/-! ## The recurrence behind `S` -/

/-- The score `S` adds for rung type `m` at cell `(i, j)`:
`computeBLEU2(s(i-iType, i-1), t(j-jType, j-1))`. -/
noncomputable def rungScore (s t : Corpus) (i j : Nat) (m : Nat × Nat) : ℝ :=
  overlap (s.range (i - m.1) (i - 1)) (t.range (j - m.2) (j - 1))

/-- One turn of the loop of `S` over the rung types, on the best value and rung
type so far, with `f` giving the values of the cells below. -/
noncomputable def candStep (f : Nat → Nat → ℝ) (s t : Corpus) (i j : Nat)
    (acc : ℝ × Nat × Nat) (m : Nat × Nat) : ℝ × Nat × Nat :=
  if i ≥ m.1 ∧ j ≥ m.2 then
    if f (i - m.1) (j - m.2) + rungScore s t i j m > acc.1 then
      (f (i - m.1) (j - m.2) + rungScore s t i j m, m.1, m.2)
    else acc
  else acc

/-- The loop of `S` over the rung types at cell `(i, j)`: the best value and
the rung type that gave it first. -/
noncomputable def cell (f : Nat → Nat → ℝ) (s t : Corpus) (slowRun : Bool) (i j : Nat) :
    ℝ × Nat × Nat :=
  (rungTypes slowRun).foldl (candStep f s t i j)
    (0, ((rungTypes slowRun).getD 0 (0, 0)).1, ((rungTypes slowRun).getD 0 (0, 0)).2)

/-- The recurrence of `S` unfolded `n` times. -/
noncomputable def bestFuel (s t : Corpus) (slowRun : Bool) : Nat → Nat → Nat → ℝ
  | 0, _, _ => 0
  | n + 1, i, j => if i = 0 ∨ j = 0 then 0 else (cell (bestFuel s t slowRun n) s t slowRun i j).1

/-- The value of cell `(i, j)` by the recurrence. -/
noncomputable def best (s t : Corpus) (slowRun : Bool) (i j : Nat) : ℝ :=
  bestFuel s t slowRun (i + j + 1) i j

/-- The rung type the recurrence records at cell `(i, j)`. -/
noncomputable def bestMove (s t : Corpus) (slowRun : Bool) (i j : Nat) : Nat × Nat :=
  (cell (best s t slowRun) s t slowRun i j).2

/-- Cell `(i, j)` of `seen` has been written. -/
def Filled (w : World) (i j : Nat) : Prop := w.seen i j ≠ -100

/-- The state of the tables between calls of `S` on the corpora `s0`, `t0`:
the corpora hand out the views they did at the start, every written cell holds
the value and rung type of the recurrence, and the cells a written cell was
computed from are written. -/
structure Inv (s0 t0 : Corpus) (slowRun : Bool) (w : World) : Prop where
  src : ∀ a b, w.s.range a b = s0.range a b
  tgt : ∀ a b, w.t.range a b = t0.range a b
  val : ∀ i j, 1 ≤ i → 1 ≤ j → Filled w i j →
    w.seen i j = best s0 t0 slowRun i j ∧ w.prev i j = bestMove s0 t0 slowRun i j
  closed : ∀ i j, 1 ≤ i → 1 ≤ j → Filled w i j → ∀ m ∈ rungTypes slowRun,
    m.1 < i → m.2 < j → Filled w (i - m.1) (j - m.2)

/-- What the loop of `S` at a cell asks of the recursive calls on the cells
with index sum below `bound`: the call returns the value of the recurrence,
keeps the state of the tables, erases no cell and leaves its own cell written. -/
def RecOK (s0 t0 : Corpus) (slowRun : Bool) (rec : Nat → Nat → World → Option (ℝ × World))
    (bound : Nat) : Prop :=
  ∀ a b w, a + b < bound → Inv s0 t0 slowRun w →
    ∃ w', rec a b w = some (best s0 t0 slowRun a b, w') ∧ Inv s0 t0 slowRun w' ∧
      (∀ x y, Filled w x y → Filled w' x y) ∧ (1 ≤ a → 1 ≤ b → Filled w' a b)

/-- The rungs `backTrack(i, j)` pushes on the table `prev`, as a relation: the
rung of cell `(i, j)` comes last, behind the rungs of the cell its rung type
leads back to when both indices of that cell are positive. -/
inductive Walk (prev : Nat → Nat → Nat × Nat) : Nat → Nat → List Rung → Prop
  | stop (i j : Nat) (h : ¬(i > (prev i j).1 ∧ j > (prev i j).2)) :
      Walk prev i j [⟨i, j, (prev i j).1, (prev i j).2⟩]
  | step (i j : Nat) (rs : List Rung) (h : i > (prev i j).1 ∧ j > (prev i j).2)
      (below : Walk prev (i - (prev i j).1) (j - (prev i j).2) rs) :
      Walk prev i j (rs ++ [⟨i, j, (prev i j).1, (prev i j).2⟩])

/-! ## Example corpora -/

/-- The corpus `Corpus::Corpus` builds from the given ASCII lines, with 0 read
behind the end of the tables and 64 turns allowed to each loop (the corpus
without sentences when the loader does not end within the bound). -/
def corpusOfLines (lines : List String) : Corpus :=
  (Corpus.load (fun _ => 0) 64 (lines.map bytes)).getD ⟨[], [], [], Sentence.empty, []⟩

/-! ## The layout of the sentences of a corpus -/

/-- The number of tokens of the first `k` sentences. -/
def prefixTokens (l : List Sentence) (k : Nat) : Nat := ((l.take k).map Sentence.size).sum

/-- The sentences `l` built so far lie one behind the other in the token
table, from token 0 to token `j`. -/
def Contiguous (l : List Sentence) (j : Nat) : Prop :=
  (∀ k, k < l.length → (l.getD k Sentence.empty).m_start = prefixTokens l k) ∧
    j = prefixTokens l l.length

/-! ## Alignment paths -/

/-- The score of rung type `m` on arrival at cell `(i, j)`: the overlap of the
`m.1` source sentences and the `m.2` target sentences before the cell, and 0
for a rung type that takes no sentence on one side. -/
noncomputable def moveScore (s t : Corpus) (i j : Nat) (m : Nat × Nat) : ℝ :=
  if m.1 = 0 ∨ m.2 = 0 then 0 else rungScore s t i j m

/-- A path from cell `(0, 0)`: the cell it ends in and the sum of the scores of
its rung types, taken from left to right. -/
noncomputable def pathFrom (s t : Corpus) (path : List (Nat × Nat)) : (Nat × Nat) × ℝ :=
  path.foldl
    (fun (acc : (Nat × Nat) × ℝ) m =>
      ((acc.1.1 + m.1, acc.1.2 + m.2),
        acc.2 + moveScore s t (acc.1.1 + m.1) (acc.1.2 + m.2) m))
    ((0, 0), 0)

/-! ## The text of an n-gram -/

/-- All tokens of the lines, in file order. -/
def tokensOf (lines : List (List Nat)) : List (List Nat) := (lines.map tokenize).flatten

/-- The token buffer for a list of tokens: every token followed by one space. -/
def bufferOf (toks : List (List Nat)) : List Nat := (toks.map (fun w => w ++ [32])).flatten

/-- The offset of token `n` in the token buffer (the length of the buffer for
`n` at or past the number of tokens). -/
def startOf (toks : List (List Nat)) (n : Nat) : Nat := (bufferOf (toks.take n)).length

/-- The number of tokens of the first `k` lines. -/
def countBefore (lines : List (List Nat)) (k : Nat) : Nat := (tokensOf (lines.take k)).length

/-- The piece of token `n` in the token buffer of the lines. -/
def pieceOf (lines : List (List Nat)) (n : Nat) : StringPiece :=
  ⟨bufferOf (tokensOf lines), startOf (tokensOf lines) n, ((tokensOf lines).getD n []).length⟩

/-- The token table of the corpus of the lines. -/
def piecesOf (lines : List (List Nat)) : List StringPiece :=
  (List.range (tokensOf lines).length).map (pieceOf lines)

/-- The span `m_sentence` of sentence `k`: from the offset of its first token,
one short of the offset of the next sentence, and empty for a blank line. -/
def spanOf (lines : List (List Nat)) (k : Nat) : StringPiece :=
  ⟨bufferOf (tokensOf lines), startOf (tokensOf lines) (countBefore lines k),
    if countBefore lines k = countBefore lines (k + 1) then 0
    else startOf (tokensOf lines) (countBefore lines (k + 1))
      - startOf (tokensOf lines) (countBefore lines k) - 1⟩

/-- Sentence `k` of the corpus of the lines, built when the tokens of the lines
up to `k` are in the table. -/
def sentenceOf (lines : List (List Nat)) (k : Nat) : Sentence :=
  Sentence.make ((piecesOf lines).take (countBefore lines (k + 1))) (spanOf lines k)
    (countBefore lines k) (countBefore lines (k + 1) - countBefore lines k)

/-- The corpus of the lines. -/
def corpusOf (lines : List (List Nat)) : Corpus :=
  { m_corpus := bufferOf (tokensOf lines)
    m_tokens := piecesOf lines
    m_sentences := (List.range lines.length).map (sentenceOf lines)
    m_emptySentence := Sentence.empty
    m_ranges := [] }

/-- Every entry of `seen` is the sentinel `-100` or a value that is not
negative. -/
def SeenOK (w : World) : Prop := ∀ i j, w.seen i j = -100 ∨ 0 ≤ w.seen i j

/-- The value `result` the loop of `S` computes for rung type `m` at cell
`(i, j)`: the value of the cell the rung type leads back to plus
`computeBLEU2(s(i-iType, i-1), t(j-jType, j-1))`. -/
noncomputable def candValue (s t : Corpus) (slowRun : Bool) (i j : Nat) (m : Nat × Nat) : ℝ :=
  best s t slowRun (i - m.1) (j - m.2) + rungScore s t i j m

/-- The corpus of the lines `a b c` and `d e`. -/
def abcde : Corpus := corpusOfLines ["a b c", "d e"]

/-- The corpus of the lines `a b` and `c d`. -/
def abcdSplit : Corpus := corpusOfLines ["a b", "c d"]

/-- The corpus of the single line `a b c d`. -/
def abcdWhole : Corpus := corpusOfLines ["a b c d"]

/-- The greatest value of a non-empty list (0 for the empty list). -/
noncomputable def maxOf : List ℝ → ℝ
  | [] => 0
  | x :: xs => xs.foldl max x

/-- The score the specification gives the move `m` into cell `(i, j)`: a move
with `a = 0` or `b = 0` contributes exactly its predecessor's value, any other
move adds `computeBLEU2` of the views `range_s(i-a, i-1)` and
`range_t(j-b, j-1)`. -/
noncomputable def specMoveScore (s t : Corpus) (i j : Nat) (m : Nat × Nat) : ℝ :=
  if m.1 = 0 ∨ m.2 = 0 then 0
  else (computeBLEU2 (s.range (i - m.1) (i - 1)) (t.range (j - m.2) (j - 1))).getD 0

/-- The pure recurrence of the specification, unfolded `n` times: 0 when
`i = 0` or `j = 0`, and otherwise the maximum over the moves `(a, b)` of the
ten-move list with `i >= a` and `j >= b` of the value at `(i-a, j-b)` plus the
score of the move. -/
noncomputable def specBestFuel (s t : Corpus) : Nat → Nat → Nat → ℝ
  | 0, _, _ => 0
  | n + 1, i, j =>
    if i = 0 ∨ j = 0 then 0
    else maxOf ((slow.filter (fun m => decide (i ≥ m.1 ∧ j ≥ m.2))).map
      (fun m => specBestFuel s t n (i - m.1) (j - m.2) + specMoveScore s t i j m))

/-- The pure recurrence of the specification at cell `(i, j)`. -/
noncomputable def specBest (s t : Corpus) (i j : Nat) : ℝ := specBestFuel s t (i + j + 1) i j

/-- The sorted unigrams `a`, `b`, `b`, as pieces of the array `a b `. -/
def abbGrams : NGramsByOrder := [⟨bytes "a b ", 0, 1⟩, ⟨bytes "a b ", 2, 1⟩, ⟨bytes "a b ", 2, 1⟩]

/-- The sorted unigrams `b`, `b`, `b`, `c`, as pieces of the array `b c `. -/
def bbbcGrams : NGramsByOrder :=
  [⟨bytes "b c ", 0, 1⟩, ⟨bytes "b c ", 0, 1⟩, ⟨bytes "b c ", 0, 1⟩, ⟨bytes "b c ", 2, 1⟩]

/-! ## The statistics without the shortcut -/

/-- Memory behind the tables that holds 3 at index 1 and 0 elsewhere. -/
def oobThree : Nat → Nat := fun k => if k = 1 then 3 else 0

/-! ## The summary of `main` -/

/-- The accumulators `bleuSum` and `keptRungs` of the loop of `main` over the
rungs. -/
structure Tally where
  bleuSum : ℝ
  keptRungs : Nat

/-- The body of the loop of `main` over the rungs, on `bleuSum` and
`keptRungs`: a rung with `r.iType && r.jType` is scored on the sentences
`(*sourceProc)[r.i - r.iType] + (*sourceProc)[r.i - 1]` and
`(*targetProc)[r.j - r.jType] + (*targetProc)[r.j - 1]`. The lines printed,
and the offsets `iLadder` and `jLadder` that only feed them, are left out. -/
noncomputable def tallyStep (sourceProc targetProc : Corpus) (acc : Tally) (r : Rung) :
    Option Tally :=
  if r.iType ≠ 0 ∧ r.jType ≠ 0 then
    let s1Proc := Sentence.add sourceProc.m_tokens
      (sourceProc.sentence (subw r.i r.iType)) (sourceProc.sentence (subw r.i 1))
    let s2Proc := Sentence.add targetProc.m_tokens
      (targetProc.sentence (subw r.j r.jType)) (targetProc.sentence (subw r.j 1))
    match computeBLEU2 s1Proc s2Proc with
    | none => none
    | some bleu => some ⟨acc.bleuSum + bleu, acc.keptRungs + 1⟩
  else some acc

/-- The loop of `main` over the rungs, from `bleuSum = 0` and `keptRungs = 0`. -/
noncomputable def tally (sourceProc targetProc : Corpus) (rungs : List Rung) : Option Tally :=
  rungs.foldlM (tallyStep sourceProc targetProc) ⟨0, 0⟩

/-- Every sentence of `l` was built by the constructor
`Sentence(sentence, start, length, tokens)` on a table that has grown into
`tokens` since and held the tokens of the sentence. -/
def Built (tokens : List StringPiece) (l : List Sentence) : Prop :=
  ∀ x ∈ l, ∃ tk sp st len, x = Sentence.make tk sp st len ∧ tk <+: tokens ∧ st + len ≤ tk.length

/-- The overlap score of a rung: `computeBLEU2` of the views of its source and
of its target sentences when both types are positive, 0 otherwise. -/
noncomputable def rungBLEU (s t : Corpus) (r : Rung) : ℝ :=
  if r.iType > 0 ∧ r.jType > 0 then
    (computeBLEU2 (s.range (r.i - r.iType) (r.i - 1)) (t.range (r.j - r.jType) (r.j - 1))).getD 0
  else 0

end MtAlign

namespace MtAlign

/-! ## The order on byte strings -/

lemma bytesLt_irrefl (a : List Nat) : bytesLt a a = false := by
  induction a with
  | nil => rfl
  | cons x xs ih => simp [bytesLt, ih]

lemma bytesLt_asymm : ∀ (a b : List Nat), bytesLt a b = true → bytesLt b a = false
  | [], [], _ => rfl
  | [], _ :: _, _ => rfl
  | _ :: _, [], h => by simp [bytesLt] at h
  | x :: xs, y :: ys, h => by
    simp only [bytesLt, Bool.or_eq_true, decide_eq_true_eq, Bool.and_eq_true, beq_iff_eq] at h
    simp only [bytesLt, Bool.or_eq_false_iff, decide_eq_false_iff_not, Bool.and_eq_false_imp,
      beq_iff_eq]
    rcases h with h | ⟨h1, h2⟩
    · exact ⟨by omega, fun e => by omega⟩
    · exact ⟨by omega, fun _ => bytesLt_asymm xs ys h2⟩

lemma bytesLt_total : ∀ (a b : List Nat), bytesLt a b = false → bytesLt b a = false → a = b
  | [], [], _, _ => rfl
  | [], _ :: _, h, _ => by simp [bytesLt] at h
  | _ :: _, [], _, h => by simp [bytesLt] at h
  | x :: xs, y :: ys, h1, h2 => by
    simp only [bytesLt, Bool.or_eq_false_iff, decide_eq_false_iff_not, Bool.and_eq_false_imp,
      beq_iff_eq] at h1 h2
    have e : x = y := by omega
    subst e
    rw [bytesLt_total xs ys (h1.2 rfl) (h2.2 rfl)]

lemma StringPiece.lt_irrefl (a : StringPiece) : StringPiece.lt a a = false :=
  bytesLt_irrefl _

lemma StringPiece.lt_asymm {a b : StringPiece} (h : StringPiece.lt a b = true) :
    StringPiece.lt b a = false :=
  bytesLt_asymm _ _ h

/-! ## countCommon -/

lemma countLoop_comm : ∀ (fuel : Nat) (n1 n2 : NGramsByOrder) (common : Nat),
    countLoop fuel n1 n2 common = countLoop fuel n2 n1 common
  | 0, _, _, _ => by simp [countLoop]
  | _ + 1, [], [], _ => by simp [countLoop]
  | _ + 1, [], _ :: _, _ => by simp [countLoop]
  | _ + 1, _ :: _, [], _ => by simp [countLoop]
  | fuel + 1, a :: n1, b :: n2, common => by
    simp only [countLoop]
    cases hab : StringPiece.lt a b <;> cases hba : StringPiece.lt b a
    · simpa using countLoop_comm fuel n1 n2 (common + 1)
    · simpa using countLoop_comm fuel (a :: n1) n2 common
    · simpa using countLoop_comm fuel n1 (b :: n2) common
    · rw [StringPiece.lt_asymm hab] at hba
      cases hba

lemma countCommon_comm (n1 n2 : NGramsByOrder) : countCommon n1 n2 = countCommon n2 n1 := by
  unfold countCommon
  rw [countLoop_comm, Nat.add_comm]

lemma countLoop_le : ∀ (fuel : Nat) (n1 n2 : NGramsByOrder) (common : Nat),
    countLoop fuel n1 n2 common ≤ common + min n1.length n2.length
  | 0, _, _, _ => by simp [countLoop]
  | _ + 1, [], _, _ => by simp [countLoop]
  | _ + 1, _ :: _, [], _ => by simp [countLoop]
  | fuel + 1, a :: n1, b :: n2, common => by
    simp only [countLoop]
    have h1 := countLoop_le fuel n1 (b :: n2) common
    have h2 := countLoop_le fuel n1 n2 (common + 1)
    have h3 := countLoop_le fuel (a :: n1) n2 common
    simp only [List.length_cons] at h1 h2 h3 ⊢
    split
    · omega
    · split <;> omega

lemma countCommon_le_left (n1 n2 : NGramsByOrder) : countCommon n1 n2 ≤ n1.length := by
  have := countLoop_le (n1.length + n2.length) n1 n2 0
  unfold countCommon
  omega

lemma countCommon_le_right (n1 n2 : NGramsByOrder) : countCommon n1 n2 ≤ n2.length := by
  have := countLoop_le (n1.length + n2.length) n1 n2 0
  unfold countCommon
  omega

lemma countLoop_self : ∀ (fuel : Nat) (n : NGramsByOrder) (common : Nat),
    n.length ≤ fuel → countLoop fuel n n common = common + n.length
  | 0, n, _, h => by
    have : n = [] := List.length_eq_zero.mp (by omega)
    simp [countLoop, this]
  | _ + 1, [], _, _ => by simp [countLoop]
  | fuel + 1, a :: n, common, h => by
    simp only [countLoop, StringPiece.lt_irrefl, Bool.false_eq_true, if_false, Bool.not_false,
      if_true]
    rw [countLoop_self fuel n (common + 1) (by simpa using h)]
    simp only [List.length_cons]
    omega

lemma countCommon_self (n : NGramsByOrder) : countCommon n n = n.length := by
  unfold countCommon
  rw [countLoop_self _ _ _ (by omega)]
  omega

/-! ## The twelve statistics and the score in closed form -/

lemma computeBLEU2stats_new (c r : Sentence) :
    computeBLEU2stats c r Stats.new =
      [countCommon (c.ngramsAt 0) (r.ngramsAt 0),
       (c.ngramsAt 0).length, (r.ngramsAt 0).length,
       pruned (countCommon (c.ngramsAt 0) (r.ngramsAt 0))
         (countCommon (c.ngramsAt 1) (r.ngramsAt 1)),
       (c.ngramsAt 1).length, (r.ngramsAt 1).length,
       pruned (pruned (countCommon (c.ngramsAt 0) (r.ngramsAt 0))
         (countCommon (c.ngramsAt 1) (r.ngramsAt 1)))
         (countCommon (c.ngramsAt 2) (r.ngramsAt 2)),
       (c.ngramsAt 2).length, (r.ngramsAt 2).length,
       pruned (pruned (pruned (countCommon (c.ngramsAt 0) (r.ngramsAt 0))
         (countCommon (c.ngramsAt 1) (r.ngramsAt 1)))
         (countCommon (c.ngramsAt 2) (r.ngramsAt 2)))
         (countCommon (c.ngramsAt 3) (r.ngramsAt 3)),
       (c.ngramsAt 3).length, (r.ngramsAt 3).length] := by
  simp [computeBLEU2stats, statsStep, Stats.new, Stats.addAt, MAX_NGRAM_ORDER, List.range,
    List.range.loop, List.replicate, pruned]

lemma computeBLEU2OfStats_explicit (k0 a0 b0 k1 a1 b1 k2 a2 b2 k3 a3 b3 : Nat) :
    computeBLEU2OfStats [k0, a0, b0, k1, a1, b1, k2, a2, b2, k3, a3, b3] =
      some (Real.exp ((logPrecision k0 k1 k2 k3 a0 a1 a2 a3 b0
        + logPrecision k0 k1 k2 k3 b0 b1 b2 b3 a0) / 2)) := by
  simp only [computeBLEU2OfStats, MAX_NGRAM_ORDER, List.length_cons, List.length_nil,
    ne_eq, not_true_eq_false, if_false, List.range, List.range.loop, List.foldl_cons,
    List.foldl_nil, statAt, smoothing, logPrecision, logTerm, brevityTerm]
  norm_num [List.getD]
  split_ifs <;> ring

lemma computeBLEU2_eq_overlap (c r : Sentence) : computeBLEU2 c r = some (overlap c r) := by
  unfold computeBLEU2 overlap
  split
  · rfl
  · rw [computeBLEU2stats_new, computeBLEU2OfStats_explicit]
    rfl

lemma commonAt_comm (c r : Sentence) : ∀ i, commonAt c r i = commonAt r c i
  | 0 => by simp [commonAt, countCommon_comm]
  | i + 1 => by simp [commonAt, countCommon_comm, commonAt_comm c r i]

lemma pruned_le (below count : Nat) : pruned below count ≤ count := by
  unfold pruned
  split <;> omega

lemma commonAt_le_left (c r : Sentence) : ∀ i, commonAt c r i ≤ (c.ngramsAt i).length
  | 0 => countCommon_le_left _ _
  | _ + 1 => le_trans (pruned_le _ _) (countCommon_le_left _ _)

lemma commonAt_le_right (c r : Sentence) (i : Nat) : commonAt c r i ≤ (r.ngramsAt i).length := by
  rw [commonAt_comm]
  exact commonAt_le_left r c i

lemma logTerm_nonpos {k a : Nat} (h : k ≤ a) : logTerm k a ≤ 0 := by
  unfold logTerm
  have h1 : (0 : ℝ) < (k : ℝ) + 1 := by positivity
  have h2 : (k : ℝ) + 1 ≤ (a : ℝ) + 1 := by
    have : (k : ℝ) ≤ (a : ℝ) := by exact_mod_cast h
    linarith
  have := Real.log_le_log h1 h2
  linarith

lemma logTerm_self (k : Nat) : logTerm k k = 0 := by
  unfold logTerm
  ring

lemma brevityTerm_nonpos (own other : Nat) : brevityTerm own other ≤ 0 := by
  unfold brevityTerm
  split <;> linarith

lemma brevityTerm_self (n : Nat) : brevityTerm n n = 0 := by
  unfold brevityTerm
  split
  · rename_i h
    by_cases hn : (n : ℝ) = 0
    · simp [hn] at h
      linarith
    · rw [div_self hn] at h
      linarith
  · rfl

lemma logPrecision_nonpos {k0 k1 k2 k3 a0 a1 a2 a3 : Nat} (b0 : Nat)
    (h0 : k0 ≤ a0) (h1 : k1 ≤ a1) (h2 : k2 ≤ a2) (h3 : k3 ≤ a3) :
    logPrecision k0 k1 k2 k3 a0 a1 a2 a3 b0 ≤ 0 := by
  unfold logPrecision
  have := logTerm_nonpos h0
  have := logTerm_nonpos h1
  have := logTerm_nonpos h2
  have := logTerm_nonpos h3
  have := brevityTerm_nonpos a0 b0
  linarith

lemma overlap_comm (c r : Sentence) : overlap c r = overlap r c := by
  unfold overlap
  simp only [commonAt_comm c r, or_comm (a := c.size = 0)]
  split
  · rfl
  · rw [add_comm]

lemma overlap_nonneg (c r : Sentence) : 0 ≤ overlap c r := by
  unfold overlap
  split
  · exact le_refl 0
  · exact (Real.exp_pos _).le

lemma overlap_le_one (c r : Sentence) : overlap c r ≤ 1 := by
  unfold overlap
  split
  · exact zero_le_one
  · rw [← Real.exp_zero]
    apply Real.exp_le_exp.mpr
    have h1 := logPrecision_nonpos (r.ngramsAt 0).length (commonAt_le_left c r 0)
      (commonAt_le_left c r 1) (commonAt_le_left c r 2) (commonAt_le_left c r 3)
    have h2 := logPrecision_nonpos (c.ngramsAt 0).length (commonAt_le_right c r 0)
      (commonAt_le_right c r 1) (commonAt_le_right c r 2) (commonAt_le_right c r 3)
    linarith

/-! ## CollectNGrams -/

lemma windowsUpTo_succ (tokens : List StringPiece) (x : Sentence) (j m : Nat) :
    windowsUpTo tokens x j (m + 1) =
      windowsUpTo tokens x j m ++
        (if m + j < x.size then [(x.tok tokens m).add (x.tok tokens (m + j))] else []) := by
  unfold windowsUpTo
  rw [List.range_succ, List.filter_append, List.map_append]
  by_cases h : m + j < x.size <;> simp [List.filter_cons, h]

lemma collect_outer (tokens : List StringPiece) (x : Sentence) (m : Nat) :
    (List.range m).foldl
      (fun g i => (List.range MAX_NGRAM_ORDER).foldl
        (fun g j =>
          if i + j < x.size then
            Sentence.pushNGram g j ((x.tok tokens i).add (x.tok tokens (i + j)))
          else g) g) (List.replicate MAX_NGRAM_ORDER [])
    = [windowsUpTo tokens x 0 m, windowsUpTo tokens x 1 m, windowsUpTo tokens x 2 m,
       windowsUpTo tokens x 3 m] := by
  induction m with
  | zero => simp [windowsUpTo, MAX_NGRAM_ORDER, List.replicate]
  | succ m ih =>
    rw [List.range_succ, List.foldl_append, ih]
    simp only [List.foldl_cons, List.foldl_nil, MAX_NGRAM_ORDER, List.range, List.range.loop,
      windowsUpTo_succ, Sentence.pushNGram]
    by_cases h0 : m < x.size <;> by_cases h1 : m + 1 < x.size <;>
      by_cases h2 : m + 2 < x.size <;> by_cases h3 : m + 3 < x.size <;>
      first
      | omega
      | simp [h0, h1, h2, h3, List.getD]

lemma windowsUpTo_size (tokens : List StringPiece) (x : Sentence) (j : Nat) :
    windowsUpTo tokens x j x.size = windows tokens x j := by
  unfold windowsUpTo windows
  congr 1
  have key : ∀ n k : Nat, k ≤ n → (List.range n).filter (fun i => decide (i < k)) = List.range k := by
    intro n
    induction n with
    | zero => intro k hk; simp [Nat.le_zero.mp hk]
    | succ n ih =>
      intro k hk
      rw [List.range_succ, List.filter_append]
      by_cases h : k ≤ n
      · rw [ih k h]
        simp [List.filter_cons]
        omega
      · have : k = n + 1 := by omega
        subst this
        rw [List.range_succ]
        congr 1
        · apply List.filter_eq_self.mpr
          intro a ha
          simp at ha
          simp
          omega
        · simp [List.filter_cons]
  have := key x.size (x.size - j) (Nat.sub_le _ _)
  rw [← this]
  apply List.filter_congr
  intro i hi
  simp only [List.mem_range] at hi
  simp only [decide_eq_decide]
  omega

lemma make_ngrams (tokens : List StringPiece) (sp : StringPiece) (start length : Nat) :
    (Sentence.make tokens sp start length).m_ngrams =
      [Sentence.sortNGrams (windows tokens ⟨sp, start, length, []⟩ 0),
       Sentence.sortNGrams (windows tokens ⟨sp, start, length, []⟩ 1),
       Sentence.sortNGrams (windows tokens ⟨sp, start, length, []⟩ 2),
       Sentence.sortNGrams (windows tokens ⟨sp, start, length, []⟩ 3)] := by
  unfold Sentence.make Sentence.CollectNGrams
  simp only [List.isEmpty_nil, if_true]
  rw [collect_outer, windowsUpTo_size, windowsUpTo_size, windowsUpTo_size, windowsUpTo_size]
  simp [MAX_NGRAM_ORDER, List.range, List.range.loop, List.getD]

lemma make_size (tokens : List StringPiece) (sp : StringPiece) (start length : Nat) :
    (Sentence.make tokens sp start length).size = length := by
  unfold Sentence.make Sentence.CollectNGrams Sentence.size
  simp

lemma make_start (tokens : List StringPiece) (sp : StringPiece) (start length : Nat) :
    (Sentence.make tokens sp start length).m_start = start := by
  unfold Sentence.make Sentence.CollectNGrams
  simp

lemma windows_length (tokens : List StringPiece) (x : Sentence) (j : Nat) :
    (windows tokens x j).length = x.size - j := by
  simp [windows]

lemma make_ngramsAt (tokens : List StringPiece) (sp : StringPiece) (start length : Nat)
    (j : Nat) (hj : j < 4) :
    (Sentence.make tokens sp start length).ngramsAt j =
      Sentence.sortNGrams (windows tokens ⟨sp, start, length, []⟩ j) := by
  unfold Sentence.ngramsAt
  rw [make_ngrams]
  interval_cases j <;> rfl

lemma make_ngramsAt_length (tokens : List StringPiece) (sp : StringPiece) (start length : Nat)
    (j : Nat) (hj : j < 4) :
    ((Sentence.make tokens sp start length).ngramsAt j).length = length - j := by
  rw [make_ngramsAt tokens sp start length j hj, Sentence.sortNGrams,
    List.length_insertionSort, windows_length]
  rfl

lemma commonAt_self_make (tokens : List StringPiece) (sp : StringPiece) (start length : Nat) :
    ∀ j, j < 4 → commonAt (Sentence.make tokens sp start length)
      (Sentence.make tokens sp start length) j = length - j
  | 0, h => by simp [commonAt, countCommon_self, make_ngramsAt_length tokens sp start length 0 h]
  | j + 1, h => by
    simp only [commonAt, countCommon_self, make_ngramsAt_length tokens sp start length (j + 1) h,
      commonAt_self_make tokens sp start length j (by omega), pruned]
    split <;> omega

lemma overlap_self_make (tokens : List StringPiece) (sp : StringPiece) (start length : Nat)
    (h : length ≠ 0) :
    overlap (Sentence.make tokens sp start length) (Sentence.make tokens sp start length) = 1 := by
  unfold overlap
  rw [if_neg (by simp [make_size, h])]
  simp only [commonAt_self_make tokens sp start length _ (by norm_num : (0 : Nat) < 4),
    commonAt_self_make tokens sp start length _ (by norm_num : (1 : Nat) < 4),
    commonAt_self_make tokens sp start length _ (by norm_num : (2 : Nat) < 4),
    commonAt_self_make tokens sp start length _ (by norm_num : (3 : Nat) < 4),
    make_ngramsAt_length tokens sp start length _ (by norm_num : (0 : Nat) < 4),
    make_ngramsAt_length tokens sp start length _ (by norm_num : (1 : Nat) < 4),
    make_ngramsAt_length tokens sp start length _ (by norm_num : (2 : Nat) < 4),
    make_ngramsAt_length tokens sp start length _ (by norm_num : (3 : Nat) < 4),
    logPrecision, logTerm_self, brevityTerm_self]
  norm_num

lemma stats_common_eq_commonAt (c r : Sentence) (i : Nat) (hi : i < 4) :
    (computeBLEU2stats c r Stats.new).getD (i * 3) 0 = commonAt c r i := by
  rw [computeBLEU2stats_new]
  interval_cases i <;> rfl

lemma stats_candidate (c r : Sentence) (i : Nat) (hi : i < 4) :
    (computeBLEU2stats c r Stats.new).getD (i * 3 + 1) 0 = (c.ngramsAt i).length := by
  rw [computeBLEU2stats_new]
  interval_cases i <;> rfl

lemma stats_reference (c r : Sentence) (i : Nat) (hi : i < 4) :
    (computeBLEU2stats c r Stats.new).getD (i * 3 + 2) 0 = (r.ngramsAt i).length := by
  rw [computeBLEU2stats_new]
  interval_cases i <;> rfl

/-! ## The rung types -/

lemma rungTypes_pos {slowRun : Bool} {m : Nat × Nat} (h : m ∈ rungTypes slowRun) :
    1 ≤ m.1 + m.2 := by
  cases slowRun
  · simp only [rungTypes, fast, Bool.false_eq_true, if_false, List.mem_cons, List.mem_singleton,
      List.mem_nil_iff, or_false] at h
    rcases h with h | h | h <;> subst h <;> simp
  · simp only [rungTypes, slow, if_true, List.mem_cons, List.mem_singleton,
      List.mem_nil_iff, or_false] at h
    rcases h with h | h | h | h | h | h | h | h | h | h <;> subst h <;> simp

lemma rungTypes_first (slowRun : Bool) : (rungTypes slowRun).getD 0 (0, 0) = (0, 1) := by
  cases slowRun <;> rfl

lemma first_mem_rungTypes (slowRun : Bool) : ((0, 1) : Nat × Nat) ∈ rungTypes slowRun := by
  cases slowRun <;> simp [rungTypes, slow, fast]

/-! ## The cache of merged views -/

lemma call_fst (c : Corpus) (i j : Nat) : (c.call i j).1 = c.range i j := rfl

lemma findRange_cons (c : Corpus) (key : Nat × Nat) (x : Sentence) (range : Nat × Nat) :
    Corpus.findRange { c with m_ranges := (key, x) :: c.m_ranges } range =
      if key = range then some x else c.findRange range := by
  unfold Corpus.findRange
  by_cases h : key = range
  · simp [List.find?_cons, h]
  · simp [List.find?_cons, h]

lemma range_eq (c : Corpus) (i j : Nat) :
    c.range i j =
      if i = j then c.sentence i
      else if j > i then
        (c.findRange (i, j)).getD (Sentence.add c.m_tokens (c.sentence i) (c.sentence j))
      else c.m_emptySentence := by
  unfold Corpus.range Corpus.call
  split
  · rfl
  · split
    · cases c.findRange (i, j) <;> rfl
    · rfl

lemma call_range (c : Corpus) (i j a b : Nat) : (c.call i j).2.range a b = c.range a b := by
  unfold Corpus.call
  split
  · rfl
  · split
    · split
      · rfl
      · rename_i hij hlt _ hnone
        rw [range_eq, range_eq c a b, findRange_cons]
        by_cases hkey : (i, j) = (a, b)
        · simp only [Prod.mk.injEq] at hkey
          obtain ⟨rfl, rfl⟩ := hkey
          simp [hnone, Corpus.sentence]
        · simp [hkey, Corpus.sentence]
    · rfl

/-! ## The recurrence -/

lemma foldl_candStep_congr (f g : Nat → Nat → ℝ) (s t : Corpus) (i j : Nat)
    (l : List (Nat × Nat))
    (h : ∀ m ∈ l, 1 ≤ m.1 + m.2)
    (hfg : ∀ a b, a + b < i + j → f a b = g a b) (acc : ℝ × Nat × Nat) :
    l.foldl (candStep f s t i j) acc = l.foldl (candStep g s t i j) acc := by
  induction l generalizing acc with
  | nil => rfl
  | cons m l ih =>
    simp only [List.foldl_cons]
    have hm := h m (List.mem_cons_self _ _)
    have : candStep f s t i j acc m = candStep g s t i j acc m := by
      unfold candStep
      by_cases hv : i ≥ m.1 ∧ j ≥ m.2
      · rw [hfg (i - m.1) (j - m.2) (by omega)]
      · simp [hv]
    rw [this]
    exact ih (fun m' hm' => h m' (List.mem_cons_of_mem _ hm')) _

lemma cell_congr (f g : Nat → Nat → ℝ) (s t : Corpus) (slowRun : Bool) (i j : Nat)
    (hfg : ∀ a b, a + b < i + j → f a b = g a b) :
    cell f s t slowRun i j = cell g s t slowRun i j :=
  foldl_candStep_congr f g s t i j _ (fun _ hm => rungTypes_pos hm) hfg _

lemma bestFuel_stable (s t : Corpus) (slowRun : Bool) :
    ∀ (n n' i j : Nat), i + j < n → i + j < n' →
      bestFuel s t slowRun n i j = bestFuel s t slowRun n' i j
  | 0, _, _, _, h, _ => by omega
  | _ + 1, 0, _, _, _, h => by omega
  | n + 1, n' + 1, i, j, h, h' => by
    simp only [bestFuel]
    split
    · rfl
    · rw [cell_congr (bestFuel s t slowRun n) (bestFuel s t slowRun n') s t slowRun i j
        (fun a b hab => bestFuel_stable s t slowRun n n' a b (by omega) (by omega))]

lemma best_eq (s t : Corpus) (slowRun : Bool) (i j : Nat) :
    best s t slowRun i j =
      if i = 0 ∨ j = 0 then 0 else (cell (best s t slowRun) s t slowRun i j).1 := by
  conv_lhs => rw [best, bestFuel]
  split
  · rfl
  · exact congrArg Prod.fst (cell_congr (bestFuel s t slowRun (i + j)) (best s t slowRun)
      s t slowRun i j
      (fun a b hab => bestFuel_stable s t slowRun (i + j) (a + b + 1) a b (by omega) (by omega)))

lemma foldl_candStep_ge (f : Nat → Nat → ℝ) (s t : Corpus) (i j : Nat)
    (l : List (Nat × Nat)) (acc : ℝ × Nat × Nat) :
    acc.1 ≤ (l.foldl (candStep f s t i j) acc).1 := by
  induction l generalizing acc with
  | nil => exact le_refl _
  | cons m l ih =>
    simp only [List.foldl_cons]
    refine le_trans ?_ (ih _)
    unfold candStep
    split
    · split
      · rename_i h
        exact h.le
      · exact le_refl _
    · exact le_refl _

lemma cell_nonneg (f : Nat → Nat → ℝ) (s t : Corpus) (slowRun : Bool) (i j : Nat) :
    0 ≤ (cell f s t slowRun i j).1 :=
  foldl_candStep_ge f s t i j (rungTypes slowRun)
    (0, ((rungTypes slowRun).getD 0 (0, 0)).1, ((rungTypes slowRun).getD 0 (0, 0)).2)

lemma best_nonneg (s t : Corpus) (slowRun : Bool) (i j : Nat) : 0 ≤ best s t slowRun i j := by
  rw [best_eq]
  split
  · exact le_refl _
  · exact cell_nonneg _ _ _ _ _ _

lemma foldl_candStep_move (f : Nat → Nat → ℝ) (s t : Corpus) (i j : Nat)
    (l : List (Nat × Nat)) (acc : ℝ × Nat × Nat) (P : Nat × Nat → Prop)
    (hacc : P acc.2) (hl : ∀ m ∈ l, m.1 ≤ i → m.2 ≤ j → P m) :
    P (l.foldl (candStep f s t i j) acc).2 := by
  induction l generalizing acc with
  | nil => exact hacc
  | cons m l ih =>
    simp only [List.foldl_cons]
    apply ih
    · unfold candStep
      split
      · split
        · rename_i hv _
          exact hl m (List.mem_cons_self _ _) hv.1 hv.2
        · exact hacc
      · exact hacc
    · exact fun m' hm' => hl m' (List.mem_cons_of_mem _ hm')

lemma bestMove_spec (s t : Corpus) (slowRun : Bool) (i j : Nat) (hj : 1 ≤ j) :
    bestMove s t slowRun i j ∈ rungTypes slowRun ∧ (bestMove s t slowRun i j).1 ≤ i ∧
      (bestMove s t slowRun i j).2 ≤ j := by
  unfold bestMove cell
  apply foldl_candStep_move _ _ _ _ _ _ _
    (fun m => m ∈ rungTypes slowRun ∧ m.1 ≤ i ∧ m.2 ≤ j)
  · rw [rungTypes_first]
    exact ⟨first_mem_rungTypes slowRun, Nat.zero_le _, hj⟩
  · exact fun m hm h1 h2 => ⟨hm, h1, h2⟩

/-! ## The memoised search computes the recurrence -/

lemma tryRung_spec {s0 t0 : Corpus} {slowRun : Bool}
    {rec : Nat → Nat → World → Option (ℝ × World)} {i j : Nat}
    (hrec : RecOK s0 t0 slowRun rec (i + j)) (acc : Search) (hinv : Inv s0 t0 slowRun acc.w)
    (m : Nat × Nat) (hm : m ∈ rungTypes slowRun) :
    ∃ acc', tryRung rec i j acc m = some acc' ∧
      (acc'.bestBLEU, acc'.bestIType, acc'.bestJType) =
        candStep (best s0 t0 slowRun) s0 t0 i j (acc.bestBLEU, acc.bestIType, acc.bestJType) m ∧
      Inv s0 t0 slowRun acc'.w ∧ (∀ x y, Filled acc.w x y → Filled acc'.w x y) ∧
      (m.1 < i → m.2 < j → Filled acc'.w (i - m.1) (j - m.2)) := by
  have hpos := rungTypes_pos hm
  by_cases hv : i ≥ m.1 ∧ j ≥ m.2
  · obtain ⟨w1, hcall, hinv1, hmono1, hfill1⟩ :=
      hrec (i - m.1) (j - m.2) acc.w (by omega) hinv
    have hscore : overlap (w1.s.call (i - m.1) (i - 1)).1 (w1.t.call (j - m.2) (j - 1)).1 =
        rungScore s0 t0 i j m := by
      rw [call_fst, call_fst, hinv1.src, hinv1.tgt]
      rfl
    have hinv2 : Inv s0 t0 slowRun
        { w1 with s := (w1.s.call (i - m.1) (i - 1)).2, t := (w1.t.call (j - m.2) (j - 1)).2 } :=
      { src := fun a b => by rw [call_range]; exact hinv1.src a b
        tgt := fun a b => by rw [call_range]; exact hinv1.tgt a b
        val := hinv1.val
        closed := hinv1.closed }
    by_cases hgt : best s0 t0 slowRun (i - m.1) (j - m.2) + rungScore s0 t0 i j m > acc.bestBLEU
    · refine ⟨⟨best s0 t0 slowRun (i - m.1) (j - m.2) + rungScore s0 t0 i j m, m.1, m.2,
        { w1 with s := (w1.s.call (i - m.1) (i - 1)).2, t := (w1.t.call (j - m.2) (j - 1)).2 }⟩,
        ?_, ?_, hinv2, hmono1, fun h1 h2 => hfill1 (by omega) (by omega)⟩
      · simp only [tryRung, hv, and_self, if_true, hcall, computeBLEU2_eq_overlap, hscore, hgt]
      · simp only [candStep, hv, and_self, if_true, hgt]
    · refine ⟨{ acc with w :=
        { w1 with s := (w1.s.call (i - m.1) (i - 1)).2, t := (w1.t.call (j - m.2) (j - 1)).2 } },
        ?_, ?_, hinv2, hmono1, fun h1 h2 => hfill1 (by omega) (by omega)⟩
      · simp only [tryRung, hv, and_self, if_true, hcall, computeBLEU2_eq_overlap, hscore, hgt,
          if_false]
      · simp only [candStep, hv, and_self, if_true, hgt, if_false]
  · refine ⟨acc, ?_, ?_, hinv, fun _ _ h => h, fun h1 h2 => absurd ⟨h1.le, h2.le⟩ hv⟩
    · simp only [tryRung, hv, if_false]
    · simp only [candStep, hv, if_false]

lemma foldlM_tryRung {s0 t0 : Corpus} {slowRun : Bool}
    {rec : Nat → Nat → World → Option (ℝ × World)} {i j : Nat}
    (hrec : RecOK s0 t0 slowRun rec (i + j)) (l : List (Nat × Nat))
    (hl : ∀ m ∈ l, m ∈ rungTypes slowRun) (acc : Search) (hinv : Inv s0 t0 slowRun acc.w) :
    ∃ r, l.foldlM (tryRung rec i j) acc = some r ∧
      (r.bestBLEU, r.bestIType, r.bestJType) =
        l.foldl (candStep (best s0 t0 slowRun) s0 t0 i j)
          (acc.bestBLEU, acc.bestIType, acc.bestJType) ∧
      Inv s0 t0 slowRun r.w ∧ (∀ x y, Filled acc.w x y → Filled r.w x y) ∧
      (∀ m ∈ l, m.1 < i → m.2 < j → Filled r.w (i - m.1) (j - m.2)) := by
  induction l generalizing acc with
  | nil => exact ⟨acc, rfl, rfl, hinv, fun _ _ h => h, fun _ h => absurd h (List.not_mem_nil _)⟩
  | cons m l ih =>
    obtain ⟨acc1, hstep, hval1, hinv1, hmono1, hfill1⟩ :=
      tryRung_spec hrec acc hinv m (hl m (List.mem_cons_self _ _))
    obtain ⟨r, hfold, hval, hinvr, hmono, hfill⟩ :=
      ih (fun m' hm' => hl m' (List.mem_cons_of_mem _ hm')) acc1 hinv1
    refine ⟨r, ?_, ?_, hinvr, fun x y h => hmono x y (hmono1 x y h), ?_⟩
    · simp only [List.foldlM_cons, hstep, Option.bind_eq_bind, Option.some_bind, hfold]
    · rw [hval, hval1, List.foldl_cons]
    · intro m' hm' h1 h2
      rcases List.mem_cons.mp hm' with rfl | hm'
      · exact hmono _ _ (hfill1 h1 h2)
      · exact hfill m' hm' h1 h2

lemma filled_setCell {w : World} {i j : Nat} {v : ℝ} {p : Nat × Nat} (x y : Nat) :
    Filled { w with seen := setCell w.seen i j v, prev := setCell w.prev i j p } x y ↔
      if x = i ∧ y = j then v ≠ -100 else Filled w x y := by
  unfold Filled setCell
  by_cases h : x = i ∧ y = j <;> simp [h]

lemma S_spec (s0 t0 : Corpus) (slowRun : Bool) :
    ∀ fuel, RecOK s0 t0 slowRun (fun a b w => S fuel a b slowRun w) fuel
  | 0 => fun a b w h _ => absurd h (Nat.not_lt_zero _)
  | fuel + 1 => by
    intro i j w hfuel hinv
    show ∃ w', S (fuel + 1) i j slowRun w = _ ∧ _
    by_cases h0 : i = 0 ∨ j = 0
    · refine ⟨w, ?_, hinv, fun _ _ h => h, fun h1 h2 => by omega⟩
      rw [best_eq, if_pos h0]
      simp only [S, h0, if_true]
    · have hi : 1 ≤ i := by omega
      have hj : 1 ≤ j := by omega
      by_cases hseen : w.seen i j ≠ -100
      · refine ⟨w, ?_, hinv, fun _ _ h => h, fun _ _ => hseen⟩
        rw [← (hinv.val i j hi hj hseen).1]
        simp only [S, h0, if_false, hseen, ne_eq, not_false_eq_true, if_true]
      · have hrec : RecOK s0 t0 slowRun (fun a b w => S fuel a b slowRun w) (i + j) :=
          fun a b w' hab hinv' => S_spec s0 t0 slowRun fuel a b w' (by omega) hinv'
        obtain ⟨r, hfold, hval, hinvr, hmono, hfill⟩ :=
          foldlM_tryRung hrec (rungTypes slowRun) (fun _ h => h)
            ⟨0, ((rungTypes slowRun).getD 0 (0, 0)).1, ((rungTypes slowRun).getD 0 (0, 0)).2, w⟩
            hinv
        have hcell : (r.bestBLEU, r.bestIType, r.bestJType) =
            cell (best s0 t0 slowRun) s0 t0 slowRun i j := hval
        have hbest : r.bestBLEU = best s0 t0 slowRun i j := by
          rw [best_eq, if_neg h0, ← hcell]
        have hmove : (r.bestIType, r.bestJType) = bestMove s0 t0 slowRun i j := by
          unfold bestMove
          rw [← hcell]
        have hne : r.bestBLEU ≠ -100 := by
          have := best_nonneg s0 t0 slowRun i j
          rw [hbest]
          intro h
          linarith
        refine ⟨{ r.w with seen := setCell r.w.seen i j r.bestBLEU
                           prev := setCell r.w.prev i j (r.bestIType, r.bestJType) },
          ?_, ?_, ?_, ?_⟩
        · simp only [S, h0, if_false, hseen, hfold, hbest]
        · refine ⟨hinvr.src, hinvr.tgt, ?_, ?_⟩
          · intro x y hx hy hf
            by_cases hxy : x = i ∧ y = j
            · obtain ⟨rfl, rfl⟩ := hxy
              simp only [setCell, and_self, if_true]
              exact ⟨hbest, hmove⟩
            · rw [filled_setCell, if_neg hxy] at hf
              simp only [setCell, hxy, if_false]
              exact hinvr.val x y hx hy hf
          · intro x y hx hy hf m hm h1 h2
            rw [filled_setCell]
            split
            · exact hne
            · by_cases hxy : x = i ∧ y = j
              · obtain ⟨rfl, rfl⟩ := hxy
                exact hfill m hm h1 h2
              · rw [filled_setCell, if_neg hxy] at hf
                exact hinvr.closed x y hx hy hf m hm h1 h2
        · intro x y hf
          rw [filled_setCell]
          split
          · exact hne
          · exact hmono x y hf
        · intro _ _
          rw [filled_setCell, if_pos ⟨rfl, rfl⟩]
          exact hne

lemma inv_initWorld (s t : Corpus) (slowRun : Bool) : Inv s t slowRun (initWorld s t) :=
  { src := fun _ _ => rfl
    tgt := fun _ _ => rfl
    val := fun _ _ _ _ h => absurd rfl h
    closed := fun _ _ _ _ h => absurd rfl h }

/-! ## backTrack -/

lemma backTrack_append (prev : Nat → Nat → Nat × Nat) :
    ∀ (fuel i j : Nat) (rungs : List Rung),
      backTrack prev fuel i j rungs = (backTrack prev fuel i j []).map (fun rs => rungs ++ rs)
  | 0, _, _, _ => rfl
  | fuel + 1, i, j, rungs => by
    simp only [backTrack]
    split
    · rw [backTrack_append prev fuel _ _ rungs]
      cases backTrack prev fuel (i - (prev i j).1) (j - (prev i j).2) [] <;> simp
    · simp

lemma backTrack_walk (prev : Nat → Nat → Nat × Nat) :
    ∀ (fuel i j : Nat) (rs : List Rung), backTrack prev fuel i j [] = some rs → Walk prev i j rs
  | 0, _, _, _, h => by simp [backTrack] at h
  | fuel + 1, i, j, rs, h => by
    simp only [backTrack] at h
    split at h
    · rename_i hgo
      cases hb : backTrack prev fuel (i - (prev i j).1) (j - (prev i j).2) [] with
      | none => simp [hb] at h
      | some below =>
        simp only [hb, Option.map_some', Option.some.injEq] at h
        subst h
        exact Walk.step i j below hgo (backTrack_walk prev fuel _ _ below hb)
    · rename_i hstop
      simp only [Option.map_some', List.nil_append, Option.some.injEq] at h
      subst h
      exact Walk.stop i j hstop

lemma backTrack_inv {s0 t0 : Corpus} {slowRun : Bool} {w : World} (hinv : Inv s0 t0 slowRun w) :
    ∀ (fuel i j : Nat) (rungs : List Rung), 1 ≤ i → 1 ≤ j → Filled w i j →
      backTrack w.prev fuel i j rungs = backTrack (bestMove s0 t0 slowRun) fuel i j rungs
  | 0, _, _, _, _, _, _ => rfl
  | fuel + 1, i, j, rungs, hi, hj, hf => by
    have hp := (hinv.val i j hi hj hf).2
    have hspec := bestMove_spec s0 t0 slowRun i j hj
    simp only [backTrack, hp]
    split
    · rename_i hgo
      rw [backTrack_inv hinv fuel _ _ rungs (by omega) (by omega)
        (hinv.closed i j hi hj hf _ hspec.1 hgo.1 hgo.2)]
    · rfl

lemma backTrack_bestMove_total (s0 t0 : Corpus) (slowRun : Bool) :
    ∀ (fuel i j : Nat), 1 ≤ i → 1 ≤ j → i + j ≤ fuel + 1 →
      ∃ rs, backTrack (bestMove s0 t0 slowRun) fuel i j [] = some rs
  | 0, i, j, hi, hj, h => by omega
  | fuel + 1, i, j, hi, hj, h => by
    have hspec := bestMove_spec s0 t0 slowRun i j hj
    have hpos := rungTypes_pos hspec.1
    simp only [backTrack]
    split
    · rename_i hgo
      obtain ⟨rs, hrs⟩ := backTrack_bestMove_total s0 t0 slowRun fuel
        (i - (bestMove s0 t0 slowRun i j).1) (j - (bestMove s0 t0 slowRun i j).2)
        (by omega) (by omega) (by omega)
      exact ⟨_, by rw [hrs]; rfl⟩
    · exact ⟨_, rfl⟩

/-- What `main` gets from `S` and `backTrack` on corpora with a sentence each:
the value of the recurrence and the walk along the recorded rung types. -/
lemma align_spec (s t : Corpus) (fuel : Nat) (hs : 1 ≤ s.size) (ht : 1 ≤ t.size)
    (hfuel : s.size + t.size < fuel) :
    ∃ rungs w, align fuel s t = some (best s t true s.size t.size, rungs, w) ∧
      Walk (bestMove s t true) s.size t.size rungs ∧ Inv s t true w ∧
      Filled w s.size t.size := by
  obtain ⟨w, hS, hinv, -, hfill⟩ :=
    S_spec s t true fuel s.size t.size (initWorld s t) hfuel (inv_initWorld s t true)
  obtain ⟨rs, hrs⟩ :=
    backTrack_bestMove_total s t true fuel s.size t.size hs ht (by omega)
  have hback : backTrack w.prev fuel s.size t.size [] = some rs := by
    rw [backTrack_inv hinv fuel _ _ [] hs ht (hfill hs ht), hrs]
  refine ⟨rs, w, ?_, backTrack_walk _ _ _ _ _ hrs, hinv, hfill hs ht⟩
  simp only [align, hS, hback]

/-! ## The walk of backTrack -/

lemma walk_getLast {prev : Nat → Nat → Nat × Nat} {i j : Nat} {rs : List Rung}
    (h : Walk prev i j rs) : rs.getLast? = some ⟨i, j, (prev i j).1, (prev i j).2⟩ := by
  cases h <;> simp

lemma walk_mem {prev : Nat → Nat → Nat × Nat} {i j : Nat} {rs : List Rung}
    (h : Walk prev i j rs) (hi : 1 ≤ i) (hj : 1 ≤ j) :
    ∀ r ∈ rs, (r.iType, r.jType) = prev r.i r.j ∧ 1 ≤ r.i ∧ 1 ≤ r.j ∧ r.i ≤ i ∧ r.j ≤ j := by
  induction h with
  | stop i j _ =>
    intro r hr
    simp only [List.mem_singleton] at hr
    subst hr
    exact ⟨rfl, hi, hj, le_refl _, le_refl _⟩
  | step i j rs hgo _ ih =>
    intro r hr
    rcases List.mem_append.mp hr with hr | hr
    · obtain ⟨h1, h2, h3, h4, h5⟩ := ih (by omega) (by omega) r hr
      exact ⟨h1, h2, h3, by omega, by omega⟩
    · simp only [List.mem_singleton] at hr
      subst hr
      exact ⟨rfl, hi, hj, le_refl _, le_refl _⟩

lemma walk_chain {prev : Nat → Nat → Nat × Nat} {i j : Nat} {rs : List Rung}
    (h : Walk prev i j rs) :
    rs.Chain' (fun r r' => r'.i = r.i + r'.iType ∧ r'.j = r.j + r'.jType) := by
  induction h with
  | stop i j _ => exact List.chain'_singleton _
  | step i j rs hgo below ih =>
    refine List.Chain'.append ih (List.chain'_singleton _) ?_
    intro x hx y hy
    rw [walk_getLast below] at hx
    simp only [Option.mem_def, Option.some.injEq] at hx
    simp only [List.head?_cons, Option.mem_def, Option.some.injEq] at hy
    subst hx hy
    simp only
    omega

lemma walk_sums {prev : Nat → Nat → Nat × Nat}
    (hprev : ∀ x y, 1 ≤ y → (prev x y).1 ≤ x ∧ (prev x y).2 ≤ y)
    {i j : Nat} {rs : List Rung} (h : Walk prev i j rs) (hi : 1 ≤ i) (hj : 1 ≤ j) :
    ∃ first rest, rs = first :: rest ∧ first.iType ≤ first.i ∧ first.jType ≤ first.j ∧
      (first.i - first.iType = 0 ∨ first.j - first.jType = 0) ∧
      (rs.map Rung.iType).sum + (first.i - first.iType) = i ∧
      (rs.map Rung.jType).sum + (first.j - first.jType) = j := by
  induction h with
  | stop i j hstop =>
    have hv := hprev i j hj
    refine ⟨_, [], rfl, hv.1, hv.2, ?_, ?_, ?_⟩
    · simp only
      omega
    · simp only [List.map_cons, List.map_nil, List.sum_cons, List.sum_nil]
      omega
    · simp only [List.map_cons, List.map_nil, List.sum_cons, List.sum_nil]
      omega
  | step i j rs hgo _ ih =>
    obtain ⟨first, rest, hrs, h1, h2, h3, h4, h5⟩ := ih (by omega) (by omega)
    refine ⟨first, rest ++ [_], by rw [hrs]; rfl, h1, h2, h3, ?_, ?_⟩
    · simp only [List.map_append, List.sum_append, List.map_cons, List.map_nil, List.sum_cons,
        List.sum_nil]
      omega
    · simp only [List.map_append, List.sum_append, List.map_cons, List.map_nil, List.sum_cons,
        List.sum_nil]
      omega

/-! ## Evaluating the recurrence at a cell -/

lemma overlap_of_size_zero {c r : Sentence} (h : c.size = 0 ∨ r.size = 0) : overlap c r = 0 := by
  unfold overlap
  rw [if_pos h]

lemma candStep_skip {f : Nat → Nat → ℝ} {s t : Corpus} {i j : Nat} {acc : ℝ × Nat × Nat}
    {m : Nat × Nat} (h : ¬(i ≥ m.1 ∧ j ≥ m.2)) : candStep f s t i j acc m = acc := by
  unfold candStep
  rw [if_neg h]

lemma candStep_keep {f : Nat → Nat → ℝ} {s t : Corpus} {i j : Nat} {acc : ℝ × Nat × Nat}
    {m : Nat × Nat} (h : f (i - m.1) (j - m.2) + rungScore s t i j m ≤ acc.1) :
    candStep f s t i j acc m = acc := by
  unfold candStep
  split
  · rw [if_neg (not_lt.mpr h)]
  · rfl

lemma candStep_take {f : Nat → Nat → ℝ} {s t : Corpus} {i j : Nat} {acc : ℝ × Nat × Nat}
    {m : Nat × Nat} (hv : i ≥ m.1 ∧ j ≥ m.2)
    (h : f (i - m.1) (j - m.2) + rungScore s t i j m > acc.1) :
    candStep f s t i j acc m = (f (i - m.1) (j - m.2) + rungScore s t i j m, m.1, m.2) := by
  unfold candStep
  rw [if_pos hv, if_pos h]

lemma best_zero_left (s t : Corpus) (slowRun : Bool) (j : Nat) : best s t slowRun 0 j = 0 := by
  rw [best_eq, if_pos (Or.inl rfl)]

lemma best_zero_right (s t : Corpus) (slowRun : Bool) (i : Nat) : best s t slowRun i 0 = 0 := by
  rw [best_eq, if_pos (Or.inr rfl)]

lemma overlap_of_stats {c r : Sentence} {k0 a0 b0 k1 a1 b1 k2 a2 b2 k3 a3 b3 : Nat}
    (hsize : ¬(c.size = 0 ∨ r.size = 0))
    (hstats : computeBLEU2stats c r Stats.new = [k0, a0, b0, k1, a1, b1, k2, a2, b2, k3, a3, b3]) :
    overlap c r = Real.exp ((logPrecision k0 k1 k2 k3 a0 a1 a2 a3 b0
        + logPrecision k0 k1 k2 k3 b0 b1 b2 b3 a0) / 2) := by
  have h := computeBLEU2_eq_overlap c r
  rw [computeBLEU2, if_neg hsize, hstats, computeBLEU2OfStats_explicit] at h
  exact (Option.some.inj h).symm

/-! ## The corpora `["a"]` and `["b", "a"]` -/

lemma foldlM_option_inv {α β : Type} (P : β → Prop) (step : β → α → Option β)
    (hstep : ∀ b a b', step b a = some b' → P b → P b') :
    ∀ (l : List α) (b r : β), P b → l.foldlM step b = some r → P r
  | [], b, r, hb, h => by
    simp only [List.foldlM_nil, Option.pure_def, Option.some.injEq] at h
    exact h ▸ hb
  | a :: l, b, r, hb, h => by
    simp only [List.foldlM_cons, Option.bind_eq_bind] at h
    cases hs : step b a with
    | none => simp [hs] at h
    | some b' =>
      rw [hs, Option.some_bind] at h
      exact foldlM_option_inv P step hstep l b' r (hstep b a b' hs hb) h

lemma prefixTokens_append_le (l : List Sentence) (x : Sentence) (k : Nat) (hk : k ≤ l.length) :
    prefixTokens (l ++ [x]) k = prefixTokens l k := by
  unfold prefixTokens
  rw [List.take_append_of_le_length hk]

lemma prefixTokens_append_succ (l : List Sentence) (x : Sentence) :
    prefixTokens (l ++ [x]) (l.length + 1) = prefixTokens l l.length + x.size := by
  unfold prefixTokens
  have h : (l ++ [x]).length ≤ l.length + 1 := by simp
  rw [List.take_of_length_le h, List.take_of_length_le (le_refl _)]
  simp

lemma contiguous_append {l : List Sentence} {j : Nat} (h : Contiguous l j) (x : Sentence)
    (hx : x.m_start = j) : Contiguous (l ++ [x]) (j + x.size) := by
  refine ⟨fun k hk => ?_, ?_⟩
  · rw [List.length_append, List.length_singleton] at hk
    rw [prefixTokens_append_le l x k (by omega)]
    by_cases hlt : k < l.length
    · rw [List.getD_append _ _ _ _ hlt]
      exact h.1 k hlt
    · have hk' : k = l.length := by omega
      subst hk'
      rw [List.getD_append_right _ _ _ _ (le_refl _)]
      simp only [Nat.sub_self, List.getD_cons_zero]
      rw [hx, h.2]
  · rw [List.length_append, List.length_singleton, prefixTokens_append_succ, h.2]

lemma contiguous_push {l : List Sentence} {j : Nat} (h : Contiguous l j)
    (tokens : List StringPiece) (sp : StringPiece) (length : Nat) :
    Contiguous (l ++ [Sentence.make tokens sp j length]) (j + length) := by
  have := contiguous_append h (Sentence.make tokens sp j length) (make_start _ _ _ _)
  rw [make_size] at this
  exact this

lemma sentenceStep_contiguous (oob : Nat → Nat) (fuel : Nat) (rd : ReadState)
    (b : BuildState) (i : Nat) (b' : BuildState) (h : sentenceStep oob fuel rd b i = some b')
    (hb : Contiguous b.m_sentences b.j) : Contiguous b'.m_sentences b'.j := by
  unfold sentenceStep at h
  simp only at h
  split at h
  · cases h
  · simp only [Option.some.injEq] at h
    subst h
    exact contiguous_push hb _ _ _

lemma lastSentence_contiguous (oob : Nat → Nat) (fuel : Nat) (rd : ReadState)
    (b : BuildState) (b' : BuildState) (h : lastSentence oob fuel rd b = some b')
    (hb : Contiguous b.m_sentences b.j) : Contiguous b'.m_sentences b'.j := by
  unfold lastSentence at h
  simp only at h
  split at h
  · cases h
  · simp only [Option.some.injEq] at h
    subst h
    exact contiguous_push hb _ _ _

lemma contiguous_nil : Contiguous [] 0 :=
  ⟨fun k hk => absurd hk (Nat.not_lt_zero k), rfl⟩

lemma sentenceLoop_contiguous (oob : Nat → Nat) (fuel : Nat) (rd : ReadState) (b : BuildState)
    (h : sentenceLoop oob fuel rd = some b) : Contiguous b.m_sentences b.j :=
  foldlM_option_inv (fun b => Contiguous b.m_sentences b.j) (sentenceStep oob fuel rd)
    (sentenceStep_contiguous oob fuel rd) _ ⟨0, [], []⟩ b contiguous_nil h

lemma load_eq {oob : Nat → Nat} {fuel : Nat} {lines : List (List Nat)} {c : Corpus}
    (h : Corpus.load oob fuel lines = some c) :
    ∃ b b', sentenceLoop oob fuel (readLines lines) = some b ∧
      lastSentence oob fuel (readLines lines) b = some b' ∧
      c = ⟨(readLines lines).corpusStream, b'.m_tokens, b'.m_sentences, Sentence.empty, []⟩ := by
  unfold Corpus.load at h
  dsimp only at h
  cases hloop : sentenceLoop oob fuel (readLines lines) with
  | none =>
    rw [hloop] at h
    exact Option.noConfusion h
  | some b =>
    rw [hloop] at h
    dsimp only at h
    cases hlast : lastSentence oob fuel (readLines lines) b with
    | none =>
      rw [hlast] at h
      exact Option.noConfusion h
    | some b' =>
      rw [hlast] at h
      exact ⟨b, b', rfl, hlast, (Option.some.inj h).symm⟩

lemma load_spec {oob : Nat → Nat} {fuel : Nat} {lines : List (List Nat)} {c : Corpus}
    (h : Corpus.load oob fuel lines = some c) :
    c.m_ranges = [] ∧ c.m_emptySentence = Sentence.empty ∧
      ∃ j, Contiguous c.m_sentences j := by
  obtain ⟨b, b', hloop, hlast, rfl⟩ := load_eq h
  exact ⟨rfl, rfl, b'.j, lastSentence_contiguous oob fuel _ b b' hlast
    (sentenceLoop_contiguous oob fuel _ b hloop)⟩

lemma prefixTokens_succ (l : List Sentence) (k : Nat) (hk : k < l.length) :
    prefixTokens l (k + 1) = prefixTokens l k + (l.getD k Sentence.empty).size := by
  unfold prefixTokens
  rw [List.take_succ, List.map_append, List.sum_append, List.getD_eq_getElem?_getD]
  simp [List.getElem?_eq_getElem hk]

lemma sum_Icc_sizes (l : List Sentence) (i j : Nat) (hij : i ≤ j) (hj : j < l.length) :
    prefixTokens l i + Finset.sum (Finset.Icc i j) (fun k => (l.getD k Sentence.empty).size) =
      prefixTokens l (j + 1) := by
  induction j with
  | zero =>
    have : i = 0 := by omega
    subst this
    rw [prefixTokens_succ l 0 hj]
    simp
  | succ j ih =>
    by_cases h : i = j + 1
    · subst h
      rw [prefixTokens_succ l (j + 1) hj]
      simp
    · rw [Finset.sum_Icc_succ_top (by omega), ← add_assoc, ih (by omega) (by omega),
        prefixTokens_succ l (j + 1) hj]

lemma prefixTokens_mono (l : List Sentence) (i j : Nat) (hij : i ≤ j) (hj : j ≤ l.length) :
    prefixTokens l i ≤ prefixTokens l j := by
  induction j with
  | zero =>
    have : i = 0 := by omega
    subst this
    exact le_refl _
  | succ j ih =>
    by_cases h : i = j + 1
    · subst h
      exact le_refl _
    · rw [prefixTokens_succ l j (by omega)]
      have := ih (by omega) (by omega)
      omega

lemma range_size_of_contiguous (c : Corpus) (total : Nat) (hc : Contiguous c.m_sentences total)
    (hr : c.m_ranges = []) (i j : Nat) (hij : i ≤ j) (hj : j < c.size) :
    (c.range i j).size = Finset.sum (Finset.Icc i j) (fun k => (c.sentence k).size) := by
  have hsum := sum_Icc_sizes c.m_sentences i j hij hj
  rw [range_eq]
  by_cases h : i = j
  · subst h
    rw [if_pos rfl]
    simp [Corpus.sentence]
  · have hlt : j > i := by omega
    have hi : i < c.m_sentences.length := by
      unfold Corpus.size at hj
      omega
    rw [if_neg h, if_pos hlt]
    have hnone : c.findRange (i, j) = none := by
      unfold Corpus.findRange
      rw [hr]
      rfl
    rw [hnone, Option.getD_none]
    unfold Sentence.add
    rw [make_size]
    have hsi := hc.1 i hi
    have hsj := hc.1 j hj
    have hmono := prefixTokens_mono c.m_sentences i j hij (by unfold Corpus.size at hj; omega)
    have hnext := prefixTokens_succ c.m_sentences j hj
    have hnexti := prefixTokens_succ c.m_sentences i hi
    simp only [Corpus.sentence] at hsum ⊢
    simp only [Sentence.size] at hsum hnext hnexti ⊢
    rw [hsi, hsj]
    have hmono2 := prefixTokens_mono c.m_sentences (i + 1) (j + 1) (by omega)
      (by unfold Corpus.size at hj; omega)
    rw [min_eq_left hmono, max_eq_right (by omega)]
    omega

/-! ## The search finds the best path -/

lemma pathFrom_append (s t : Corpus) (path : List (Nat × Nat)) (m : Nat × Nat) :
    pathFrom s t (path ++ [m]) =
      (((pathFrom s t path).1.1 + m.1, (pathFrom s t path).1.2 + m.2),
        (pathFrom s t path).2 +
          moveScore s t ((pathFrom s t path).1.1 + m.1) ((pathFrom s t path).1.2 + m.2) m) := by
  unfold pathFrom
  rw [List.foldl_append]
  rfl

lemma foldl_candStep_ge_cand (f : Nat → Nat → ℝ) (s t : Corpus) (i j : Nat)
    (l : List (Nat × Nat)) (acc : ℝ × Nat × Nat) (m : Nat × Nat) (hm : m ∈ l)
    (hv : i ≥ m.1 ∧ j ≥ m.2) :
    f (i - m.1) (j - m.2) + rungScore s t i j m ≤ (l.foldl (candStep f s t i j) acc).1 := by
  induction l generalizing acc with
  | nil => exact absurd hm (List.not_mem_nil _)
  | cons m' l ih =>
    simp only [List.foldl_cons]
    rcases List.mem_cons.mp hm with rfl | hm
    · refine le_trans ?_ (foldl_candStep_ge f s t i j l _)
      unfold candStep
      rw [if_pos hv]
      split
      · exact le_refl _
      · rename_i h
        exact not_lt.mp h
    · exact ih _ hm

lemma best_ge_cand (s t : Corpus) (slowRun : Bool) (i j : Nat) (hi : 1 ≤ i) (hj : 1 ≤ j)
    (m : Nat × Nat) (hm : m ∈ rungTypes slowRun) (hv : i ≥ m.1 ∧ j ≥ m.2) :
    best s t slowRun (i - m.1) (j - m.2) + rungScore s t i j m ≤ best s t slowRun i j := by
  conv_rhs => rw [best_eq, if_neg (by omega)]
  exact foldl_candStep_ge_cand _ s t i j _ _ m hm hv

lemma rungScore_nonneg (s t : Corpus) (i j : Nat) (m : Nat × Nat) : 0 ≤ rungScore s t i j m :=
  overlap_nonneg _ _

lemma moveScore_le_rungScore (s t : Corpus) (i j : Nat) (m : Nat × Nat) :
    moveScore s t i j m ≤ rungScore s t i j m := by
  unfold moveScore
  split
  · exact rungScore_nonneg s t i j m
  · exact le_refl _

lemma rungScore_of_zero (s t : Corpus) (hs : s.m_emptySentence.size = 0)
    (ht : t.m_emptySentence.size = 0) (i j : Nat) (hi : 1 ≤ i) (hj : 1 ≤ j) (m : Nat × Nat)
    (hm : m.1 = 0 ∨ m.2 = 0) : rungScore s t i j m = 0 := by
  unfold rungScore
  apply overlap_of_size_zero
  rcases hm with h | h
  · left
    rw [h, range_eq, if_neg (by omega), if_neg (by omega)]
    exact hs
  · right
    rw [h, range_eq, if_neg (by omega), if_neg (by omega)]
    exact ht

lemma moveScore_eq_rungScore (s t : Corpus) (hs : s.m_emptySentence.size = 0)
    (ht : t.m_emptySentence.size = 0) (i j : Nat) (hi : 1 ≤ i) (hj : 1 ≤ j) (m : Nat × Nat) :
    moveScore s t i j m = rungScore s t i j m := by
  unfold moveScore
  split
  · rename_i h
    rw [rungScore_of_zero s t hs ht i j hi hj m h]
  · rfl

/-- No path scores more than the recurrence at the cell the path ends in. -/
lemma pathFrom_le_best (s t : Corpus) (slowRun : Bool) (path : List (Nat × Nat))
    (hpath : ∀ m ∈ path, m ∈ rungTypes slowRun) :
    (pathFrom s t path).2 ≤
      best s t slowRun (pathFrom s t path).1.1 (pathFrom s t path).1.2 := by
  induction path using List.reverseRecOn with
  | nil =>
    show (0 : ℝ) ≤ best s t slowRun 0 0
    exact best_nonneg _ _ _ _ _
  | append_singleton path m ih =>
    have ih' := ih (fun m' hm' => hpath m' (List.mem_append_left _ hm'))
    have hm := hpath m (List.mem_append_right _ (List.mem_singleton_self m))
    rw [pathFrom_append]
    simp only
    generalize (pathFrom s t path).1.1 = i at ih' ⊢
    generalize (pathFrom s t path).1.2 = j at ih' ⊢
    generalize (pathFrom s t path).2 = v at ih' ⊢
    by_cases h0 : i + m.1 = 0 ∨ j + m.2 = 0
    · have hb : best s t slowRun i j = 0 := by
        rw [best_eq, if_pos (by omega)]
      have hms : moveScore s t (i + m.1) (j + m.2) m = 0 := by
        unfold moveScore
        rw [if_pos (by omega)]
      rw [hms, add_zero]
      have := best_nonneg s t slowRun (i + m.1) (j + m.2)
      linarith
    · have hc := best_ge_cand s t slowRun (i + m.1) (j + m.2) (by omega) (by omega) m hm
        ⟨by omega, by omega⟩
      simp only [Nat.add_sub_cancel] at hc
      have := moveScore_le_rungScore s t (i + m.1) (j + m.2) m
      linarith

lemma foldl_candStep_acc (f : Nat → Nat → ℝ) (s t : Corpus) (i j : Nat)
    (l : List (Nat × Nat)) (acc : ℝ × Nat × Nat) (P : ℝ × Nat × Nat → Prop)
    (hacc : P acc)
    (hl : ∀ m ∈ l, i ≥ m.1 ∧ j ≥ m.2 →
      P (f (i - m.1) (j - m.2) + rungScore s t i j m, m.1, m.2)) :
    P (l.foldl (candStep f s t i j) acc) := by
  induction l generalizing acc with
  | nil => exact hacc
  | cons m l ih =>
    simp only [List.foldl_cons]
    apply ih
    · unfold candStep
      split
      · split
        · rename_i hv _
          exact hl m (List.mem_cons_self _ _) hv
        · exact hacc
      · exact hacc
    · exact fun m' hm' => hl m' (List.mem_cons_of_mem _ hm')

lemma cell_attained (f : Nat → Nat → ℝ) (s t : Corpus) (slowRun : Bool) (i j : Nat) :
    (cell f s t slowRun i j).1 = 0 ∨
      ∃ m ∈ rungTypes slowRun, (i ≥ m.1 ∧ j ≥ m.2) ∧
        (cell f s t slowRun i j).1 = f (i - m.1) (j - m.2) + rungScore s t i j m := by
  unfold cell
  apply foldl_candStep_acc f s t i j _ _
    (fun acc => acc.1 = 0 ∨ ∃ m ∈ rungTypes slowRun, (i ≥ m.1 ∧ j ≥ m.2) ∧
      acc.1 = f (i - m.1) (j - m.2) + rungScore s t i j m)
  · exact Or.inl rfl
  · exact fun m hm hv => Or.inr ⟨m, hm, hv, rfl⟩

lemma second_mem_rungTypes (slowRun : Bool) : ((1, 0) : Nat × Nat) ∈ rungTypes slowRun := by
  cases slowRun <;> simp [rungTypes, slow, fast]

lemma pathFrom_replicate_target (s t : Corpus) (n : Nat) :
    pathFrom s t (List.replicate n (0, 1)) = ((0, n), 0) := by
  induction n with
  | zero => rfl
  | succ n ih =>
    rw [List.replicate_succ', pathFrom_append, ih]
    simp [moveScore]

lemma pathFrom_replicate_source (s t : Corpus) (n : Nat) :
    pathFrom s t (List.replicate n (1, 0)) = ((n, 0), 0) := by
  induction n with
  | zero => rfl
  | succ n ih =>
    rw [List.replicate_succ', pathFrom_append, ih]
    simp [moveScore]

/-- Some path to each cell scores what the recurrence gives for the cell. -/
lemma best_attained (s t : Corpus) (hs : s.m_emptySentence.size = 0)
    (ht : t.m_emptySentence.size = 0) (slowRun : Bool) :
    ∀ (n i j : Nat), i + j ≤ n →
      ∃ path, (∀ m ∈ path, m ∈ rungTypes slowRun) ∧
        pathFrom s t path = ((i, j), best s t slowRun i j) := by
  intro n
  induction n with
  | zero =>
    intro i j h
    have hi : i = 0 := by omega
    have hj : j = 0 := by omega
    subst hi hj
    exact ⟨[], fun _ h => absurd h (List.not_mem_nil _), by rw [best_zero_left]; rfl⟩
  | succ n ih =>
    intro i j h
    by_cases hi : i = 0
    · subst hi
      refine ⟨List.replicate j (0, 1), fun m hm => ?_, ?_⟩
      · rw [(List.mem_replicate.mp hm).2]
        exact first_mem_rungTypes slowRun
      · rw [pathFrom_replicate_target, best_zero_left]
    by_cases hj : j = 0
    · subst hj
      refine ⟨List.replicate i (1, 0), fun m hm => ?_, ?_⟩
      · rw [(List.mem_replicate.mp hm).2]
        exact second_mem_rungTypes slowRun
      · rw [pathFrom_replicate_source, best_zero_right]
    have hbest : best s t slowRun i j = (cell (best s t slowRun) s t slowRun i j).1 := by
      rw [best_eq, if_neg (by omega)]
    rcases cell_attained (best s t slowRun) s t slowRun i j with h0 | ⟨m, hm, hv, hval⟩
    · have hc := best_ge_cand s t slowRun i j (by omega) (by omega) (0, 1)
        (first_mem_rungTypes slowRun) ⟨Nat.zero_le _, by show 1 ≤ j; omega⟩
      have hn1 := best_nonneg s t slowRun (i - 0) (j - 1)
      have hn2 := rungScore_nonneg s t i j (0, 1)
      simp only at hc hn1
      have hz : best s t slowRun (i - 0) (j - 1) = 0 := by
        rw [hbest, h0] at hc
        linarith
      obtain ⟨path, hpath, hend⟩ := ih (i - 0) (j - 1) (by omega)
      refine ⟨path ++ [(0, 1)], fun m' hm' => ?_, ?_⟩
      · rcases List.mem_append.mp hm' with h' | h'
        · exact hpath m' h'
        · rw [List.mem_singleton.mp h']
          exact first_mem_rungTypes slowRun
      · rw [pathFrom_append, hend, hz, hbest, h0]
        simp only [moveScore, true_or, if_true, add_zero, Nat.sub_zero]
        congr 2
        omega
    · have hpos := rungTypes_pos hm
      obtain ⟨path, hpath, hend⟩ := ih (i - m.1) (j - m.2) (by omega)
      refine ⟨path ++ [m], fun m' hm' => ?_, ?_⟩
      · rcases List.mem_append.mp hm' with h' | h'
        · exact hpath m' h'
        · rw [List.mem_singleton.mp h']
          exact hm
      · rw [pathFrom_append, hend, hbest, hval]
        simp only
        rw [Nat.sub_add_cancel hv.1, Nat.sub_add_cancel hv.2,
          moveScore_eq_rungScore s t hs ht i j (by omega) (by omega) m]

lemma load_emptySentence_size {oob : Nat → Nat} {fuel : Nat} {lines : List (List Nat)}
    {c : Corpus} (h : Corpus.load oob fuel lines = some c) : c.m_emptySentence.size = 0 := by
  rw [(load_spec h).2.1]
  rfl

/-! ## The text of an n-gram -/

lemma subw_of_le {a b : Nat} (h : b ≤ a) : subw a b = a - b := by
  unfold subw
  rw [if_pos h]

lemma corpusOf_size (lines : List (List Nat)) : (corpusOf lines).size = lines.length := by
  simp [Corpus.size, corpusOf]

lemma countLoop_nil_left (fuel : Nat) (n2 : NGramsByOrder) (common : Nat) :
    countLoop fuel [] n2 common = common := by
  cases fuel <;> simp [countLoop]

lemma countLoop_nil_right (fuel : Nat) (n1 : NGramsByOrder) (common : Nat) :
    countLoop fuel n1 [] common = common := by
  cases fuel <;> cases n1 <;> simp [countLoop]

/-- More turns than the two sequences have elements change nothing: the loop
of `countCommon` has ended by then. -/
lemma countLoop_fuel : ∀ (fuel fuel' : Nat) (n1 n2 : NGramsByOrder) (common : Nat),
    n1.length + n2.length ≤ fuel → n1.length + n2.length ≤ fuel' →
      countLoop fuel n1 n2 common = countLoop fuel' n1 n2 common
  | fuel, fuel', [], n2, common, _, _ => by
    rw [countLoop_nil_left, countLoop_nil_left]
  | fuel, fuel', _ :: _, [], common, _, _ => by
    rw [countLoop_nil_right, countLoop_nil_right]
  | 0, _, _ :: _, _ :: _, _, h, _ => by simp at h
  | _ + 1, 0, _ :: _, _ :: _, _, _, h => by simp at h
  | fuel + 1, fuel' + 1, a :: n1, b :: n2, common, h, h' => by
    simp only [List.length_cons] at h h'
    simp only [countLoop]
    split
    · exact countLoop_fuel fuel fuel' n1 (b :: n2) common (by simp; omega) (by simp; omega)
    · split
      · exact countLoop_fuel fuel fuel' n1 n2 (common + 1) (by omega) (by omega)
      · exact countLoop_fuel fuel fuel' (a :: n1) n2 common (by simp; omega) (by simp; omega)

lemma tryRung_seenOK {rec : Nat → Nat → World → Option (ℝ × World)}
    (hrec : ∀ a b w v w', rec a b w = some (v, w') → SeenOK w → 0 ≤ v ∧ SeenOK w')
    (i j : Nat) (acc : Search) (m : Nat × Nat) (acc' : Search)
    (h : tryRung rec i j acc m = some acc') (hacc : 0 ≤ acc.bestBLEU ∧ SeenOK acc.w) :
    0 ≤ acc'.bestBLEU ∧ SeenOK acc'.w := by
  by_cases hv : i ≥ m.1 ∧ j ≥ m.2
  · cases hr : rec (i - m.1) (j - m.2) acc.w with
    | none => simp [tryRung, hv, hr] at h
    | some p =>
      obtain ⟨v, w1⟩ := p
      obtain ⟨hv0, hw1⟩ := hrec _ _ _ _ _ hr hacc.2
      simp only [tryRung, hv, and_self, if_true, hr, computeBLEU2_eq_overlap] at h
      split at h
      · rename_i hgt
        simp only [Option.some.injEq] at h
        subst h
        exact ⟨le_trans hacc.1 hgt.le, hw1⟩
      · simp only [Option.some.injEq] at h
        subst h
        exact ⟨hacc.1, hw1⟩
  · simp only [tryRung, hv, if_false, Option.some.injEq] at h
    subst h
    exact hacc

lemma S_seenOK (slowRun : Bool) : ∀ (fuel i j : Nat) (w : World) (v : ℝ) (w' : World),
    S fuel i j slowRun w = some (v, w') → SeenOK w → 0 ≤ v ∧ SeenOK w'
  | 0, _, _, _, _, _, h, _ => by simp [S] at h
  | fuel + 1, i, j, w, v, w', h, hw => by
    unfold S at h
    split at h
    · simp only [Option.some.injEq, Prod.mk.injEq] at h
      obtain ⟨rfl, rfl⟩ := h
      exact ⟨le_refl _, hw⟩
    · split at h
      · rename_i hseen
        simp only [Option.some.injEq, Prod.mk.injEq] at h
        obtain ⟨rfl, rfl⟩ := h
        rcases hw i j with h1 | h1
        · exact absurd h1 hseen
        · exact ⟨h1, hw⟩
      · simp only at h
        split at h
        · simp at h
        · rename_i r hr
          simp only [Option.some.injEq, Prod.mk.injEq] at h
          obtain ⟨rfl, rfl⟩ := h
          have hP := foldlM_option_inv (fun a : Search => 0 ≤ a.bestBLEU ∧ SeenOK a.w)
            (tryRung (fun a b w => S fuel a b slowRun w) i j)
            (fun b a b' hb hPb => tryRung_seenOK
              (fun a b w v w' h hw => S_seenOK slowRun fuel a b w v w' h hw) i j b a b' hb hPb)
            _ _ r ⟨le_refl _, hw⟩ hr
          refine ⟨hP.1, fun x y => ?_⟩
          simp only [setCell]
          split
          · exact Or.inr hP.1
          · exact hP.2 x y

/-! ## The rung type the loop of `S` keeps -/

lemma candStep_fst_le (f : Nat → Nat → ℝ) (s t : Corpus) (i j : Nat) (acc : ℝ × Nat × Nat)
    (m : Nat × Nat) : acc.1 ≤ (candStep f s t i j acc m).1 :=
  foldl_candStep_ge f s t i j [m] acc

lemma candStep_valid_le (f : Nat → Nat → ℝ) (s t : Corpus) (i j : Nat) (acc : ℝ × Nat × Nat)
    (m : Nat × Nat) (hv : i ≥ m.1 ∧ j ≥ m.2) :
    f (i - m.1) (j - m.2) + rungScore s t i j m ≤ (candStep f s t i j acc m).1 :=
  foldl_candStep_ge_cand f s t i j [m] acc m (List.mem_singleton_self m) hv

/-- The loop of `S` over a list of rung types leaves its start value when no
valid rung type exceeds it, and otherwise ends with the first rung type of the
greatest value: the rung types before it stay strictly below, those behind do
not exceed it. -/
lemma foldl_candStep_first (f : Nat → Nat → ℝ) (s t : Corpus) (i j : Nat) :
    ∀ (l : List (Nat × Nat)) (acc : ℝ × Nat × Nat),
      (l.foldl (candStep f s t i j) acc = acc ∧
        ∀ m ∈ l, i ≥ m.1 ∧ j ≥ m.2 → f (i - m.1) (j - m.2) + rungScore s t i j m ≤ acc.1) ∨
      ∃ pre m post, l = pre ++ m :: post ∧ (i ≥ m.1 ∧ j ≥ m.2) ∧
        l.foldl (candStep f s t i j) acc =
          (f (i - m.1) (j - m.2) + rungScore s t i j m, m.1, m.2) ∧
        acc.1 < f (i - m.1) (j - m.2) + rungScore s t i j m ∧
        (∀ p ∈ pre, i ≥ p.1 ∧ j ≥ p.2 →
          f (i - p.1) (j - p.2) + rungScore s t i j p
            < f (i - m.1) (j - m.2) + rungScore s t i j m) ∧
        ∀ q ∈ post, i ≥ q.1 ∧ j ≥ q.2 →
          f (i - q.1) (j - q.2) + rungScore s t i j q
            ≤ f (i - m.1) (j - m.2) + rungScore s t i j m
  | [], acc => Or.inl ⟨rfl, fun _ h => absurd h (List.not_mem_nil _)⟩
  | x :: l, acc => by
    rcases foldl_candStep_first f s t i j l (candStep f s t i j acc x) with
      ⟨hr, hall⟩ | ⟨pre, m, post, hl, hv, hr, hacc, hpre, hpost⟩
    · by_cases hx : (i ≥ x.1 ∧ j ≥ x.2) ∧ f (i - x.1) (j - x.2) + rungScore s t i j x > acc.1
      · refine Or.inr ⟨[], x, l, rfl, hx.1, ?_, hx.2, fun _ h => absurd h (List.not_mem_nil _), ?_⟩
        · rw [List.foldl_cons, hr, candStep_take hx.1 hx.2]
        · intro q hq hvq
          have := hall q hq hvq
          rwa [candStep_take hx.1 hx.2] at this
      · have hkeep : candStep f s t i j acc x = acc := by
          by_cases hvx : i ≥ x.1 ∧ j ≥ x.2
          · exact candStep_keep (not_lt.mp (fun h => hx ⟨hvx, h⟩))
          · exact candStep_skip hvx
        refine Or.inl ⟨by rw [List.foldl_cons, hr, hkeep], ?_⟩
        intro m hm hvm
        rcases List.mem_cons.mp hm with rfl | hm
        · exact not_lt.mp (fun h => hx ⟨hvm, h⟩)
        · have := hall m hm hvm
          rwa [hkeep] at this
    · refine Or.inr ⟨x :: pre, m, post, by rw [hl, List.cons_append], hv, ?_, ?_, ?_, hpost⟩
      · rw [List.foldl_cons, hr]
      · exact lt_of_le_of_lt (candStep_fst_le f s t i j acc x) hacc
      · intro p hp hvp
        rcases List.mem_cons.mp hp with rfl | hp
        · exact lt_of_le_of_lt (candStep_valid_le f s t i j acc p hvp) hacc
        · exact hpre p hp hvp

/-- A rung type that strictly exceeds the start value and the rung types before
it, and is not exceeded by those behind it, is the one the loop of `S` ends
with. -/
lemma foldl_candStep_pick (f : Nat → Nat → ℝ) (s t : Corpus) (i j : Nat) (m : Nat × Nat)
    (hv : i ≥ m.1 ∧ j ≥ m.2) (post : List (Nat × Nat))
    (hpost : ∀ q ∈ post, i ≥ q.1 ∧ j ≥ q.2 →
      f (i - q.1) (j - q.2) + rungScore s t i j q
        ≤ f (i - m.1) (j - m.2) + rungScore s t i j m) :
    ∀ (pre : List (Nat × Nat)) (acc : ℝ × Nat × Nat),
      acc.1 < f (i - m.1) (j - m.2) + rungScore s t i j m →
      (∀ p ∈ pre, i ≥ p.1 ∧ j ≥ p.2 →
        f (i - p.1) (j - p.2) + rungScore s t i j p
          < f (i - m.1) (j - m.2) + rungScore s t i j m) →
      (pre ++ m :: post).foldl (candStep f s t i j) acc =
        (f (i - m.1) (j - m.2) + rungScore s t i j m, m.1, m.2)
  | [], acc, hacc, _ => by
    rw [List.nil_append, List.foldl_cons, candStep_take hv hacc]
    rcases foldl_candStep_first f s t i j post
        (f (i - m.1) (j - m.2) + rungScore s t i j m, m.1, m.2) with
      ⟨hr, -⟩ | ⟨pre', m', post', hl, hv', -, hlt, -, -⟩
    · exact hr
    · exact absurd (hpost m' (by rw [hl]; simp) hv') (not_le.mpr hlt)
  | x :: pre, acc, hacc, hpre => by
    rw [List.cons_append, List.foldl_cons]
    apply foldl_candStep_pick f s t i j m hv post hpost pre
    · by_cases hx : (i ≥ x.1 ∧ j ≥ x.2) ∧ f (i - x.1) (j - x.2) + rungScore s t i j x > acc.1
      · rw [candStep_take hx.1 hx.2]
        exact hpre x (List.mem_cons_self _ _) hx.1
      · have hkeep : candStep f s t i j acc x = acc := by
          by_cases hvx : i ≥ x.1 ∧ j ≥ x.2
          · exact candStep_keep (not_lt.mp (fun h => hx ⟨hvx, h⟩))
          · exact candStep_skip hvx
        rw [hkeep]
        exact hacc
    · exact fun p hp => hpre p (List.mem_cons_of_mem _ hp)

lemma candValue_nonneg (s t : Corpus) (slowRun : Bool) (i j : Nat) (m : Nat × Nat) :
    0 ≤ candValue s t slowRun i j m :=
  add_nonneg (best_nonneg _ _ _ _ _) (rungScore_nonneg _ _ _ _ _)

/-- The rung type the recurrence records at a cell is the first of the list
among the valid rung types of the greatest value. -/
lemma bestMove_first (s t : Corpus) (i j : Nat) (hi : 1 ≤ i) (hj : 1 ≤ j) :
    ∃ pre post, slow = pre ++ bestMove s t true i j :: post ∧
      (i ≥ (bestMove s t true i j).1 ∧ j ≥ (bestMove s t true i j).2) ∧
      candValue s t true i j (bestMove s t true i j) = best s t true i j ∧
      (∀ p ∈ pre, i ≥ p.1 ∧ j ≥ p.2 → candValue s t true i j p < best s t true i j) ∧
      (∀ q ∈ slow, i ≥ q.1 ∧ j ≥ q.2 → candValue s t true i j q ≤ best s t true i j) ∧
      ((∀ q ∈ slow, i ≥ q.1 ∧ j ≥ q.2 → candValue s t true i j q = 0) →
        bestMove s t true i j = (0, 1)) := by
  have hb : best s t true i j = (cell (best s t true) s t true i j).1 := by
    rw [best_eq, if_neg (by omega)]
  have hle : ∀ q ∈ slow, i ≥ q.1 ∧ j ≥ q.2 → candValue s t true i j q ≤ best s t true i j :=
    fun q hq hv => best_ge_cand s t true i j hi hj q hq hv
  have hv01 : i ≥ ((0, 1) : Nat × Nat).1 ∧ j ≥ ((0, 1) : Nat × Nat).2 := ⟨Nat.zero_le _, hj⟩
  rcases foldl_candStep_first (best s t true) s t i j slow (0, 0, 1) with
    ⟨hr, hall⟩ | ⟨pre, m, post, hl, hv, hr, hacc, hpre, hpost⟩
  · have hcell : cell (best s t true) s t true i j = (0, 0, 1) := hr
    have hm : bestMove s t true i j = (0, 1) := by
      unfold bestMove
      rw [hcell]
    have h0 : best s t true i j = 0 := by rw [hb, hcell]
    rw [hm, h0]
    refine ⟨[], _, rfl, hv01, ?_, fun _ h => absurd h (List.not_mem_nil _), ?_, fun _ => rfl⟩
    · exact le_antisymm (hall (0, 1) (by simp [slow]) hv01) (candValue_nonneg s t true i j (0, 1))
    · exact fun q hq hv => hall q hq hv
  · have hcell : cell (best s t true) s t true i j =
        (best s t true (i - m.1) (j - m.2) + rungScore s t i j m, m.1, m.2) := hr
    have hm : bestMove s t true i j = m := by
      unfold bestMove
      rw [hcell]
    have hval : best s t true i j = candValue s t true i j m := by rw [hb, hcell]; rfl
    rw [hm, hval]
    refine ⟨pre, post, hl, hv, rfl, hpre, ?_, ?_⟩
    · intro q hq hvq
      rw [← hval]
      exact hle q hq hvq
    · intro hzero
      have := hzero m (by rw [hl]; simp) hv
      have hacc0 : (0 : ℝ) < candValue s t true i j m := hacc
      linarith

/-! ## Values of single rung types -/

lemma candValue_zero (s t : Corpus) (hs : s.m_emptySentence.size = 0)
    (ht : t.m_emptySentence.size = 0) (slowRun : Bool) (i j : Nat) (hi : 1 ≤ i) (hj : 1 ≤ j)
    (m : Nat × Nat) (hm : m.1 = 0 ∨ m.2 = 0) :
    candValue s t slowRun i j m = best s t slowRun (i - m.1) (j - m.2) := by
  unfold candValue
  rw [rungScore_of_zero s t hs ht i j hi hj m hm, add_zero]

lemma candValue_le (s t : Corpus) (slowRun : Bool) (i j : Nat) (m : Nat × Nat) :
    candValue s t slowRun i j m ≤ best s t slowRun (i - m.1) (j - m.2) + 1 :=
  add_le_add_left (overlap_le_one _ _) _

/-- The value and the rung type of a cell, from a rung type that is the first
of the greatest value. -/
lemma best_pick (s t : Corpus) (i j : Nat) (hi : 1 ≤ i) (hj : 1 ≤ j)
    (pre : List (Nat × Nat)) (m : Nat × Nat) (post : List (Nat × Nat))
    (hl : slow = pre ++ m :: post) (hv : i ≥ m.1 ∧ j ≥ m.2)
    (hpos : 0 < candValue s t true i j m)
    (hpre : ∀ p ∈ pre, i ≥ p.1 ∧ j ≥ p.2 → candValue s t true i j p < candValue s t true i j m)
    (hpost : ∀ q ∈ post, i ≥ q.1 ∧ j ≥ q.2 →
      candValue s t true i j q ≤ candValue s t true i j m) :
    best s t true i j = candValue s t true i j m ∧ bestMove s t true i j = m := by
  have hcell : cell (best s t true) s t true i j = (candValue s t true i j m, m.1, m.2) := by
    show slow.foldl _ _ = _
    rw [hl]
    exact foldl_candStep_pick (best s t true) s t i j m hv post hpost pre _ hpos hpre
  constructor
  · rw [best_eq, if_neg (by omega), hcell]
  · unfold bestMove
    rw [hcell]

lemma walk_stop_eq {prev : Nat → Nat → Nat × Nat} {i j : Nat} {rs : List Rung}
    (h : Walk prev i j rs) (hstop : ¬(i > (prev i j).1 ∧ j > (prev i j).2)) :
    rs = [⟨i, j, (prev i j).1, (prev i j).2⟩] := by
  cases h with
  | stop _ _ _ => rfl
  | step _ _ _ hgo _ => exact absurd hgo hstop

lemma walk_step_eq {prev : Nat → Nat → Nat × Nat} {i j : Nat} {rs : List Rung}
    (h : Walk prev i j rs) (hgo : i > (prev i j).1 ∧ j > (prev i j).2) :
    ∃ below, Walk prev (i - (prev i j).1) (j - (prev i j).2) below ∧
      rs = below ++ [⟨i, j, (prev i j).1, (prev i j).2⟩] := by
  cases h with
  | stop _ _ hstop => exact absurd hgo hstop
  | step _ _ below _ hb => exact ⟨below, hb, rfl⟩

/-! ## The corpus `["a b c", "d e"]` against itself -/

lemma abcde_empty : abcde.m_emptySentence.size = 0 := by decide

lemma abcde_overlap_0 : overlap (abcde.range 0 0) (abcde.range 0 0) = 1 := by
  rw [overlap_of_stats (by decide) (by decide : _ = [3, 3, 3, 2, 2, 2, 1, 1, 1, 0, 0, 0])]
  simp only [logPrecision, logTerm, brevityTerm]
  norm_num

lemma abcde_overlap_1 : overlap (abcde.range 1 1) (abcde.range 1 1) = 1 := by
  rw [overlap_of_stats (by decide) (by decide : _ = [2, 2, 2, 1, 1, 1, 0, 0, 0, 0, 0, 0])]
  simp only [logPrecision, logTerm, brevityTerm]
  norm_num

lemma abcde_cell_1_1 :
    best abcde abcde true 1 1 = 1 ∧ bestMove abcde abcde true 1 1 = (1, 1) := by
  have hc : candValue abcde abcde true 1 1 (1, 1) = 1 := by
    show best _ _ true 0 0 + overlap (abcde.range 0 0) (abcde.range 0 0) = 1
    rw [best_zero_left, zero_add, abcde_overlap_0]
  rw [← hc]
  refine best_pick abcde abcde 1 1 (by decide) (by decide) [(0, 1), (1, 0)] (1, 1) _ rfl
    (by decide) (by rw [hc]; norm_num) ?_ ?_
  · intro p hp _
    rw [hc]
    simp only [List.mem_cons, List.mem_singleton, List.not_mem_nil, or_false] at hp
    rcases hp with rfl | rfl
    · rw [candValue_zero _ _ abcde_empty abcde_empty _ _ _ (by decide) (by decide) _
        (Or.inl rfl)]
      show best _ _ true 1 0 < 1
      rw [best_zero_right]
      norm_num
    · rw [candValue_zero _ _ abcde_empty abcde_empty _ _ _ (by decide) (by decide) _
        (Or.inr rfl)]
      show best _ _ true 0 1 < 1
      rw [best_zero_left]
      norm_num
  · intro q hq hv
    simp only [List.mem_cons, List.mem_singleton, List.not_mem_nil, or_false] at hq
    rcases hq with rfl | rfl | rfl | rfl | rfl | rfl | rfl <;> simp at hv

lemma abcde_best_1_2 : best abcde abcde true 1 2 = 1 := by
  have hc : candValue abcde abcde true 1 2 (0, 1) = 1 := by
    rw [candValue_zero _ _ abcde_empty abcde_empty _ _ _ (by decide) (by decide) _ (Or.inl rfl)]
    exact abcde_cell_1_1.1
  rw [← hc]
  refine (best_pick abcde abcde 1 2 (by decide) (by decide) [] (0, 1) _ rfl
    (by decide) (by rw [hc]; norm_num) (fun _ h => absurd h (List.not_mem_nil _)) ?_).1
  intro q hq hv
  rw [hc]
  simp only [List.mem_cons, List.mem_singleton, List.not_mem_nil, or_false] at hq
  rcases hq with rfl | rfl | rfl | rfl | rfl | rfl | rfl | rfl | rfl <;>
    first
    | (exfalso; revert hv; decide)
    | (refine le_trans (candValue_le _ _ _ _ _ _) ?_
       show best _ _ true 0 _ + 1 ≤ 1
       rw [best_zero_left, zero_add])

lemma abcde_best_2_1 : best abcde abcde true 2 1 = 1 := by
  have hc : candValue abcde abcde true 2 1 (1, 0) = 1 := by
    rw [candValue_zero _ _ abcde_empty abcde_empty _ _ _ (by decide) (by decide) _ (Or.inr rfl)]
    exact abcde_cell_1_1.1
  rw [← hc]
  refine (best_pick abcde abcde 2 1 (by decide) (by decide) [(0, 1)] (1, 0) _ rfl
    (by decide) (by rw [hc]; norm_num) ?_ ?_).1
  · intro p hp _
    rw [hc]
    simp only [List.mem_cons, List.mem_singleton, List.not_mem_nil, or_false] at hp
    subst hp
    rw [candValue_zero _ _ abcde_empty abcde_empty _ _ _ (by decide) (by decide) _ (Or.inl rfl)]
    show best _ _ true 2 0 < 1
    rw [best_zero_right]
    norm_num
  · intro q hq hv
    rw [hc]
    simp only [List.mem_cons, List.mem_singleton, List.not_mem_nil, or_false] at hq
    rcases hq with rfl | rfl | rfl | rfl | rfl | rfl | rfl | rfl <;>
      first
      | (exfalso; revert hv; decide)
      | (refine le_trans (candValue_le _ _ _ _ _ _) ?_
         first
         | (show best _ _ true 0 _ + 1 ≤ 1
            rw [best_zero_left, zero_add])
         | (show best _ _ true _ 0 + 1 ≤ 1
            rw [best_zero_right, zero_add]))

lemma abcde_cell_2_2 :
    best abcde abcde true 2 2 = 2 ∧ bestMove abcde abcde true 2 2 = (1, 1) := by
  have hc : candValue abcde abcde true 2 2 (1, 1) = 2 := by
    show best _ _ true 1 1 + overlap (abcde.range 1 1) (abcde.range 1 1) = 2
    rw [abcde_cell_1_1.1, abcde_overlap_1]
    norm_num
  rw [← hc]
  refine best_pick abcde abcde 2 2 (by decide) (by decide) [(0, 1), (1, 0)] (1, 1) _ rfl
    (by decide) (by rw [hc]; norm_num) ?_ ?_
  · intro p hp _
    rw [hc]
    simp only [List.mem_cons, List.mem_singleton, List.not_mem_nil, or_false] at hp
    rcases hp with rfl | rfl
    · rw [candValue_zero _ _ abcde_empty abcde_empty _ _ _ (by decide) (by decide) _
        (Or.inl rfl)]
      show best _ _ true 2 1 < 2
      rw [abcde_best_2_1]
      norm_num
    · rw [candValue_zero _ _ abcde_empty abcde_empty _ _ _ (by decide) (by decide) _
        (Or.inr rfl)]
      show best _ _ true 1 2 < 2
      rw [abcde_best_1_2]
      norm_num
  · intro q hq hv
    rw [hc]
    simp only [List.mem_cons, List.mem_singleton, List.not_mem_nil, or_false] at hq
    rcases hq with rfl | rfl | rfl | rfl | rfl | rfl | rfl <;>
      first
      | (exfalso; revert hv; decide)
      | (refine le_trans (candValue_le _ _ _ _ _ _) ?_
         first
         | (show best _ _ true 0 _ + 1 ≤ 2
            rw [best_zero_left]
            norm_num)
         | (show best _ _ true _ 0 + 1 ≤ 2
            rw [best_zero_right]
            norm_num))

lemma abcde_rungs (rungs : List Rung) (h : Walk (bestMove abcde abcde true) 2 2 rungs) :
    rungs = [⟨1, 1, 1, 1⟩, ⟨2, 2, 1, 1⟩] := by
  have h2 := abcde_cell_2_2.2
  have h1 := abcde_cell_1_1.2
  obtain ⟨below, hb, rfl⟩ := walk_step_eq h (by rw [h2]; decide)
  rw [h2] at hb
  have hb1 : Walk (bestMove abcde abcde true) 1 1 below := hb
  rw [walk_stop_eq hb1 (by rw [h1]; decide), h1, h2]
  rfl

/-- A cell all of whose valid rung types have a value below `x` has a value
below `x`. -/
lemma best_lt_of_cands (s t : Corpus) (slowRun : Bool) (i j : Nat) (x : ℝ) (hx : 0 < x)
    (h : ∀ m ∈ rungTypes slowRun, i ≥ m.1 ∧ j ≥ m.2 → candValue s t slowRun i j m < x) :
    best s t slowRun i j < x := by
  rw [best_eq]
  split
  · exact hx
  · rcases cell_attained (best s t slowRun) s t slowRun i j with h0 | ⟨m, hm, hv, hval⟩
    · rw [h0]
      exact hx
    · rw [hval]
      exact h m hm hv

/-! ## The corpus `["a b", "c d"]` against `["a b c d"]` -/

lemma abcd_empty_split : abcdSplit.m_emptySentence.size = 0 := by decide

lemma abcd_empty_whole : abcdWhole.m_emptySentence.size = 0 := by decide

lemma exp_lt_one_of_neg {x : ℝ} (h : x < 0) : Real.exp x < 1 := by
  rw [← Real.exp_zero]
  exact Real.exp_lt_exp.mpr h

lemma abcd_overlap_0 : overlap (abcdSplit.range 0 0) (abcdWhole.range 0 0) < 1 := by
  rw [overlap_of_stats (by decide) (by decide : _ = [2, 2, 4, 1, 1, 3, 0, 0, 2, 0, 0, 1])]
  apply exp_lt_one_of_neg
  have h1 : logPrecision 2 1 0 0 2 1 0 0 4 = -1 := by
    simp only [logPrecision, logTerm, brevityTerm]
    norm_num
  have h2 : logPrecision 2 1 0 0 4 3 2 1 2 ≤ 0 :=
    logPrecision_nonpos 2 (by decide) (by decide) (by decide) (by decide)
  linarith

lemma abcd_overlap_1 : overlap (abcdSplit.range 1 1) (abcdWhole.range 0 0) < 1 := by
  rw [overlap_of_stats (by decide) (by decide : _ = [2, 2, 4, 1, 1, 3, 0, 0, 2, 0, 0, 1])]
  apply exp_lt_one_of_neg
  have h1 : logPrecision 2 1 0 0 2 1 0 0 4 = -1 := by
    simp only [logPrecision, logTerm, brevityTerm]
    norm_num
  have h2 : logPrecision 2 1 0 0 4 3 2 1 2 ≤ 0 :=
    logPrecision_nonpos 2 (by decide) (by decide) (by decide) (by decide)
  linarith

lemma abcd_overlap_01 : overlap (abcdSplit.range 0 1) (abcdWhole.range 0 0) = 1 := by
  rw [overlap_of_stats (by decide) (by decide : _ = [4, 4, 4, 3, 3, 3, 2, 2, 2, 1, 1, 1])]
  simp only [logPrecision, logTerm, brevityTerm]
  norm_num

lemma abcd_best_1_1 (slowRun : Bool) : best abcdSplit abcdWhole slowRun 1 1 < 1 := by
  apply best_lt_of_cands _ _ _ _ _ _ one_pos
  intro m hm hv
  have hm2 : m ∈ slow := by
    cases slowRun
    · simp only [rungTypes, fast, Bool.false_eq_true, if_false, List.mem_cons, List.mem_singleton,
        List.not_mem_nil, or_false] at hm
      rcases hm with rfl | rfl | rfl <;> simp [slow]
    · exact hm
  simp only [slow, List.mem_cons, List.mem_singleton, List.not_mem_nil, or_false] at hm2
  rcases hm2 with rfl | rfl | rfl | rfl | rfl | rfl | rfl | rfl | rfl | rfl <;>
    first
    | (exfalso; revert hv; decide)
    | (rw [candValue_zero _ _ abcd_empty_split abcd_empty_whole _ _ _ (by decide) (by decide) _
        (by decide)]
       first
       | (show best _ _ _ 1 0 < 1
          rw [best_zero_right]
          exact one_pos)
       | (show best _ _ _ 0 1 < 1
          rw [best_zero_left]
          exact one_pos))
    | (show best _ _ _ 0 0 + overlap (abcdSplit.range 0 0) (abcdWhole.range 0 0) < 1
       rw [best_zero_left, zero_add]
       exact abcd_overlap_0)

lemma abcd_cell_2_1 :
    best abcdSplit abcdWhole true 2 1 = 1 ∧ bestMove abcdSplit abcdWhole true 2 1 = (2, 1) := by
  have hc : candValue abcdSplit abcdWhole true 2 1 (2, 1) = 1 := by
    show best _ _ true 0 0 + overlap (abcdSplit.range 0 1) (abcdWhole.range 0 0) = 1
    rw [best_zero_left, zero_add, abcd_overlap_01]
  rw [← hc]
  refine best_pick abcdSplit abcdWhole 2 1 (by decide) (by decide)
    [(0, 1), (1, 0), (1, 1), (1, 2)] (2, 1) _ rfl (by decide) (by rw [hc]; norm_num) ?_ ?_
  · intro p hp hv
    rw [hc]
    simp only [List.mem_cons, List.mem_singleton, List.not_mem_nil, or_false] at hp
    rcases hp with rfl | rfl | rfl | rfl
    · rw [candValue_zero _ _ abcd_empty_split abcd_empty_whole _ _ _ (by decide) (by decide) _
        (Or.inl rfl)]
      show best _ _ true 2 0 < 1
      rw [best_zero_right]
      exact one_pos
    · rw [candValue_zero _ _ abcd_empty_split abcd_empty_whole _ _ _ (by decide) (by decide) _
        (Or.inr rfl)]
      exact abcd_best_1_1 true
    · show best _ _ true 1 0 + overlap (abcdSplit.range 1 1) (abcdWhole.range 0 0) < 1
      rw [best_zero_right, zero_add]
      exact abcd_overlap_1
    · exact absurd hv (by decide)
  · intro q hq hv
    simp only [List.mem_cons, List.mem_singleton, List.not_mem_nil, or_false] at hq
    rcases hq with rfl | rfl | rfl | rfl | rfl <;> exact absurd hv (by decide)

lemma abcd_fast_2_1 : best abcdSplit abcdWhole false 2 1 < 1 := by
  apply best_lt_of_cands _ _ _ _ _ _ one_pos
  intro m hm _
  simp only [rungTypes, fast, Bool.false_eq_true, if_false, List.mem_cons, List.mem_singleton,
    List.not_mem_nil, or_false] at hm
  rcases hm with rfl | rfl | rfl
  · rw [candValue_zero _ _ abcd_empty_split abcd_empty_whole _ _ _ (by decide) (by decide) _
      (Or.inl rfl)]
    show best _ _ false 2 0 < 1
    rw [best_zero_right]
    exact one_pos
  · rw [candValue_zero _ _ abcd_empty_split abcd_empty_whole _ _ _ (by decide) (by decide) _
      (Or.inr rfl)]
    exact abcd_best_1_1 false
  · show best _ _ false 1 0 + overlap (abcdSplit.range 1 1) (abcdWhole.range 0 0) < 1
    rw [best_zero_right, zero_add]
    exact abcd_overlap_1

/-! ## Views without a common n-gram -/

lemma candStep_fst (f : Nat → Nat → ℝ) (s t : Corpus) (i j : Nat) (acc : ℝ × Nat × Nat)
    (m : Nat × Nat) :
    (candStep f s t i j acc m).1 =
      if i ≥ m.1 ∧ j ≥ m.2 then max acc.1 (f (i - m.1) (j - m.2) + rungScore s t i j m)
      else acc.1 := by
  unfold candStep
  split
  · split
    · rename_i h
      exact (max_eq_right h.le).symm
    · rename_i h
      exact (max_eq_left (not_lt.mp h)).symm
  · rfl

lemma foldl_candStep_fst (f : Nat → Nat → ℝ) (s t : Corpus) (i j : Nat) :
    ∀ (l : List (Nat × Nat)) (acc : ℝ × Nat × Nat),
      (l.foldl (candStep f s t i j) acc).1 =
        ((l.filter (fun m => decide (i ≥ m.1 ∧ j ≥ m.2))).map
          (fun m => f (i - m.1) (j - m.2) + rungScore s t i j m)).foldl max acc.1
  | [], _ => rfl
  | m :: l, acc => by
    rw [List.foldl_cons, foldl_candStep_fst f s t i j l, candStep_fst]
    by_cases hv : i ≥ m.1 ∧ j ≥ m.2
    · rw [if_pos hv, List.filter_cons_of_pos (by simpa using hv), List.map_cons, List.foldl_cons]
    · rw [if_neg hv, List.filter_cons_of_neg (by simpa using hv)]

lemma specMoveScore_eq (s t : Corpus) (hs : s.m_emptySentence.size = 0)
    (ht : t.m_emptySentence.size = 0) (i j : Nat) (hi : 1 ≤ i) (hj : 1 ≤ j) (m : Nat × Nat) :
    specMoveScore s t i j m = rungScore s t i j m := by
  unfold specMoveScore
  split
  · rename_i hm
    rw [rungScore_of_zero s t hs ht i j hi hj m hm]
  · rw [computeBLEU2_eq_overlap]
    rfl

lemma specBestFuel_eq (s t : Corpus) (hs : s.m_emptySentence.size = 0)
    (ht : t.m_emptySentence.size = 0) :
    ∀ (n i j : Nat), i + j < n → specBestFuel s t n i j = best s t true i j
  | 0, _, _, h => absurd h (Nat.not_lt_zero _)
  | n + 1, i, j, h => by
    rw [specBestFuel, best_eq]
    split
    · rfl
    · have hi : 1 ≤ i := by omega
      have hj : 1 ≤ j := by omega
      have hmap : (slow.filter (fun m => decide (i ≥ m.1 ∧ j ≥ m.2))).map
            (fun m => specBestFuel s t n (i - m.1) (j - m.2) + specMoveScore s t i j m) =
          (slow.filter (fun m => decide (i ≥ m.1 ∧ j ≥ m.2))).map
            (fun m => best s t true (i - m.1) (j - m.2) + rungScore s t i j m) := by
        apply List.map_congr_left
        intro m hm
        have hm1 := List.mem_filter.mp hm
        have hpos := @rungTypes_pos true m hm1.1
        have hv : i ≥ m.1 ∧ j ≥ m.2 := by simpa using hm1.2
        rw [specBestFuel_eq s t hs ht n (i - m.1) (j - m.2) (by omega),
          specMoveScore_eq s t hs ht i j hi hj m]
      rw [hmap]
      show _ = (slow.foldl (candStep (best s t true) s t i j) (0, 0, 1)).1
      rw [foldl_candStep_fst]
      have hfil : slow.filter (fun m => decide (i ≥ m.1 ∧ j ≥ m.2)) =
          (0, 1) :: (slow.tail).filter (fun m => decide (i ≥ m.1 ∧ j ≥ m.2)) := by
        show List.filter _ ((0, 1) :: slow.tail) = _
        rw [List.filter_cons_of_pos (by simpa using hj)]
      rw [hfil, List.map_cons, List.foldl_cons, maxOf]
      congr 1
      exact (max_eq_right (add_nonneg (best_nonneg _ _ _ _ _) (rungScore_nonneg _ _ _ _ _))).symm

lemma specBest_eq_best (s t : Corpus) (hs : s.m_emptySentence.size = 0)
    (ht : t.m_emptySentence.size = 0) (i j : Nat) : specBest s t i j = best s t true i j :=
  specBestFuel_eq s t hs ht _ i j (Nat.lt_succ_self _)

/-- The recurrence of the specification, as an equation on `specBest`. -/
lemma specBest_eq (s t : Corpus) (hs : s.m_emptySentence.size = 0)
    (ht : t.m_emptySentence.size = 0) (i j : Nat) :
    specBest s t i j =
      if i = 0 ∨ j = 0 then 0
      else maxOf ((slow.filter (fun m => decide (i ≥ m.1 ∧ j ≥ m.2))).map
        (fun m => specBest s t (i - m.1) (j - m.2) + specMoveScore s t i j m)) := by
  conv_lhs => rw [specBest, specBestFuel]
  split
  · rfl
  · congr 1
    apply List.map_congr_left
    intro m hm
    have hm1 := List.mem_filter.mp hm
    have hpos := @rungTypes_pos true m hm1.1
    have hv : i ≥ m.1 ∧ j ≥ m.2 := by simpa using hm1.2
    rw [specBestFuel_eq s t hs ht (i + j) (i - m.1) (j - m.2) (by omega),
      specBest_eq_best s t hs ht]

/-! ## Cells once written stay as they are -/

lemma tryRung_frame {rec : Nat → Nat → World → Option (ℝ × World)}
    (hrec : ∀ a b w v w', rec a b w = some (v, w') →
      ∀ x y, Filled w x y → w'.seen x y = w.seen x y ∧ w'.prev x y = w.prev x y)
    (i j : Nat) (acc : Search) (m : Nat × Nat) (acc' : Search)
    (h : tryRung rec i j acc m = some acc') :
    ∀ x y, Filled acc.w x y →
      acc'.w.seen x y = acc.w.seen x y ∧ acc'.w.prev x y = acc.w.prev x y := by
  by_cases hv : i ≥ m.1 ∧ j ≥ m.2
  · cases hr : rec (i - m.1) (j - m.2) acc.w with
    | none => simp [tryRung, hv, hr] at h
    | some p =>
      obtain ⟨v, w1⟩ := p
      have h1 := hrec _ _ _ _ _ hr
      simp only [tryRung, hv, and_self, if_true, hr, computeBLEU2_eq_overlap] at h
      split at h <;>
      · simp only [Option.some.injEq] at h
        subst h
        exact h1
  · simp only [tryRung, hv, if_false, Option.some.injEq] at h
    subst h
    exact fun _ _ _ => ⟨rfl, rfl⟩

lemma S_frame (slowRun : Bool) : ∀ (fuel i j : Nat) (w : World) (v : ℝ) (w' : World),
    S fuel i j slowRun w = some (v, w') →
      ∀ x y, Filled w x y → w'.seen x y = w.seen x y ∧ w'.prev x y = w.prev x y
  | 0, _, _, _, _, _, h => by simp [S] at h
  | fuel + 1, i, j, w, v, w', h => by
    unfold S at h
    split at h
    · simp only [Option.some.injEq, Prod.mk.injEq] at h
      obtain ⟨-, rfl⟩ := h
      exact fun _ _ _ => ⟨rfl, rfl⟩
    · split at h
      · simp only [Option.some.injEq, Prod.mk.injEq] at h
        obtain ⟨-, rfl⟩ := h
        exact fun _ _ _ => ⟨rfl, rfl⟩
      · rename_i hseen
        simp only at h
        split at h
        · simp at h
        · rename_i r hr
          simp only [Option.some.injEq, Prod.mk.injEq] at h
          obtain ⟨-, rfl⟩ := h
          have hP := foldlM_option_inv
            (fun a : Search => ∀ x y, Filled w x y →
              a.w.seen x y = w.seen x y ∧ a.w.prev x y = w.prev x y)
            (tryRung (fun a b w => S fuel a b slowRun w) i j)
            (fun b a b' hb hPb x y hf => by
              have hfb : Filled b.w x y := by
                unfold Filled
                rw [(hPb x y hf).1]
                exact hf
              have := tryRung_frame (fun a b w v w' h => S_frame slowRun fuel a b w v w' h)
                i j b a b' hb x y hfb
              exact ⟨this.1.trans (hPb x y hf).1, this.2.trans (hPb x y hf).2⟩)
            _ _ r (fun _ _ _ => ⟨rfl, rfl⟩) hr
          intro x y hf
          have hxy : ¬(x = i ∧ y = j) := by
            rintro ⟨rfl, rfl⟩
            exact hseen hf
          simp only [setCell, hxy, if_false]
          exact hP x y hf

lemma S_filled (slowRun : Bool) (fuel i j : Nat) (w : World) (h0 : ¬(i = 0 ∨ j = 0))
    (hf : Filled w i j) : S (fuel + 1) i j slowRun w = some (w.seen i j, w) := by
  have hf2 : w.seen i j ≠ -100 := hf
  simp only [S, h0, if_false, hf2, ne_eq, not_false_eq_true, if_true]

/-! ## `countCommon` and the multiset intersection -/

lemma text_not_mem_of_lt {a b : StringPiece} {n2 : NGramsByOrder}
    (hab : StringPiece.lt a b = true)
    (h2 : ((b :: n2).map StringPiece.text).Sorted (fun x y => bytesLt y x = false)) :
    a.text ∉ (b :: n2).map StringPiece.text := by
  intro hmem
  rw [List.map_cons, List.sorted_cons] at h2
  rw [List.map_cons, List.mem_cons] at hmem
  rcases hmem with h | h
  · have : bytesLt a.text b.text = true := hab
    rw [h, bytesLt_irrefl] at this
    cases this
  · have h3 := h2.1 _ h
    have : bytesLt a.text b.text = true := hab
    rw [h3] at this
    cases this

lemma countLoop_inter : ∀ (fuel : Nat) (n1 n2 : NGramsByOrder) (common : Nat),
    (n1.map StringPiece.text).Sorted (fun x y => bytesLt y x = false) →
    (n2.map StringPiece.text).Sorted (fun x y => bytesLt y x = false) →
    n1.length + n2.length ≤ fuel →
    countLoop fuel n1 n2 common =
      common + Multiset.card
        ((n1.map StringPiece.text : Multiset (List Nat)) ∩ (n2.map StringPiece.text))
  | fuel, [], n2, common, _, _, _ => by
    rw [countLoop_nil_left]
    simp
  | fuel, _ :: _, [], common, _, _, _ => by
    rw [countLoop_nil_right]
    simp
  | 0, _ :: _, _ :: _, _, _, _, h => by simp at h
  | fuel + 1, a :: n1, b :: n2, common, h1, h2, h => by
    simp only [List.length_cons] at h
    have h1t : (n1.map StringPiece.text).Sorted (fun x y => bytesLt y x = false) := by
      have h1c := h1
      rw [List.map_cons, List.sorted_cons] at h1c
      exact h1c.2
    have h2t : (n2.map StringPiece.text).Sorted (fun x y => bytesLt y x = false) := by
      have h2c := h2
      rw [List.map_cons, List.sorted_cons] at h2c
      exact h2c.2
    have ea : ((a :: n1).map StringPiece.text : Multiset (List Nat))
        = a.text ::ₘ (n1.map StringPiece.text : Multiset (List Nat)) := rfl
    have eb : ((b :: n2).map StringPiece.text : Multiset (List Nat))
        = b.text ::ₘ (n2.map StringPiece.text : Multiset (List Nat)) := rfl
    simp only [countLoop]
    cases hab : StringPiece.lt a b
    · cases hba : StringPiece.lt b a
      · simp only [Bool.false_eq_true, if_false, Bool.not_false, if_true]
        have he : a.text = b.text := bytesLt_total _ _ hab hba
        rw [countLoop_inter fuel n1 n2 (common + 1) h1t h2t (by omega)]
        rw [ea, eb, he, Multiset.cons_inter_of_pos _ (Multiset.mem_cons_self _ _),
          Multiset.erase_cons_head, Multiset.card_cons]
        omega
      · simp only [Bool.false_eq_true, if_false, Bool.not_true]
        rw [countLoop_inter fuel (a :: n1) n2 common h1 h2t (by simp; omega)]
        have hnot := text_not_mem_of_lt hba h1
        congr 2
        rw [eb, Multiset.inter_comm _ (b.text ::ₘ _),
          Multiset.cons_inter_of_neg _ (by simpa using hnot), Multiset.inter_comm]
    · simp only [if_true]
      rw [countLoop_inter fuel n1 (b :: n2) common h1t h2 (by simp; omega)]
      have hnot := text_not_mem_of_lt hab h2
      congr 2
      rw [ea, Multiset.cons_inter_of_neg _ (by simpa using hnot)]

lemma card_inter_eq_sum (l1 l2 : List (List Nat)) :
    Multiset.card ((l1 : Multiset (List Nat)) ∩ l2) =
      Finset.sum (l1.toFinset ∪ l2.toFinset)
        (fun g => min (Multiset.count g (l1 : Multiset (List Nat)))
          (Multiset.count g (l2 : Multiset (List Nat)))) := by
  rw [← Multiset.toFinset_sum_count_eq]
  have hsub : ((l1 : Multiset (List Nat)) ∩ l2).toFinset ⊆ l1.toFinset ∪ l2.toFinset := by
    intro g hg
    rw [Multiset.mem_toFinset, Multiset.mem_inter] at hg
    exact Finset.mem_union_left _ (List.mem_toFinset.mpr (Multiset.mem_coe.mp hg.1))
  rw [Finset.sum_subset hsub]
  · apply Finset.sum_congr rfl
    intro g _
    rw [Multiset.count_inter]
  · intro g _ hg
    rw [Multiset.mem_toFinset] at hg
    exact Multiset.count_eq_zero_of_not_mem hg

/-! ## Tokens hold no space -/

lemma readLines_nil : readLines [] = ⟨0, [], [], []⟩ := rfl

lemma subw_zero_one : subw 0 1 = SIZE_MOD - 2 + 1 := by decide

lemma sentenceLoop_nil (oob : Nat → Nat) (fuel : Nat) :
    sentenceLoop oob fuel (readLines []) =
      (sentenceStep oob fuel (readLines []) ⟨0, [], []⟩ 0).bind
        (fun b => ((List.range (SIZE_MOD - 2)).map Nat.succ).foldlM
          (sentenceStep oob fuel (readLines [])) b) := by
  unfold sentenceLoop
  rw [readLines_nil]
  show List.foldlM _ _ (List.range (subw 0 1)) = _
  rw [subw_zero_one, List.range_succ_eq_map, List.foldlM_cons]
  rfl

/-! ## The summary of `main` without a kept rung -/

lemma tokenLoop_grows (oob : Nat → Nat) (mem tokenStarts : List Nat) (limit j : Nat) :
    ∀ (fuel tokens : Nat) (m_tokens : List StringPiece) (n : Nat) (m' : List StringPiece),
      tokenLoop oob mem tokenStarts limit j fuel tokens m_tokens = some (n, m') →
        m_tokens <+: m' ∧ m'.length + tokens = m_tokens.length + n
  | 0, _, _, _, _, h => by simp [tokenLoop] at h
  | fuel + 1, tokens, m_tokens, n, m', h => by
    unfold tokenLoop at h
    split at h
    · obtain ⟨h1, h2⟩ := tokenLoop_grows oob mem tokenStarts limit j fuel _ _ n m' h
      refine ⟨(List.prefix_append _ _).trans h1, ?_⟩
      simp only [List.length_append, List.length_singleton] at h2
      omega
    · simp only [Option.some.injEq, Prod.mk.injEq] at h
      obtain ⟨rfl, rfl⟩ := h
      exact ⟨List.prefix_refl _, rfl⟩

lemma lastTokenLoop_grows (oob : Nat → Nat) (mem tokenStarts : List Nat)
    (limit currentPos j : Nat) :
    ∀ (fuel tokens : Nat) (m_tokens : List StringPiece) (n : Nat) (m' : List StringPiece),
      lastTokenLoop oob mem tokenStarts limit currentPos j fuel tokens m_tokens = some (n, m') →
        m_tokens <+: m' ∧ m'.length + tokens = m_tokens.length + n
  | 0, _, _, _, _, h => by simp [lastTokenLoop] at h
  | fuel + 1, tokens, m_tokens, n, m', h => by
    unfold lastTokenLoop at h
    split at h
    · obtain ⟨h1, h2⟩ :=
        lastTokenLoop_grows oob mem tokenStarts limit currentPos j fuel _ _ n m' h
      refine ⟨(List.prefix_append _ _).trans h1, ?_⟩
      simp only [List.length_append, List.length_singleton] at h2
      omega
    · simp only [Option.some.injEq, Prod.mk.injEq] at h
      obtain ⟨rfl, rfl⟩ := h
      exact ⟨List.prefix_refl _, rfl⟩

lemma built_push {tokens m' : List StringPiece} {l : List Sentence} (hb : Built tokens l)
    (hp : tokens <+: m') (sp : StringPiece) (j n : Nat) (hlen : j + n ≤ m'.length) :
    Built m' (l ++ [Sentence.make m' sp j n]) := by
  intro x hx
  rcases List.mem_append.mp hx with hx | hx
  · obtain ⟨tk, sp', st, len, h1, h2, h3⟩ := hb x hx
    exact ⟨tk, sp', st, len, h1, h2.trans hp, h3⟩
  · rw [List.mem_singleton] at hx
    exact ⟨m', sp, j, n, hx, List.prefix_refl _, hlen⟩

lemma sentenceStep_built (oob : Nat → Nat) (fuel : Nat) (rd : ReadState)
    (b : BuildState) (i : Nat) (b' : BuildState) (h : sentenceStep oob fuel rd b i = some b')
    (hb : b.j = b.m_tokens.length ∧ Built b.m_tokens b.m_sentences) :
    b'.j = b'.m_tokens.length ∧ Built b'.m_tokens b'.m_sentences := by
  unfold sentenceStep at h
  simp only at h
  split at h
  · cases h
  · rename_i tokens m' heq
    simp only [Option.some.injEq] at h
    subst h
    obtain ⟨h1, h2⟩ := tokenLoop_grows _ _ _ _ _ _ _ _ _ _ heq
    exact ⟨by simp only; omega, built_push hb.2 h1 _ _ _ (by omega)⟩

lemma lastSentence_built (oob : Nat → Nat) (fuel : Nat) (rd : ReadState)
    (b : BuildState) (b' : BuildState) (h : lastSentence oob fuel rd b = some b')
    (hb : b.j = b.m_tokens.length ∧ Built b.m_tokens b.m_sentences) :
    b'.j = b'.m_tokens.length ∧ Built b'.m_tokens b'.m_sentences := by
  unfold lastSentence at h
  simp only at h
  split at h
  · cases h
  · rename_i tokens m' heq
    simp only [Option.some.injEq] at h
    subst h
    obtain ⟨h1, h2⟩ := lastTokenLoop_grows _ _ _ _ _ _ _ _ _ _ _ heq
    exact ⟨by simp only; omega, built_push hb.2 h1 _ _ _ (by omega)⟩

lemma load_built {oob : Nat → Nat} {fuel : Nat} {lines : List (List Nat)} {c : Corpus}
    (h : Corpus.load oob fuel lines = some c) : Built c.m_tokens c.m_sentences := by
  obtain ⟨b, b', hloop, hlast, rfl⟩ := load_eq h
  have h0 : (⟨0, [], []⟩ : BuildState).j = (⟨0, [], []⟩ : BuildState).m_tokens.length ∧
      Built (⟨0, [], []⟩ : BuildState).m_tokens (⟨0, [], []⟩ : BuildState).m_sentences :=
    ⟨rfl, fun x hx => absurd hx (List.not_mem_nil _)⟩
  have hb := foldlM_option_inv
    (fun b : BuildState => b.j = b.m_tokens.length ∧ Built b.m_tokens b.m_sentences)
    (sentenceStep oob fuel (readLines lines)) (sentenceStep_built oob fuel (readLines lines))
    _ ⟨0, [], []⟩ b h0 hloop
  exact (lastSentence_built oob fuel _ b b' hlast hb).2

/-! ## The views `main` scores and the views `S` scores -/

lemma windows_congr (tokens1 tokens2 : List StringPiece) (x y : Sentence)
    (hst : x.m_start = y.m_start) (hlen : x.m_length = y.m_length)
    (htok : ∀ i, i < x.m_length →
      tokens1.getD (x.m_start + i) StringPiece.null = tokens2.getD (x.m_start + i) StringPiece.null)
    (j : Nat) : windows tokens1 x j = windows tokens2 y j := by
  unfold windows Sentence.size Sentence.tok
  rw [← hlen, ← hst]
  apply List.map_congr_left
  intro i hi
  rw [List.mem_range] at hi
  rw [htok i (by omega), htok (i + j) (by omega)]

lemma make_ngrams_congr (tokens1 tokens2 : List StringPiece) (sp1 sp2 : StringPiece)
    (start length : Nat)
    (htok : ∀ i, i < length →
      tokens1.getD (start + i) StringPiece.null = tokens2.getD (start + i) StringPiece.null) :
    (Sentence.make tokens1 sp1 start length).m_ngrams =
      (Sentence.make tokens2 sp2 start length).m_ngrams := by
  rw [make_ngrams, make_ngrams]
  have h := windows_congr tokens1 tokens2 ⟨sp1, start, length, []⟩ ⟨sp2, start, length, []⟩
    rfl rfl htok
  rw [h 0, h 1, h 2, h 3]

lemma prefix_getD {tk tokens : List StringPiece} (hp : tk <+: tokens) (k : Nat)
    (hk : k < tk.length) : tk.getD k StringPiece.null = tokens.getD k StringPiece.null := by
  obtain ⟨r, rfl⟩ := hp
  rw [List.getD_append _ _ _ _ hk]

lemma commonAt_congr {c r c2 r2 : Sentence} (hc : c.m_ngrams = c2.m_ngrams)
    (hr : r.m_ngrams = r2.m_ngrams) : ∀ k, commonAt c r k = commonAt c2 r2 k
  | 0 => by simp only [commonAt, Sentence.ngramsAt, hc, hr]
  | k + 1 => by simp only [commonAt, Sentence.ngramsAt, hc, hr, commonAt_congr hc hr k]

lemma overlap_congr {c r c2 r2 : Sentence} (hcs : c.size = c2.size) (hrs : r.size = r2.size)
    (hc : c.m_ngrams = c2.m_ngrams) (hr : r.m_ngrams = r2.m_ngrams) :
    overlap c r = overlap c2 r2 := by
  unfold overlap
  simp only [hcs, hrs, commonAt_congr hc hr, Sentence.ngramsAt, hc, hr]

/-- The view `main` builds of the sentences `a .. b` of a loaded corpus,
`corpus[a] + corpus[b]`, has the size and the n-grams of the view
`corpus(a, b)` that `S` scores. -/
lemma main_view (c : Corpus) (hr : c.m_ranges = []) (hb : Built c.m_tokens c.m_sentences)
    (a b : Nat) (hab : a ≤ b) (hbs : b < c.size) :
    (Sentence.add c.m_tokens (c.sentence a) (c.sentence b)).size = (c.range a b).size ∧
      (Sentence.add c.m_tokens (c.sentence a) (c.sentence b)).m_ngrams
        = (c.range a b).m_ngrams := by
  rw [range_eq]
  by_cases h : a = b
  · subst h
    rw [if_pos rfl]
    have hmem : c.sentence a ∈ c.m_sentences := by
      unfold Corpus.sentence
      rw [List.getD_eq_getElem _ _ hbs]
      exact List.getElem_mem _
    obtain ⟨tk, sp, st, len, hx, hp, hlen⟩ := hb _ hmem
    rw [hx]
    unfold Sentence.add
    have hs : (Sentence.make tk sp st len).m_start = st := make_start _ _ _ _
    have hl : (Sentence.make tk sp st len).m_length = len := make_size _ _ _ _
    simp only [hs, hl, min_self, max_self, Nat.add_sub_cancel_left]
    refine ⟨by rw [make_size, make_size], make_ngrams_congr _ _ _ _ _ _ (fun i hi => ?_)⟩
    exact (prefix_getD hp (st + i) (by omega)).symm
  · rw [if_neg h, if_pos (by omega)]
    have hnone : c.findRange (a, b) = none := by
      unfold Corpus.findRange
      rw [hr]
      rfl
    rw [hnone, Option.getD_none]
    exact ⟨rfl, rfl⟩

/-! ## The scores of the rungs sum to the value of `S` -/

lemma rungBLEU_eq_moveScore (s t : Corpus) (r : Rung) :
    rungBLEU s t r = moveScore s t r.i r.j (r.iType, r.jType) := by
  unfold rungBLEU moveScore
  by_cases h : r.iType > 0 ∧ r.jType > 0
  · rw [if_pos h, if_neg (by omega), computeBLEU2_eq_overlap]
    rfl
  · rw [if_neg h, if_pos (by omega)]

lemma walk_score (s t : Corpus) (hs : s.m_emptySentence.size = 0)
    (ht : t.m_emptySentence.size = 0) {i j : Nat} {rs : List Rung}
    (h : Walk (bestMove s t true) i j rs) :
    1 ≤ i → 1 ≤ j → (rs.map (rungBLEU s t)).sum = best s t true i j := by
  induction h with
  | stop i j hstop =>
    intro hi hj
    obtain ⟨-, -, -, hv, hval, -, -, -⟩ := bestMove_first s t i j hi hj
    have hborder : best s t true (i - (bestMove s t true i j).1)
        (j - (bestMove s t true i j).2) = 0 := by
      by_cases h1 : i - (bestMove s t true i j).1 = 0
      · rw [h1, best_zero_left]
      · have h2 : j - (bestMove s t true i j).2 = 0 := by omega
        rw [h2, best_zero_right]
    rw [List.map_singleton, List.sum_singleton, rungBLEU_eq_moveScore,
      moveScore_eq_rungScore s t hs ht i j hi hj, ← hval]
    show _ = best _ _ _ _ _ + rungScore s t i j _
    rw [hborder, zero_add]
  | step i j rs hgo _ ih =>
    intro hi hj
    obtain ⟨-, -, -, -, hval, -, -, -⟩ := bestMove_first s t i j hi hj
    rw [List.map_append, List.sum_append, List.map_singleton, List.sum_singleton,
      ih (by omega) (by omega), rungBLEU_eq_moveScore,
      moveScore_eq_rungScore s t hs ht i j hi hj, ← hval]
    rfl

lemma tallyStep_eq (s t : Corpus) (hsr : s.m_ranges = []) (htr : t.m_ranges = [])
    (hsb : Built s.m_tokens s.m_sentences) (htb : Built t.m_tokens t.m_sentences)
    (acc : Tally) (r : Rung) (h1 : r.iType ≤ r.i) (h2 : r.jType ≤ r.j) (h3 : 1 ≤ r.i)
    (h4 : 1 ≤ r.j) (h5 : r.i ≤ s.size) (h6 : r.j ≤ t.size) :
    tallyStep s t acc r =
      some ⟨acc.bleuSum + rungBLEU s t r,
        acc.keptRungs + if r.iType ≠ 0 ∧ r.jType ≠ 0 then 1 else 0⟩ := by
  unfold tallyStep rungBLEU
  by_cases hk : r.iType ≠ 0 ∧ r.jType ≠ 0
  · have hs1 := main_view s hsr hsb (r.i - r.iType) (r.i - 1) (by omega) (by omega)
    have ht1 := main_view t htr htb (r.j - r.jType) (r.j - 1) (by omega) (by omega)
    rw [if_pos hk, if_pos (by omega), if_pos hk, subw_of_le h1, subw_of_le h2, subw_of_le h3,
      subw_of_le h4]
    simp only [computeBLEU2_eq_overlap, Option.getD_some]
    rw [overlap_congr hs1.1 ht1.1 hs1.2 ht1.2]
  · rw [if_neg hk, if_neg (by omega), if_neg hk]
    simp only [add_zero]

lemma foldlM_tallyStep (s t : Corpus) (hsr : s.m_ranges = []) (htr : t.m_ranges = [])
    (hsb : Built s.m_tokens s.m_sentences) (htb : Built t.m_tokens t.m_sentences) :
    ∀ (rs : List Rung) (acc : Tally),
      (∀ r ∈ rs, r.iType ≤ r.i ∧ r.jType ≤ r.j ∧ 1 ≤ r.i ∧ 1 ≤ r.j ∧ r.i ≤ s.size ∧
        r.j ≤ t.size) →
      rs.foldlM (tallyStep s t) acc =
        some ⟨acc.bleuSum + (rs.map (rungBLEU s t)).sum,
          acc.keptRungs + rs.countP (fun r => decide (r.iType ≠ 0 ∧ r.jType ≠ 0))⟩
  | [], acc, _ => by simp
  | r :: rs, acc, h => by
    obtain ⟨h1, h2, h3, h4, h5, h6⟩ := h r (List.mem_cons_self _ _)
    rw [List.foldlM_cons, tallyStep_eq s t hsr htr hsb htb acc r h1 h2 h3 h4 h5 h6]
    simp only [Option.bind_eq_bind, Option.some_bind]
    rw [foldlM_tallyStep s t hsr htr hsb htb rs _ (fun x hx => h x (List.mem_cons_of_mem _ hx))]
    simp only [List.map_cons, List.sum_cons, List.countP_cons, decide_eq_true_eq]
    congr 2
    · ring
    · omega

/-! ## The shape of the rungs of `backTrack` -/

lemma walk_last {prev : Nat → Nat → Nat × Nat} {i j : Nat} {rs : List Rung}
    (h : Walk prev i j rs) : ∃ init, rs = init ++ [⟨i, j, (prev i j).1, (prev i j).2⟩] := by
  cases h with
  | stop _ _ _ => exact ⟨[], rfl⟩
  | step _ _ below _ _ => exact ⟨below, rfl⟩

lemma walk_length {prev : Nat → Nat → Nat × Nat}
    (hprev : ∀ x y, 1 ≤ x → 1 ≤ y → 1 ≤ (prev x y).1 + (prev x y).2)
    {i j : Nat} {rs : List Rung} (h : Walk prev i j rs) :
    1 ≤ i → 1 ≤ j → 1 ≤ rs.length ∧ rs.length + 1 ≤ i + j := by
  induction h with
  | stop i j _ =>
    intro hi hj
    simp only [List.length_singleton]
    omega
  | step i j rs hgo _ ih =>
    intro hi hj
    have := ih (by omega) (by omega)
    have hp := hprev i j hi hj
    simp only [List.length_append, List.length_singleton]
    omega

/-! ## A bound on the value of `S` -/

lemma best_le_min (s t : Corpus) (hs : s.m_emptySentence.size = 0)
    (ht : t.m_emptySentence.size = 0) (slowRun : Bool) :
    ∀ (n i j : Nat), i + j ≤ n → best s t slowRun i j ≤ ((min i j : Nat) : ℝ)
  | 0, i, j, h => by
    have hi : i = 0 := by omega
    rw [hi, best_zero_left]
    exact Nat.cast_nonneg _
  | n + 1, i, j, h => by
    rw [best_eq]
    split
    · exact Nat.cast_nonneg _
    · rename_i h0
      have hi : 1 ≤ i := by omega
      have hj : 1 ≤ j := by omega
      rcases cell_attained (best s t slowRun) s t slowRun i j with hz | ⟨m, hm, hv, hval⟩
      · rw [hz]
        exact Nat.cast_nonneg _
      · rw [hval]
        have hpos := rungTypes_pos hm
        have ih := best_le_min s t hs ht slowRun n (i - m.1) (j - m.2) (by omega)
        by_cases hzero : m.1 = 0 ∨ m.2 = 0
        · rw [rungScore_of_zero s t hs ht i j hi hj m hzero, add_zero]
          refine le_trans ih ?_
          exact_mod_cast (by omega : min (i - m.1) (j - m.2) ≤ min i j)
        · have h1 : rungScore s t i j m ≤ 1 := overlap_le_one _ _
          have h2 : ((min (i - m.1) (j - m.2) : Nat) : ℝ) + 1 ≤ ((min i j : Nat) : ℝ) := by
            exact_mod_cast (by omega : min (i - m.1) (j - m.2) + 1 ≤ min i j)
          linarith

/-- C2: on corpora the loader has built, `S(sourceLen, targetLen)` returns, and
its value is the greatest score of a path of rung types of the ten-type list
from cell `(0, 0)` to cell `(sourceLen, targetLen)`: some path scores it and no
path scores more. -/
theorem S_finds_best_path (oobS oobT : Nat → Nat) (fuelS fuelT : Nat)
    (linesS linesT : List (List Nat)) (s t : Corpus)
    (hs : Corpus.load oobS fuelS linesS = some s) (ht : Corpus.load oobT fuelT linesT = some t)
    (fuel : Nat) (hfuel : s.size + t.size < fuel) :
    ∃ v w, S fuel s.size t.size true (initWorld s t) = some (v, w) ∧
      (∃ path, (∀ m ∈ path, m ∈ slow) ∧ pathFrom s t path = ((s.size, t.size), v)) ∧
      ∀ path, (∀ m ∈ path, m ∈ slow) → (pathFrom s t path).1 = (s.size, t.size) →
        (pathFrom s t path).2 ≤ v := by
  obtain ⟨w, hS, -, -, -⟩ :=
    S_spec s t true fuel s.size t.size (initWorld s t) hfuel (inv_initWorld s t true)
  refine ⟨_, w, hS, ?_, ?_⟩
  · exact best_attained s t (load_emptySentence_size hs) (load_emptySentence_size ht) true
      (s.size + t.size) s.size t.size (le_refl _)
  · intro path hpath hend
    have h := pathFrom_le_best s t true path hpath
    rw [hend] at h
    exact h

/-- Witness of C2, on the corpora `["a"]` and `["b", "a"]`. -/
theorem S_finds_best_path_witness :
    Corpus.load (fun _ => 0) 64 [bytes "a"] = some (corpusOfLines ["a"]) ∧
      Corpus.load (fun _ => 0) 64 [bytes "b", bytes "a"] = some (corpusOfLines ["b", "a"]) ∧
      (corpusOfLines ["a"]).size + (corpusOfLines ["b", "a"]).size < 4 ∧
      ∃ v w, S 4 (corpusOfLines ["a"]).size (corpusOfLines ["b", "a"]).size true
          (initWorld (corpusOfLines ["a"]) (corpusOfLines ["b", "a"])) = some (v, w) ∧
        (∃ path, (∀ m ∈ path, m ∈ slow) ∧
          pathFrom (corpusOfLines ["a"]) (corpusOfLines ["b", "a"]) path =
            (((corpusOfLines ["a"]).size, (corpusOfLines ["b", "a"]).size), v)) ∧
        ∀ path, (∀ m ∈ path, m ∈ slow) →
          (pathFrom (corpusOfLines ["a"]) (corpusOfLines ["b", "a"]) path).1 =
            ((corpusOfLines ["a"]).size, (corpusOfLines ["b", "a"]).size) →
          (pathFrom (corpusOfLines ["a"]) (corpusOfLines ["b", "a"]) path).2 ≤ v :=
  ⟨rfl, rfl, by decide,
    S_finds_best_path (fun _ => 0) (fun _ => 0) 64 64 [bytes "a"] [bytes "b", bytes "a"]
      (corpusOfLines ["a"]) (corpusOfLines ["b", "a"]) rfl rfl 4 (by decide)⟩

/-- C3: a non-empty view, built by the constructor `Sentence(sentence, start, length, tokens)`
as every single sentence and every merged range is, scores exactly 1 against
itself: at each of the four orders the recorded common count equals both
n-gram counts, pruned orders included, and the value is 1. -/
theorem computeBLEU2_self (tokens : List StringPiece) (sentence : StringPiece)
    (start length : Nat) (h : length ≠ 0) :
    computeBLEU2 (Sentence.make tokens sentence start length)
        (Sentence.make tokens sentence start length) = some 1 ∧
      ∀ i, i < MAX_NGRAM_ORDER →
        (computeBLEU2stats (Sentence.make tokens sentence start length)
            (Sentence.make tokens sentence start length) Stats.new).getD (i * 3) 0 =
          ((Sentence.make tokens sentence start length).ngramsAt i).length := by
  refine ⟨?_, fun i hi => ?_⟩
  · rw [computeBLEU2_eq_overlap, overlap_self_make tokens sentence start length h]
  · rw [stats_common_eq_commonAt _ _ i hi, commonAt_self_make tokens sentence start length i hi,
      make_ngramsAt_length tokens sentence start length i hi]

/-- Witness of C3: the view of the two tokens of the array `a b `. -/
theorem computeBLEU2_self_witness :
    (2 : Nat) ≠ 0 ∧
      computeBLEU2
        (Sentence.make [⟨bytes "a b ", 0, 1⟩, ⟨bytes "a b ", 2, 1⟩] ⟨bytes "a b ", 0, 3⟩ 0 2)
        (Sentence.make [⟨bytes "a b ", 0, 1⟩, ⟨bytes "a b ", 2, 1⟩] ⟨bytes "a b ", 0, 3⟩ 0 2)
        = some 1 :=
  ⟨by decide, (computeBLEU2_self _ _ 0 2 (by decide)).1⟩

/-- C4: `computeBLEU2(a, b) == computeBLEU2(b, a)` for all sentences; the
statistics of the two calls have the same common count at every order and the
candidate and reference counts exchanged. -/
theorem computeBLEU2_symmetric (a b : Sentence) :
    computeBLEU2 a b = computeBLEU2 b a ∧
      ∀ i, i < MAX_NGRAM_ORDER →
        (computeBLEU2stats a b Stats.new).getD (i * 3) 0 =
            (computeBLEU2stats b a Stats.new).getD (i * 3) 0 ∧
          (computeBLEU2stats a b Stats.new).getD (i * 3 + 1) 0 =
            (computeBLEU2stats b a Stats.new).getD (i * 3 + 2) 0 ∧
          (computeBLEU2stats a b Stats.new).getD (i * 3 + 2) 0 =
            (computeBLEU2stats b a Stats.new).getD (i * 3 + 1) 0 := by
  refine ⟨?_, fun i hi => ⟨?_, ?_, ?_⟩⟩
  · rw [computeBLEU2_eq_overlap, computeBLEU2_eq_overlap, overlap_comm]
  · rw [stats_common_eq_commonAt _ _ i hi, stats_common_eq_commonAt _ _ i hi, commonAt_comm]
  · rw [stats_candidate _ _ i hi, stats_reference _ _ i hi]
  · rw [stats_reference _ _ i hi, stats_candidate _ _ i hi]

/-- C5: `computeBLEU2(candidate, reference)` returns a value between 0 and 1,
and at every order the recorded common count exceeds neither the candidate
count nor the reference count. -/
theorem computeBLEU2_bounds (candidate reference : Sentence) :
    (∃ v, computeBLEU2 candidate reference = some v ∧ 0 ≤ v ∧ v ≤ 1) ∧
      ∀ i, i < MAX_NGRAM_ORDER →
        (computeBLEU2stats candidate reference Stats.new).getD (i * 3) 0 ≤
            (computeBLEU2stats candidate reference Stats.new).getD (i * 3 + 1) 0 ∧
          (computeBLEU2stats candidate reference Stats.new).getD (i * 3) 0 ≤
            (computeBLEU2stats candidate reference Stats.new).getD (i * 3 + 2) 0 := by
  refine ⟨⟨overlap candidate reference, computeBLEU2_eq_overlap _ _, overlap_nonneg _ _,
    overlap_le_one _ _⟩, fun i hi => ⟨?_, ?_⟩⟩
  · rw [stats_common_eq_commonAt _ _ i hi, stats_candidate _ _ i hi]
    exact commonAt_le_left _ _ i
  · rw [stats_common_eq_commonAt _ _ i hi, stats_reference _ _ i hi]
    exact commonAt_le_right _ _ i

/-- C6: `computeBLEU2(x, y)` is exactly 0 when `x` or `y` has no token. -/
theorem computeBLEU2_empty (x y : Sentence) (h : x.size = 0 ∨ y.size = 0) :
    computeBLEU2 x y = some 0 := by
  unfold computeBLEU2
  rw [if_pos h]

/-- Witness of C6: the empty view `range(1, 0)` of the corpus `["a"]` against
its sentence. -/
theorem computeBLEU2_empty_witness :
    (((corpusOfLines ["a"]).range 1 0).size = 0 ∨ ((corpusOfLines ["a"]).range 0 0).size = 0) ∧
      computeBLEU2 ((corpusOfLines ["a"]).range 1 0) ((corpusOfLines ["a"]).range 0 0) = some 0 :=
  ⟨Or.inl (by decide), computeBLEU2_empty _ _ (Or.inl (by decide))⟩

/-- C7: in a corpus the loader has built, the view `operator()(i, j)` of the
sentences `i <= j < size()` has as many tokens as the sentences `i .. j`
together. -/
theorem range_token_count (oob : Nat → Nat) (fuel : Nat) (lines : List (List Nat))
    (c : Corpus) (h : Corpus.load oob fuel lines = some c) (i j : Nat) (hij : i ≤ j)
    (hj : j < c.size) :
    (c.range i j).size = Finset.sum (Finset.Icc i j) (fun k => (c.sentence k).size) := by
  obtain ⟨hr, -, total, hc⟩ := load_spec h
  exact range_size_of_contiguous c total hc hr i j hij hj

/-- Witness of C7: sentences of 3, 0 and 3 tokens and their merged view. -/
theorem range_token_count_witness :
    Corpus.load (fun _ => 0) 64 [bytes "b a  b", bytes "", bytes " d e a "]
        = some (corpusOfLines ["b a  b", "", " d e a "]) ∧
      0 ≤ 2 ∧ 2 < (corpusOfLines ["b a  b", "", " d e a "]).size ∧
      ((corpusOfLines ["b a  b", "", " d e a "]).range 0 2).size =
        Finset.sum (Finset.Icc 0 2)
          (fun k => ((corpusOfLines ["b a  b", "", " d e a "]).sentence k).size) :=
  ⟨rfl, by decide, by decide,
    range_token_count (fun _ => 0) 64 [bytes "b a  b", bytes "", bytes " d e a "]
      (corpusOfLines ["b a  b", "", " d e a "]) rfl 0 2 (by decide) (by decide)⟩

/-- C9: on corpora with at least one sentence each `S` and `backTrack` return,
and no rung has `iType == 0` and `jType == 0` at the same time. -/
theorem rungs_never_empty (s t : Corpus) (fuel : Nat) (hs : 1 ≤ s.size) (ht : 1 ≤ t.size)
    (hfuel : s.size + t.size < fuel) :
    ∃ total rungs w, align fuel s t = some (total, rungs, w) ∧
      ∀ r ∈ rungs, ¬(r.iType = 0 ∧ r.jType = 0) := by
  obtain ⟨rungs, w, halign, hwalk, -, -⟩ := align_spec s t fuel hs ht hfuel
  refine ⟨_, rungs, w, halign, fun r hr h0 => ?_⟩
  obtain ⟨hmove, -, hj, -, -⟩ := walk_mem hwalk hs ht r hr
  have hpos := rungTypes_pos (bestMove_spec s t true r.i r.j hj).1
  rw [← hmove] at hpos
  simp only [h0.1, h0.2] at hpos
  omega

/-- Witness of C9, on the corpora `["a"]` and `["b", "a"]`. -/
theorem rungs_never_empty_witness :
    1 ≤ (corpusOfLines ["a"]).size ∧ 1 ≤ (corpusOfLines ["b", "a"]).size ∧
      (corpusOfLines ["a"]).size + (corpusOfLines ["b", "a"]).size < 4 ∧
      ∃ total rungs w,
        align 4 (corpusOfLines ["a"]) (corpusOfLines ["b", "a"]) = some (total, rungs, w) ∧
        ∀ r ∈ rungs, ¬(r.iType = 0 ∧ r.jType = 0) :=
  ⟨by decide, by decide, by decide,
    rungs_never_empty _ _ 4 (by decide) (by decide) (by decide)⟩

/-- C11: from the tables as `main` initialises them `S(i, j)` returns, its
value is at least 0, and afterwards every entry of `seen` is the sentinel
`-100` (never written) or at least 0: no stored value is the sentinel. -/
theorem S_values_nonneg (s t : Corpus) (slowRun : Bool) (fuel i j : Nat) (hfuel : i + j < fuel) :
    ∃ v w, S fuel i j slowRun (initWorld s t) = some (v, w) ∧ 0 ≤ v ∧
      ∀ x y, w.seen x y = -100 ∨ 0 ≤ w.seen x y := by
  obtain ⟨w, hS, -, -, -⟩ :=
    S_spec s t slowRun fuel i j (initWorld s t) hfuel (inv_initWorld s t slowRun)
  have h := S_seenOK slowRun fuel i j _ _ _ hS (fun _ _ => Or.inl rfl)
  exact ⟨_, w, hS, h.1, h.2⟩

/-- Witness of C11: the last cell of the corpora `["a"]` and `["b", "a"]`. -/
theorem S_values_nonneg_witness :
    1 + 2 < 4 ∧
      ∃ v w, S 4 1 2 true (initWorld (corpusOfLines ["a"]) (corpusOfLines ["b", "a"]))
          = some (v, w) ∧ 0 ≤ v ∧ ∀ x y, w.seen x y = -100 ∨ 0 ≤ w.seen x y :=
  ⟨by decide, S_values_nonneg _ _ true 4 1 2 (by decide)⟩

/-- C12: for source and target `["a b c", "d e"]` the loader builds the corpus
of two sentences, `S(2, 2)` returns 2, `backTrack(2, 2)` returns exactly the
rungs `(i=1, j=1, iType=1, jType=1)` and `(i=2, j=2, iType=1, jType=1)`, and
`computeBLEU2` scores the sentence pair of each of the two rungs 1. -/
theorem abcde_two_rungs :
    Corpus.load (fun _ => 0) 64 [bytes "a b c", bytes "d e"] = some abcde ∧ abcde.size = 2 ∧
      (∃ w, align 5 abcde abcde = some (2, [⟨1, 1, 1, 1⟩, ⟨2, 2, 1, 1⟩], w)) ∧
      computeBLEU2 (abcde.range (1 - 1) (1 - 1)) (abcde.range (1 - 1) (1 - 1)) = some 1 ∧
      computeBLEU2 (abcde.range (2 - 1) (2 - 1)) (abcde.range (2 - 1) (2 - 1)) = some 1 := by
  refine ⟨by rfl, by decide, ?_, ?_, ?_⟩
  · obtain ⟨rungs, w, halign, hwalk, -, -⟩ :=
      align_spec abcde abcde 5 (by decide) (by decide) (by decide)
    have h2 : abcde.size = 2 := by decide
    rw [h2] at hwalk halign
    rw [abcde_rungs rungs hwalk, abcde_cell_2_2.1] at halign
    exact ⟨w, halign⟩
  · rw [computeBLEU2_eq_overlap]
    exact congrArg some abcde_overlap_0
  · rw [computeBLEU2_eq_overlap]
    exact congrArg some abcde_overlap_1

/-- C13: for source `["a b", "c d"]` and target `["a b c d"]` the loader builds
corpora of two sentences and of one, `S(2, 1)` returns 1 and records the rung
type `(2, 1)` at cell `(2, 1)`, `backTrack(2, 1)` returns the single rung
`(i=2, j=1, iType=2, jType=1)`, and every path to cell `(2, 1)` of rung types
`(0, 1)`, `(1, 0)`, `(1, 1)` only scores less than 1. -/
theorem merged_rung_wins :
    Corpus.load (fun _ => 0) 64 [bytes "a b", bytes "c d"] = some abcdSplit ∧
      Corpus.load (fun _ => 0) 64 [bytes "a b c d"] = some abcdWhole ∧
      abcdSplit.size = 2 ∧ abcdWhole.size = 1 ∧
      (∃ w, align 4 abcdSplit abcdWhole = some (1, [⟨2, 1, 2, 1⟩], w) ∧ w.prev 2 1 = (2, 1)) ∧
      ∀ path, (∀ m ∈ path, m ∈ fast) → (pathFrom abcdSplit abcdWhole path).1 = (2, 1) →
        (pathFrom abcdSplit abcdWhole path).2 < 1 := by
  refine ⟨by rfl, by rfl, by decide, by decide, ?_, ?_⟩
  · obtain ⟨rungs, w, halign, hwalk, hinv, hfill⟩ :=
      align_spec abcdSplit abcdWhole 4 (by decide) (by decide) (by decide)
    have h2 : abcdSplit.size = 2 := by decide
    have h1 : abcdWhole.size = 1 := by decide
    rw [h2, h1] at hwalk halign hfill
    have hm := abcd_cell_2_1.2
    rw [walk_stop_eq hwalk (by rw [hm]; decide), hm, abcd_cell_2_1.1] at halign
    refine ⟨w, halign, ?_⟩
    rw [(hinv.val 2 1 (by decide) (by decide) hfill).2, hm]
  · intro path hpath hend
    have h := pathFrom_le_best abcdSplit abcdWhole false path hpath
    rw [hend] at h
    exact lt_of_le_of_lt h abcd_fast_2_1

/-- C15: on corpora the loader has built, in every state of the tables that
calls of `S` lead to from the tables of `main` (`Inv`), the memoised `S(i, j)`
returns the value `specBest` of the pure recurrence, and `specBest` is 0 when
`i == 0` or `j == 0` and otherwise the maximum over the valid moves of the
ten-move list of the value at `(i-a, j-b)` plus the score of the move. The call
leaves such a state, changes no cell of `seen` or `prev` that was set, and
leaves `seen[i][j]` set to the value; on a cell already set it returns the
stored value and changes nothing. -/
theorem S_refines_recurrence (oobS oobT : Nat → Nat) (fuelS fuelT : Nat)
    (linesS linesT : List (List Nat)) (s t : Corpus)
    (hs : Corpus.load oobS fuelS linesS = some s) (ht : Corpus.load oobT fuelT linesT = some t)
    (w : World) (hinv : Inv s t true w) (fuel i j : Nat) (hfuel : i + j < fuel) :
    (∃ w', S fuel i j true w = some (specBest s t i j, w') ∧ Inv s t true w' ∧
      (∀ x y, Filled w x y → w'.seen x y = w.seen x y ∧ w'.prev x y = w.prev x y) ∧
      (1 ≤ i → 1 ≤ j → Filled w' i j ∧ w'.seen i j = specBest s t i j) ∧
      (1 ≤ i → 1 ≤ j → Filled w i j → w' = w ∧ w.seen i j = specBest s t i j)) ∧
    specBest s t i j =
      if i = 0 ∨ j = 0 then 0
      else maxOf ((slow.filter (fun m => decide (i ≥ m.1 ∧ j ≥ m.2))).map
        (fun m => specBest s t (i - m.1) (j - m.2) + specMoveScore s t i j m)) := by
  have hes := load_emptySentence_size hs
  have het := load_emptySentence_size ht
  refine ⟨?_, specBest_eq s t hes het i j⟩
  obtain ⟨w', hS, hinv', -, hfill⟩ := S_spec s t true fuel i j w hfuel hinv
  rw [specBest_eq_best s t hes het]
  refine ⟨w', hS, hinv', S_frame true fuel i j w _ w' hS, ?_, ?_⟩
  · intro hi hj
    exact ⟨hfill hi hj, (hinv'.val i j hi hj (hfill hi hj)).1⟩
  · intro hi hj hf
    obtain ⟨n, rfl⟩ : ∃ n, fuel = n + 1 := ⟨fuel - 1, by omega⟩
    have hS2 : S (n + 1) i j true w = some (best s t true i j, w') := hS
    rw [S_filled true n i j w (by omega) hf] at hS2
    simp only [Option.some.injEq, Prod.mk.injEq] at hS2
    exact ⟨hS2.2.symm, hS2.1⟩

/-- Witness of C15: the cell `(1, 2)` of the corpora `["a"]` and `["b", "a"]`,
from the tables as `main` initialises them. -/
theorem S_refines_recurrence_witness :
    Corpus.load (fun _ => 0) 64 [bytes "a"] = some (corpusOfLines ["a"]) ∧
      Corpus.load (fun _ => 0) 64 [bytes "b", bytes "a"] = some (corpusOfLines ["b", "a"]) ∧
      Inv (corpusOfLines ["a"]) (corpusOfLines ["b", "a"]) true
        (initWorld (corpusOfLines ["a"]) (corpusOfLines ["b", "a"])) ∧
      1 + 2 < 4 ∧
      ∃ w', S 4 1 2 true (initWorld (corpusOfLines ["a"]) (corpusOfLines ["b", "a"]))
          = some (specBest (corpusOfLines ["a"]) (corpusOfLines ["b", "a"]) 1 2, w') :=
  ⟨rfl, rfl, inv_initWorld _ _ true, by decide,
    (S_refines_recurrence (fun _ => 0) (fun _ => 0) 64 64 [bytes "a"] [bytes "b", bytes "a"]
      (corpusOfLines ["a"]) (corpusOfLines ["b", "a"]) rfl rfl _ (inv_initWorld _ _ true)
      4 1 2 (by decide)).1.imp (fun _ h => h.1)⟩

/-- C17: for n-gram sequences sorted by content, `countCommon(n1, n2)` leaves
in `common` the size of the multiset intersection of the two sequences of
texts, which is the sum over the distinct texts `g` of the smaller of the two
numbers of occurrences of `g`. -/
theorem countCommon_multiset_inter (n1 n2 : NGramsByOrder)
    (h1 : (n1.map StringPiece.text).Sorted (fun x y => bytesLt y x = false))
    (h2 : (n2.map StringPiece.text).Sorted (fun x y => bytesLt y x = false)) :
    countCommon n1 n2 =
        Multiset.card
          ((n1.map StringPiece.text : Multiset (List Nat)) ∩ (n2.map StringPiece.text)) ∧
      countCommon n1 n2 =
        Finset.sum ((n1.map StringPiece.text).toFinset ∪ (n2.map StringPiece.text).toFinset)
          (fun g => min (Multiset.count g (n1.map StringPiece.text : Multiset (List Nat)))
            (Multiset.count g (n2.map StringPiece.text : Multiset (List Nat)))) := by
  have h : countCommon n1 n2 = Multiset.card
      ((n1.map StringPiece.text : Multiset (List Nat)) ∩ (n2.map StringPiece.text)) := by
    unfold countCommon
    rw [countLoop_inter _ n1 n2 0 h1 h2 (le_refl _), Nat.zero_add]
  exact ⟨h, h.trans (card_inter_eq_sum _ _)⟩

/-- Witness of C17: the unigrams `a b b` and `b b b c` have the two `b` in
common. -/
theorem countCommon_multiset_inter_witness :
    (abbGrams.map StringPiece.text).Sorted (fun x y => bytesLt y x = false) ∧
      (bbbcGrams.map StringPiece.text).Sorted (fun x y => bytesLt y x = false) ∧
      countCommon abbGrams bbbcGrams = 2 ∧
      countCommon abbGrams bbbcGrams =
        Multiset.card ((abbGrams.map StringPiece.text : Multiset (List Nat))
          ∩ (bbbcGrams.map StringPiece.text)) :=
  ⟨by decide, by decide, by decide,
    (countCommon_multiset_inter abbGrams bbbcGrams (by decide) (by decide)).1⟩

/-- C20, evaluated on the file without lines: the tables `sentenceStarts` and
`tokenStarts` are empty, the bound `sentenceStarts.size() - 1` of the sentence
loop wraps to `2^64 - 1`, so the loop starts with the turn `i = 0`, whose first
statement reads `sentenceStarts[0]` behind the end of the table (the value
`oob 0` of the memory there); and what that turn builds depends on the memory
behind the tables: with zeros it builds a sentence without tokens, with a 3 at
index 1 a sentence of one token. -/
theorem zero_lines_read_out_of_range (oob : Nat → Nat) (fuel : Nat) :
    (readLines []).sentenceStarts = [] ∧ (readLines []).tokenStarts = [] ∧
      subw (readLines []).sentenceStarts.length 1 = SIZE_MOD - 1 ∧
      sentenceLoop oob fuel (readLines []) =
        (sentenceStep oob fuel (readLines []) ⟨0, [], []⟩ 0).bind
          (fun b => ((List.range (SIZE_MOD - 2)).map Nat.succ).foldlM
            (sentenceStep oob fuel (readLines [])) b) ∧
      ¬(0 < (readLines []).sentenceStarts.length) ∧
      vecAt oob (readLines []).sentenceStarts 0 = oob 0 ∧
      (sentenceStep (fun _ => 0) 2 (readLines []) ⟨0, [], []⟩ 0).map
          (fun b => b.m_sentences.map Sentence.size) = some [0] ∧
      (sentenceStep oobThree 2 (readLines []) ⟨0, [], []⟩ 0).map
          (fun b => b.m_sentences.map Sentence.size) = some [1] := by
  refine ⟨rfl, rfl, by decide, sentenceLoop_nil oob fuel, by decide, rfl, by decide, by decide⟩

/-- C22: for corpora the loader has built, with at least one sentence each,
`S` and `backTrack` return, and the overlap scores of the rungs
(`computeBLEU2` of the source and target views of a rung with both types
positive, 0 for the others) sum to the value of `S`; the loop of `main` over
the rungs ends with that sum in `bleuSum` and the number of rungs with both
types positive in `keptRungs`. -/
theorem rung_scores_sum (oobS oobT : Nat → Nat) (fuelS fuelT : Nat)
    (linesS linesT : List (List Nat)) (s t : Corpus)
    (hs : Corpus.load oobS fuelS linesS = some s) (ht : Corpus.load oobT fuelT linesT = some t)
    (h1 : 1 ≤ s.size) (h2 : 1 ≤ t.size) (fuel : Nat) (hfuel : s.size + t.size < fuel) :
    ∃ v rungs w, align fuel s t = some (v, rungs, w) ∧
      (rungs.map (rungBLEU s t)).sum = v ∧
      ∃ a, tally s t rungs = some a ∧ a.bleuSum = v ∧
        a.keptRungs = rungs.countP (fun r => decide (r.iType ≠ 0 ∧ r.jType ≠ 0)) := by
  obtain ⟨rungs, w, halign, hwalk, -, -⟩ := align_spec s t fuel h1 h2 hfuel
  have hsum := walk_score s t (load_emptySentence_size hs) (load_emptySentence_size ht) hwalk
    h1 h2
  refine ⟨_, rungs, w, halign, hsum, ?_⟩
  have hall : ∀ r ∈ rungs, r.iType ≤ r.i ∧ r.jType ≤ r.j ∧ 1 ≤ r.i ∧ 1 ≤ r.j ∧ r.i ≤ s.size ∧
      r.j ≤ t.size := by
    intro r hr
    obtain ⟨hm, hi, hj, hi2, hj2⟩ := walk_mem hwalk h1 h2 r hr
    have hspec := bestMove_spec s t true r.i r.j hj
    rw [← hm] at hspec
    exact ⟨hspec.2.1, hspec.2.2, hi, hj, hi2, hj2⟩
  have hfold := foldlM_tallyStep s t (load_spec hs).1 (load_spec ht).1 (load_built hs)
    (load_built ht) rungs ⟨0, 0⟩ hall
  refine ⟨_, hfold, ?_, ?_⟩
  · simp only [zero_add]
    exact hsum
  · simp only [Nat.zero_add]

/-- Witness of C22, on the corpora `["a"]` and `["b", "a"]`. -/
theorem rung_scores_sum_witness :
    Corpus.load (fun _ => 0) 64 [bytes "a"] = some (corpusOfLines ["a"]) ∧
      Corpus.load (fun _ => 0) 64 [bytes "b", bytes "a"] = some (corpusOfLines ["b", "a"]) ∧
      1 ≤ (corpusOfLines ["a"]).size ∧ 1 ≤ (corpusOfLines ["b", "a"]).size ∧
      (corpusOfLines ["a"]).size + (corpusOfLines ["b", "a"]).size < 4 ∧
      ∃ v rungs w, align 4 (corpusOfLines ["a"]) (corpusOfLines ["b", "a"])
          = some (v, rungs, w) ∧
        (rungs.map (rungBLEU (corpusOfLines ["a"]) (corpusOfLines ["b", "a"]))).sum = v ∧
        ∃ a, tally (corpusOfLines ["a"]) (corpusOfLines ["b", "a"]) rungs = some a ∧
          a.bleuSum = v ∧
          a.keptRungs = rungs.countP (fun r => decide (r.iType ≠ 0 ∧ r.jType ≠ 0)) :=
  ⟨rfl, rfl, by decide, by decide, by decide,
    rung_scores_sum (fun _ => 0) (fun _ => 0) 64 64 [bytes "a"] [bytes "b", bytes "a"]
      (corpusOfLines ["a"]) (corpusOfLines ["b", "a"]) rfl rfl (by decide) (by decide) 4
      (by decide)⟩

/-- C23: on corpora with at least one sentence each `S` and `backTrack`
return; the last rung has `(i, j) == (sourceLen, targetLen)`, every rung `r'`
behind a rung `r` has `r'.i - r'.iType == r.i` and `r'.j - r'.jType == r.j`
(no difference wraps), and the first rung has `i - iType == 0` or
`j - jType == 0`. -/
theorem rungs_linked (s t : Corpus) (fuel : Nat) (hs : 1 ≤ s.size) (ht : 1 ≤ t.size)
    (hfuel : s.size + t.size < fuel) :
    ∃ total rungs w, align fuel s t = some (total, rungs, w) ∧
      (∃ init last, rungs = init ++ [last] ∧ last.i = s.size ∧ last.j = t.size) ∧
      rungs.Chain' (fun r r' => r'.iType ≤ r'.i ∧ r'.jType ≤ r'.j ∧
        r'.i - r'.iType = r.i ∧ r'.j - r'.jType = r.j) ∧
      ∃ first rest, rungs = first :: rest ∧ first.iType ≤ first.i ∧ first.jType ≤ first.j ∧
        (first.i - first.iType = 0 ∨ first.j - first.jType = 0) := by
  obtain ⟨rungs, w, halign, hwalk, -, -⟩ := align_spec s t fuel hs ht hfuel
  obtain ⟨init, hlast⟩ := walk_last hwalk
  obtain ⟨first, rest, hrs, h1, h2, h3, -, -⟩ :=
    walk_sums (fun x y hy => (bestMove_spec s t true x y hy).2) hwalk hs ht
  refine ⟨_, rungs, w, halign, ⟨init, _, hlast, rfl, rfl⟩, (walk_chain hwalk).imp ?_,
    first, rest, hrs, h1, h2, h3⟩
  intro r r' hrr
  omega

/-- Witness of C23, on the corpora `["a"]` and `["b", "a"]`. -/
theorem rungs_linked_witness :
    1 ≤ (corpusOfLines ["a"]).size ∧ 1 ≤ (corpusOfLines ["b", "a"]).size ∧
      (corpusOfLines ["a"]).size + (corpusOfLines ["b", "a"]).size < 4 ∧
      ∃ total rungs w,
        align 4 (corpusOfLines ["a"]) (corpusOfLines ["b", "a"]) = some (total, rungs, w) ∧
        (∃ init last, rungs = init ++ [last] ∧ last.i = (corpusOfLines ["a"]).size ∧
          last.j = (corpusOfLines ["b", "a"]).size) ∧
        rungs.Chain' (fun r r' => r'.iType ≤ r'.i ∧ r'.jType ≤ r'.j ∧
          r'.i - r'.iType = r.i ∧ r'.j - r'.jType = r.j) ∧
        ∃ first rest, rungs = first :: rest ∧ first.iType ≤ first.i ∧
          first.jType ≤ first.j ∧
          (first.i - first.iType = 0 ∨ first.j - first.jType = 0) :=
  ⟨by decide, by decide, by decide, rungs_linked _ _ 4 (by decide) (by decide) (by decide)⟩

/-- C24: on corpora the loader has built `S(i, j)` returns a value of at most
`min(i, j)`, for all `i` and `j`, those with `i <= sourceLen` and
`j <= targetLen` among them. -/
theorem S_le_min (oobS oobT : Nat → Nat) (fuelS fuelT : Nat)
    (linesS linesT : List (List Nat)) (s t : Corpus)
    (hs : Corpus.load oobS fuelS linesS = some s) (ht : Corpus.load oobT fuelT linesT = some t)
    (i j fuel : Nat) (hfuel : i + j < fuel) :
    ∃ v w, S fuel i j true (initWorld s t) = some (v, w) ∧ v ≤ ((min i j : Nat) : ℝ) := by
  obtain ⟨w, hS, -, -, -⟩ :=
    S_spec s t true fuel i j (initWorld s t) hfuel (inv_initWorld s t true)
  exact ⟨_, w, hS, best_le_min s t (load_emptySentence_size hs) (load_emptySentence_size ht)
    true (i + j) i j (le_refl _)⟩

/-- Witness of C24: the last cell of the corpora `["a"]` and `["b", "a"]`. -/
theorem S_le_min_witness :
    Corpus.load (fun _ => 0) 64 [bytes "a"] = some (corpusOfLines ["a"]) ∧
      Corpus.load (fun _ => 0) 64 [bytes "b", bytes "a"] = some (corpusOfLines ["b", "a"]) ∧
      1 + 2 < 4 ∧
      ∃ v w, S 4 1 2 true (initWorld (corpusOfLines ["a"]) (corpusOfLines ["b", "a"]))
          = some (v, w) ∧ v ≤ ((min 1 2 : Nat) : ℝ) :=
  ⟨rfl, rfl, by decide,
    S_le_min (fun _ => 0) (fun _ => 0) 64 64 [bytes "a"] [bytes "b", bytes "a"]
      (corpusOfLines ["a"]) (corpusOfLines ["b", "a"]) rfl rfl 1 2 4 (by decide)⟩

/-- C26: every rung type of the list takes at least one sentence, so that
`S(i, j)` returns once its recursion may go `i + j + 1` deep, and
`backTrack(i, j)` with `i, j >= 1` returns on the tables `S(i, j)` has filled,
with at least one rung and at most `i + j - 1`. -/
theorem S_backTrack_terminate (s t : Corpus) (i j fuel : Nat) (hfuel : i + j < fuel) :
    (∀ m ∈ slow, 1 ≤ m.1 + m.2) ∧
      ∃ v w, S fuel i j true (initWorld s t) = some (v, w) ∧
        (1 ≤ i → 1 ≤ j →
          ∃ rungs, backTrack w.prev fuel i j [] = some rungs ∧ 1 ≤ rungs.length ∧
            rungs.length ≤ i + j - 1) := by
  refine ⟨fun m hm => @rungTypes_pos true m hm, ?_⟩
  obtain ⟨w, hS, hinv, -, hfill⟩ :=
    S_spec s t true fuel i j (initWorld s t) hfuel (inv_initWorld s t true)
  refine ⟨_, w, hS, fun hi hj => ?_⟩
  obtain ⟨rs, hrs⟩ := backTrack_bestMove_total s t true fuel i j hi hj (by omega)
  have hwalk := backTrack_walk _ fuel i j rs hrs
  have hlen := walk_length
    (fun x y _ hy => rungTypes_pos (bestMove_spec s t true x y hy).1) hwalk hi hj
  refine ⟨rs, ?_, hlen.1, by omega⟩
  rw [backTrack_inv hinv fuel i j [] hi hj (hfill hi hj)]
  exact hrs

/-- Witness of C26: the last cell of the corpora `["a"]` and `["b", "a"]`. -/
theorem S_backTrack_terminate_witness :
    1 + 2 < 4 ∧
      ∃ v w, S 4 1 2 true (initWorld (corpusOfLines ["a"]) (corpusOfLines ["b", "a"]))
          = some (v, w) ∧
        (1 ≤ 1 → 1 ≤ 2 →
          ∃ rungs, backTrack w.prev 4 1 2 [] = some rungs ∧ 1 ≤ rungs.length ∧
            rungs.length ≤ 1 + 2 - 1) :=
  ⟨by decide, (S_backTrack_terminate _ _ 1 2 4 (by decide)).2⟩

end MtAlign
